import Mathlib

set_option autoImplicit false
namespace Cyan

/-!
A shallow embedding of the front-end core of the cyan compiler
(string list, string interner, token buffer, lexer, bump allocator, parser),
translated from the Rust sources in src/libcyan and src/cyan-compiler.
Bytes are modelled as natural numbers (values < 256 in well-formed data),
machine integers as Nat with explicit bounds or wrap-around where the source
can overflow, and code paths that panic in Rust as Option results (none).
-/


-- == StrList: src/libcyan/src/util/str_list.rs =================================================

/-- Little-endian byte encoding of a `usize` (x86-64: 8 bytes), modelling
`usize::to_ne_bytes`. The recursion peels one low-order byte at a time. -/
def leBytes : Nat → Nat → List Nat
  | 0, _ => []
  | k + 1, n => n % 256 :: leBytes k (n / 256)

/-- Decoding of a little-endian byte list, modelling `usize::from_ne_bytes`. -/
def leValue (l : List Nat) : Nat := l.foldr (fun b acc => b + 256 * acc) 0

/-- The backing `Vec<u8>` of a `StrList`. The reader-writer lock is irrelevant in the
single-threaded embedding. -/
abbrev StrList : Type := List Nat

/-- Models `StrList::push`: appends the native-endian length header followed by the
bytes, and returns the pre-push length + 1 as the key. -/
def StrList.push (l : StrList) (s : List Nat) : StrList × Nat :=
  (l ++ leBytes 8 s.length ++ s, l.length + 1)

/-- Models `StrList::get`: reads the 8-byte length header at `key - 1` and returns the
following slice of that length. -/
def StrList.get (l : StrList) (key : Nat) : List Nat :=
  let idx := key - 1
  let len := leValue ((l.drop idx).take 8)
  (l.drop (idx + 8)).take len

/-- A key is valid for a string list when its header and the content it describes lie
inside the backing vector (the implicit precondition of `StrList::get`). -/
def StrList.ValidKey (l : StrList) (key : Nat) : Prop :=
  1 ≤ key ∧ (key - 1) + 8 + leValue ((l.drop (key - 1)).take 8) ≤ l.length

instance (l : StrList) (key : Nat) : Decidable (StrList.ValidKey l key) := by
  unfold StrList.ValidKey; infer_instance

-- == fast_hash: src/libcyan/src/util/bits.rs ===================================================

/-- Models `fast_hash`: the sum of `31^(len-i+1) * s[i]` with wrapping `usize`
arithmetic (`wrapping_pow`, `wrapping_mul`, release-mode wrapping addition). -/
def fastHash (s : List Nat) : Nat :=
  (s.enum.foldl
    (fun h ib => (h + 31 ^ (s.length - ib.1 + 1) % 2 ^ 64 * ib.2 % 2 ^ 64) % 2 ^ 64) 0)

-- == StrInterner: src/libcyan/src/util/str_interner.rs =========================================

/-- The linear-probing hash table of `StrInterner`: a vector of optional string-list
keys plus the occupancy counter. -/
structure Table where
  arr : List (Option Nat)
  occupancy : Nat
  deriving DecidableEq

def Table.default : Table := ⟨[], 0⟩

/-- The keys stored in a table, in slot order (used by `grow_table`'s rehash loop). -/
def storedKeys (t : Table) : List Nat := t.arr.filterMap id

/-- Offset of the first empty slot of a probe window, modelling the
`for idx in place..len` search in `insert`. -/
def findNoneIdx : List (Option Nat) → Option Nat
  | [] => none
  | none :: _ => some 0
  | some _ :: rest => (findNoneIdx rest).map (· + 1)

/-- The probe loop of `lookup`: scan forward from the home slot; stop with failure at
the first empty slot (the `?` operator on `table.arr[idx]`), succeed at the first
occupant whose bytes equal `s`. -/
def scanLookup (sl : StrList) (s : List Nat) : List (Option Nat) → Option Nat
  | [] => none
  | none :: _ => none
  | some k :: rest => if StrList.get sl k = s then some k else scanLookup sl s rest

/-- Models `lookup`: `checked_rem` fails (returns `None`) on an empty table, otherwise
probe from `fast_hash(s) % capacity` to the end of the array. -/
def lookup (t : Table) (sl : StrList) (s : List Nat) : Option Nat :=
  if t.arr.length = 0 then none
  else scanLookup sl s (t.arr.drop (fastHash s % t.arr.length))

/-- A pending piece of work of the mutually recursive `insert` / `grow_table` pair:
a single-key insert, a table growth, or the rehash loop over the remaining keys. -/
inductive TableJob where
  | ins (t : Table) (k : Nat)
  | grow (t : Table)
  | insAll (t : Table) (ks : List Nat)

/-- Models `insert` and `grow_table` together (they are mutually recursive in the
source). The `fuel` strictly decreases at every recursive call so the definition is
structural and kernel-evaluable; it only bounds the recursion depth, with exhaustion
modelled as `none`, and the Rust loops always terminate, so every theorem below is
conditional on the fuel sufficing. -/
def tableJobF (sl : StrList) : Nat → TableJob → Option Table
  | 0, _ => none
  | fuel + 1, .ins t k =>
    let s := StrList.get sl k
    let place := if t.arr.length = 0 then 0 else fastHash s % t.arr.length
    match findNoneIdx (t.arr.drop place) with
    | some off => some ⟨t.arr.set (place + off) (some k), t.occupancy + 1⟩
    | none =>
      match tableJobF sl fuel (.grow t) with
      | some t2 => tableJobF sl fuel (.ins t2 k)
      | none => none
  | fuel + 1, .grow t =>
    tableJobF sl fuel
      (.insAll ⟨List.replicate (2 * max 1 t.arr.length) none, 0⟩ (storedKeys t))
  | _ + 1, .insAll t [] => some t
  | fuel + 1, .insAll t (k :: ks) =>
    match tableJobF sl fuel (.ins t k) with
    | some t2 => tableJobF sl fuel (.insAll t2 ks)
    | none => none

/-- Models `insert`: probe from the home slot for an empty slot; if the tail of the
array is full, grow the table and retry. -/
def insertF (sl : StrList) (fuel : Nat) (t : Table) (k : Nat) : Option Table :=
  tableJobF sl fuel (.ins t k)

/-- Models `grow_table`: double the capacity (`2 * max(1, len)`), then reinsert every
stored key in slot order. -/
def growF (sl : StrList) (fuel : Nat) (t : Table) : Option Table :=
  tableJobF sl fuel (.grow t)

/-- The rehash loop of `grow_table`. -/
def insertAllF (sl : StrList) (fuel : Nat) (t : Table) (ks : List Nat) : Option Table :=
  tableJobF sl fuel (.insAll t ks)

/-- The interner: the hash table plus the backing string list. The mutex is irrelevant
in the single-threaded embedding. -/
structure StrInterner where
  table : Table
  str_list : StrList
  deriving DecidableEq

def StrInterner.default : StrInterner := ⟨Table.default, []⟩

/-- The load-factor test `(occupancy as f64) / (len as f64) >= 0.75`. On the empty
table `0.0 / 0.0` is NaN and the comparison is false; for the nonzero sizes reachable
here the f64 division is exact enough that the test equals `4*occ >= 3*len`. -/
def growCondition (t : Table) : Bool :=
  t.arr.length ≠ 0 && 4 * t.occupancy ≥ 3 * t.arr.length

/-- Models `StrInterner::intern`. -/
def internF (fuel : Nat) (I : StrInterner) (s : List Nat) : Option (StrInterner × Nat) :=
  match lookup I.table I.str_list s with
  | some k => some (I, k)
  | none =>
    let t1opt := if growCondition I.table then growF I.str_list fuel I.table
                 else some I.table
    match t1opt with
    | none => none
    | some t1 =>
      let pushed := StrList.push I.str_list s
      match insertF pushed.1 fuel t1 pushed.2 with
      | none => none
      | some t2 => some (⟨t2, pushed.1⟩, pushed.2)

-- == Interner invariants and correctness ========================================================

/-- A key is stored somewhere in the table. -/
def StoredAt (t : Table) (x : Nat) : Prop := ∃ i : Nat, t.arr[i]? = some (some x)

/-- The home slot of a stored key: where its probe sequence starts. -/
def homeSlot (sl : StrList) (len : Nat) (k : Nat) : Nat :=
  fastHash (StrList.get sl k) % len

/-- The linear-probing invariant of the interner's table: every stored key is a valid
string-list key, sits at or after its home slot with no empty slot in between, and no
two distinct slots hold keys with equal bytes. -/
structure TableInv (sl : StrList) (t : Table) : Prop where
  valid : ∀ x, StoredAt t x → StrList.ValidKey sl x
  homeLe : ∀ (i k : Nat), t.arr[i]? = some (some k) → homeSlot sl t.arr.length k ≤ i
  probe : ∀ (i k : Nat), t.arr[i]? = some (some k) →
    ∀ (j : Nat), homeSlot sl t.arr.length k ≤ j → j < i → t.arr[j]? ≠ some none
  inj : ∀ (i j ki kj : Nat), t.arr[i]? = some (some ki) → t.arr[j]? = some (some kj) →
    StrList.get sl ki = StrList.get sl kj → i = j

def InsSpec (fuel : Nat) : Prop :=
  ∀ (sl : StrList) (t t' : Table) (k : Nat),
    insertF sl fuel t k = some t' → TableInv sl t → StrList.ValidKey sl k →
    (∀ x, StoredAt t x → StrList.get sl x ≠ StrList.get sl k) →
    TableInv sl t' ∧ (∀ x, StoredAt t' x ↔ StoredAt t x ∨ x = k)

def GrowSpec (fuel : Nat) : Prop :=
  ∀ (sl : StrList) (t t' : Table),
    growF sl fuel t = some t' → TableInv sl t →
    TableInv sl t' ∧ (∀ x, StoredAt t' x ↔ StoredAt t x)

def InsAllSpec (fuel : Nat) : Prop :=
  ∀ (sl : StrList) (ks : List Nat) (t t' : Table),
    insertAllF sl fuel t ks = some t' → TableInv sl t →
    (∀ k ∈ ks, StrList.ValidKey sl k) →
    List.Pairwise (fun a b => StrList.get sl a ≠ StrList.get sl b) ks →
    (∀ k ∈ ks, ∀ x, StoredAt t x → StrList.get sl x ≠ StrList.get sl k) →
    TableInv sl t' ∧ (∀ x, StoredAt t' x ↔ StoredAt t x ∨ x ∈ ks)

/-- The contract of one `intern` call: the invariant is preserved, the returned key
denotes exactly the argued bytes, the string list only grows, stored keys persist, and
a key already stored with the same bytes is returned unchanged. -/
structure InternPost (I : StrInterner) (s : List Nat) (I' : StrInterner) (k : Nat) :
    Prop where
  inv : TableInv I'.str_list I'.table
  bytes : StrList.get I'.str_list k = s
  validk : StrList.ValidKey I'.str_list k
  stored : StoredAt I'.table k
  ext : ∃ e, I'.str_list = I.str_list ++ e
  mono : ∀ x, StoredAt I.table x → StoredAt I'.table x
  idem : ∀ k0, StoredAt I.table k0 → StrList.get I.str_list k0 = s → k = k0

/-- Interns a list of byte strings in order against one interner, returning the final
interner and the returned keys. -/
def runInternsF (fuel : Nat) : StrInterner → List (List Nat) →
    Option (StrInterner × List Nat)
  | I, [] => some (I, [])
  | I, s :: ss =>
    match internF fuel I s with
    | none => none
    | some (I1, k) =>
      match runInternsF fuel I1 ss with
      | none => none
      | some (I2, ks) => some (I2, k :: ks)

structure RunPost (I : StrInterner) (ss : List (List Nat)) (I' : StrInterner)
    (ks : List Nat) : Prop where
  inv : TableInv I'.str_list I'.table
  ext : ∃ e, I'.str_list = I.str_list ++ e
  len : ks.length = ss.length
  bytes : ∀ (i : Nat), i < ss.length → ∃ k s, ks[i]? = some k ∧ ss[i]? = some s ∧
    StrList.get I'.str_list k = s
  pre : ∀ (k0 : Nat), StoredAt I.table k0 → StrList.ValidKey I.str_list k0 →
    ∀ (j : Nat) (s : List Nat), ss[j]? = some s → StrList.get I.str_list k0 = s →
    ks[j]? = some k0
  agree : ∀ (i j : Nat) (si sj : List Nat), ss[i]? = some si → ss[j]? = some sj →
    si = sj → ks[i]? = ks[j]?

-- == Static tokens: src/cyan-compiler/src/tok/tok.rs ===========================================

/-- The closed enumeration of static (keyword / punctuation) tokens, with the same
discriminants 1..31 as the Rust `#[repr(u8)]` enum. -/
inductive StaticTok where
  | If | For | Let | Struct | Enum | Namespace | Import | Break | Continue | Proc
  | OpenParen | CloseParen | OpenCurly | CloseCurly | OpenSquare | CloseSquare
  | LessThan | LessThanEq | GreaterThan | GreaterThanEq | EqEq | NotEq | Eq
  | Colon | ColonColon | Percent | Exclamation | Ampersand | Semicolon | Space | Comma
  deriving DecidableEq

/-- Models `StaticTok::variants`, in declaration order. -/
def StaticTok.variants : List StaticTok :=
  [.If, .For, .Let, .Struct, .Enum, .Namespace, .Import, .Break, .Continue, .Proc,
   .OpenParen, .CloseParen, .OpenCurly, .CloseCurly, .OpenSquare, .CloseSquare,
   .LessThan, .LessThanEq, .GreaterThan, .GreaterThanEq, .EqEq, .NotEq, .Eq,
   .Colon, .ColonColon, .Percent, .Exclamation, .Ampersand, .Semicolon, .Space, .Comma]

/-- Models `StaticTok::id` (the `repr(u8)` discriminant, a `NonZeroU8`). -/
def StaticTok.id : StaticTok → Nat
  | .If => 1 | .For => 2 | .Let => 3 | .Struct => 4 | .Enum => 5 | .Namespace => 6
  | .Import => 7 | .Break => 8 | .Continue => 9 | .Proc => 10 | .OpenParen => 11
  | .CloseParen => 12 | .OpenCurly => 13 | .CloseCurly => 14 | .OpenSquare => 15
  | .CloseSquare => 16 | .LessThan => 17 | .LessThanEq => 18 | .GreaterThan => 19
  | .GreaterThanEq => 20 | .EqEq => 21 | .NotEq => 22 | .Eq => 23 | .Colon => 24
  | .ColonColon => 25 | .Percent => 26 | .Exclamation => 27 | .Ampersand => 28
  | .Semicolon => 29 | .Space => 30 | .Comma => 31

/-- Models `StaticTok::from_id`. -/
def StaticTok.fromId (id : Nat) : Option StaticTok :=
  if id = 0 then none else StaticTok.variants[id - 1]?

/-- Models `StaticTok::source_text`, as ASCII byte values. -/
def StaticTok.sourceText : StaticTok → List Nat
  | .If => [105, 102]
  | .For => [102, 111, 114]
  | .Let => [108, 101, 116]
  | .Struct => [115, 116, 114, 117, 99, 116]
  | .Enum => [101, 110, 117, 109]
  | .Namespace => [110, 97, 109, 101, 115, 112, 97, 99, 101]
  | .Import => [105, 109, 112, 111, 114, 116]
  | .Break => [98, 114, 101, 97, 107]
  | .Continue => [99, 111, 110, 116, 105, 110, 117, 101]
  | .Proc => [112, 114, 111, 99]
  | .OpenParen => [40]
  | .CloseParen => [41]
  | .OpenCurly => [123]
  | .CloseCurly => [125]
  | .OpenSquare => [91]
  | .CloseSquare => [93]
  | .LessThan => [60]
  | .LessThanEq => [60, 61]
  | .GreaterThan => [62]
  | .GreaterThanEq => [62, 61]
  | .EqEq => [61, 61]
  | .NotEq => [33, 61]
  | .Eq => [61]
  | .Colon => [58]
  | .ColonColon => [58, 58]
  | .Percent => [37]
  | .Exclamation => [33]
  | .Ampersand => [38]
  | .Semicolon => [59]
  | .Space => [32]
  | .Comma => [44]

/-- A token as the lexer produces it and as `TokBuf::get` reproduces it, with the
bytes behind each `StrRef` payload resolved to the byte list they denote. -/
inductive Tok where
  | static (s : StaticTok)
  | strLiteral (bytes : List Nat)
  | decIntLiteral (bytes : List Nat)
  | ident (bytes : List Nat)
  | linebreak
  | align (count : Nat)
  | lineComment (bytes : List Nat)
  | unexpected (ch : Nat)
  deriving DecidableEq

-- == Token buffer: src/cyan-compiler/src/tok/tokbuf.rs =========================================

/-- Models `EntryType`, discriminants 1..8. -/
inductive EntryType where
  | staticPack | strLiteral | decIntLiteral | ident | linebreak | align | lineComment
  | unexpected
  deriving DecidableEq

def EntryType.id : EntryType → Nat
  | .staticPack => 1 | .strLiteral => 2 | .decIntLiteral => 3 | .ident => 4
  | .linebreak => 5 | .align => 6 | .lineComment => 7 | .unexpected => 8

def EntryType.variants : List EntryType :=
  [.staticPack, .strLiteral, .decIntLiteral, .ident, .linebreak, .align, .lineComment,
   .unexpected]

def EntryType.fromId (id : Nat) : Option EntryType :=
  if id = 0 then none else EntryType.variants[id - 1]?

/-- A 32-bit dense entry `[kind_id:8 | etc:24]`. -/
structure TokBufEntry where
  data : Nat
  deriving DecidableEq

/-- Models `TokBufEntry::new`; the assert that `etc` leaves the top 8 bits clear
becomes the `none` (panic) case. -/
def TokBufEntry.new (kind : EntryType) (etc : Nat) : Option TokBufEntry :=
  if etc < 2 ^ 24 then some ⟨kind.id * 2 ^ 24 + etc⟩ else none

/-- Models `TokBufEntry::kind` up to the `unwrap` (the caller treats `none` as the
panic of that unwrap). -/
def TokBufEntry.kind (e : TokBufEntry) : Option EntryType :=
  EntryType.fromId (e.data / 2 ^ 24)

/-- Models `TokBufEntry::etc` (`data` with the top kind byte masked off). -/
def TokBufEntry.etc (e : TokBufEntry) : Nat := e.data % 2 ^ 24

/-- Models `Key`: `[addr:24 | pack_idx:8]` packed into 32 bits. -/
structure Key where
  data : Nat
  deriving DecidableEq

def Key.ADDR_MAX : Nat := 2 ^ 24 - 1

def Key.addr (k : Key) : Nat := k.data / 2 ^ 8

def Key.packIdx (k : Key) : Nat := k.data % 2 ^ 8

/-- Models `Key::new`; the assert `addr <= ADDR_MAX` becomes the `none` (panic)
case. `packIdx` is a `u8` in the source, hence < 256 at every call site. -/
def Key.new (addr packIdx : Nat) : Option Key :=
  if addr ≤ Key.ADDR_MAX then some ⟨packIdx + addr * 2 ^ 8⟩ else none

/-- The zero key (`Key::default`), where cursors start. -/
def Key.zero : Key := ⟨0⟩

/-- The token buffer. `interner` models the borrowed `&StrInterner` (shared,
interior-mutable in Rust, threaded through pushes here); `str_table`, `buf` and
`lines` are the owned fields. -/
structure TokBuf where
  interner : StrInterner
  str_table : StrList
  buf : List TokBufEntry
  lines : List Nat
  deriving DecidableEq

/-- Models `TokBuf::new`. -/
def TokBuf.empty (I : StrInterner) : TokBuf := ⟨I, [], [], []⟩

/-- The bit length of a value, fuel-bounded (32 units cover any `u32`). -/
def natBitLen : Nat → Nat → Nat
  | 0, _ => 0
  | fuel + 1, v => if v = 0 then 0 else natBitLen fuel (v / 2) + 1

/-- The number of leading zeros of a `u32`, modelling `u32::leading_zeros`. -/
def u32LeadingZeros (v : Nat) : Nat := 32 - natBitLen 32 v

/-- Models `TokBuf::push_static_tok`: append an empty pack if the last entry is not a
`StaticPack`; then fold the id into the first free slot of the last pack, or start a
new pack when it is full. -/
def TokBuf.pushStaticTok (tb : TokBuf) (stok : StaticTok) : Option TokBuf :=
  let buf0 :=
    match tb.buf.getLast? with
    | some e => if e.kind = some EntryType.staticPack then tb.buf
                else tb.buf ++ [(⟨EntryType.staticPack.id * 2 ^ 24⟩ : TokBufEntry)]
    | none => tb.buf ++ [(⟨EntryType.staticPack.id * 2 ^ 24⟩ : TokBufEntry)]
  match buf0.getLast? with
  | none => none
  | some last =>
    let occupied := 4 - u32LeadingZeros last.etc / 8
    if occupied < 3 then
      match TokBufEntry.new .staticPack ((stok.id <<< (8 * occupied)) ||| last.etc) with
      | none => none
      | some e2 => some { tb with buf := buf0.dropLast ++ [e2] }
    else
      match TokBufEntry.new .staticPack stok.id with
      | none => none
      | some e2 => some { tb with buf := buf0 ++ [e2] }

/-- Models `TokBuf::push_str_literal`: store the bytes in the buffer's own string
table, append the entry, and record the entry's address in `lines` once per linebreak
byte of the literal. -/
def TokBuf.pushStrLiteral (tb : TokBuf) (bytes : List Nat) : Option TokBuf :=
  let pushed := StrList.push tb.str_table bytes
  match TokBufEntry.new .strLiteral pushed.2 with
  | none => none
  | some e =>
    some { tb with
      str_table := pushed.1,
      buf := tb.buf ++ [e],
      lines := tb.lines ++ List.replicate (bytes.count 10) tb.buf.length }

/-- Models `TokBuf::push_dec_int_literal`. -/
def TokBuf.pushDecIntLiteral (tb : TokBuf) (bytes : List Nat) : Option TokBuf :=
  let pushed := StrList.push tb.str_table bytes
  match TokBufEntry.new .decIntLiteral pushed.2 with
  | none => none
  | some e => some { tb with str_table := pushed.1, buf := tb.buf ++ [e] }

/-- Models `TokBuf::push_ident`: intern the bytes in the shared interner and store the
key in the entry. -/
def TokBuf.pushIdent (fuel : Nat) (tb : TokBuf) (bytes : List Nat) : Option TokBuf :=
  match internF fuel tb.interner bytes with
  | none => none
  | some (I2, key) =>
    match TokBufEntry.new .ident key with
    | none => none
    | some e => some { tb with interner := I2, buf := tb.buf ++ [e] }

/-- Models `TokBuf::push_linebreak`. -/
def TokBuf.pushLinebreak (tb : TokBuf) : Option TokBuf :=
  match TokBufEntry.new .linebreak 0 with
  | none => none
  | some e =>
    some { tb with buf := tb.buf ++ [e], lines := tb.lines ++ [tb.buf.length] }

/-- Models `TokBuf::push_align`. -/
def TokBuf.pushAlign (tb : TokBuf) (count : Nat) : Option TokBuf :=
  match TokBufEntry.new .align count with
  | none => none
  | some e => some { tb with buf := tb.buf ++ [e] }

/-- Models `TokBuf::push_line_comment`. -/
def TokBuf.pushLineComment (tb : TokBuf) (bytes : List Nat) : Option TokBuf :=
  let pushed := StrList.push tb.str_table bytes
  match TokBufEntry.new .lineComment pushed.2 with
  | none => none
  | some e => some { tb with str_table := pushed.1, buf := tb.buf ++ [e] }

/-- Models `TokBuf::push_unexpected`. -/
def TokBuf.pushUnexpected (tb : TokBuf) (ch : Nat) : Option TokBuf :=
  match TokBufEntry.new .unexpected ch with
  | none => none
  | some e => some { tb with buf := tb.buf ++ [e] }

/-- Models `TokBuf::push`. -/
def TokBuf.push (fuel : Nat) (tb : TokBuf) : Tok → Option TokBuf
  | .static stok => tb.pushStaticTok stok
  | .strLiteral bytes => tb.pushStrLiteral bytes
  | .decIntLiteral bytes => tb.pushDecIntLiteral bytes
  | .ident bytes => TokBuf.pushIdent fuel tb bytes
  | .linebreak => tb.pushLinebreak
  | .align count => tb.pushAlign count
  | .lineComment bytes => tb.pushLineComment bytes
  | .unexpected ch => tb.pushUnexpected ch

/-- Pushes a whole token sequence in order. -/
def TokBuf.pushAll (fuel : Nat) : List Tok → TokBuf → Option TokBuf
  | [], tb => some tb
  | tok :: rest, tb =>
    match TokBuf.push fuel tb tok with
    | none => none
    | some tb2 => TokBuf.pushAll fuel rest tb2

/-- The outcome of `TokBuf::get`: an internal unwrap panicked (`crash`), the lookup
returned `None` (`notFound`), or a token was produced. -/
inductive GetOut where
  | crash
  | notFound
  | found (t : Tok)
  deriving DecidableEq

/-- The static-token id in pack slot `p` of an etc word: `(etc >> (p*8)).truncate()`. -/
def slotId (etc p : Nat) : Nat := (etc >>> (8 * p)) % 2 ^ 8

/-- Models `TokBuf::get`, with the bytes behind the returned `StrRef`s resolved
eagerly from the side tables. -/
def TokBuf.get (tb : TokBuf) (key : Key) : GetOut :=
  match tb.buf[key.addr]? with
  | none => .notFound
  | some tbe =>
    match tbe.kind with
    | none => .crash
    | some k =>
      if k ≠ EntryType.staticPack ∧ key.packIdx ≠ 0 then .notFound
      else
        match k with
        | .staticPack =>
          if key.packIdx > 2 then .notFound
          else
            let stokId := slotId tbe.etc key.packIdx
            if stokId = 0 then .notFound
            else
              match StaticTok.fromId stokId with
              | none => .crash
              | some s => .found (.static s)
        | .strLiteral =>
          if tbe.etc = 0 then .crash
          else .found (.strLiteral (StrList.get tb.str_table tbe.etc))
        | .decIntLiteral =>
          if tbe.etc = 0 then .crash
          else .found (.decIntLiteral (StrList.get tb.str_table tbe.etc))
        | .ident =>
          if tbe.etc = 0 then .crash
          else .found (.ident (StrList.get tb.interner.str_list tbe.etc))
        | .linebreak => .found .linebreak
        | .align => .found (.align tbe.etc)
        | .lineComment =>
          if tbe.etc = 0 then .crash
          else .found (.lineComment (StrList.get tb.str_table tbe.etc))
        | .unexpected => .found (.unexpected (tbe.etc % 2 ^ 8))

/-- One step of the cursor's `Iterator::next`: `read` then `forward`. The outer
`none` models a panic (a failing `Key::new` assert or a failing unwrap inside `get`);
`some (none, c)` means the buffer is exhausted. -/
def cursorNext (tb : TokBuf) (c : Key) : Option (Option Tok × Key) :=
  match tb.get c with
  | .crash => none
  | .notFound => some (none, c)
  | .found t =>
    match Key.new c.addr (c.packIdx + 1) with
    | none => none
    | some nextPack =>
      match tb.get nextPack with
      | .crash => none
      | .found _ => some (some t, nextPack)
      | .notFound =>
        match Key.new (c.addr + 1) 0 with
        | none => none
        | some nextAddr => some (some t, nextAddr)

/-- Cursor iteration from a position, collecting the tokens read; `none` models a
panic along the way or fuel exhaustion (one fuel unit per token suffices). -/
def cursorToList (tb : TokBuf) : Nat → Key → Option (List Tok)
  | 0, _ => none
  | fuel + 1, c =>
    match cursorNext tb c with
    | none => none
    | some (none, _) => some []
    | some (some t, c2) =>
      match cursorToList tb fuel c2 with
      | none => none
      | some rest => some (t :: rest)

/-- Models `TokBuf::get_line_no`'s `partition_point` binary search: the classic
half-interval loop of `slice::binary_search_by`, written with the window size as
fuel (the window shrinks every iteration, so `l.length` units suffice). -/
def ppGo (pred : Nat → Bool) (l : List Nat) : Nat → Nat → Nat → Nat
  | 0, left, _ => left
  | fuel + 1, left, right =>
    if left < right then
      let mid := left + (right - left) / 2
      if pred (l.getD mid 0) then ppGo pred l fuel (mid + 1) right
      else ppGo pred l fuel left mid
    else left

def partitionPoint (pred : Nat → Bool) (l : List Nat) : Nat :=
  ppGo pred l l.length 0 l.length

/-- Models `TokBuf::get_line_no`. -/
def TokBuf.getLineNo (tb : TokBuf) (tokAddr : Nat) : Nat :=
  partitionPoint (fun lbAddr => decide (lbAddr < tokAddr)) tb.lines

-- == ascii helpers: src/libcyan/src/util/ascii.rs ==============================================

/-- Models `is_alphabetic_ch` exactly as written: the byte range `65 <= ch < 123`
(note this range also contains the non-letters 91..96). -/
def isAlphabeticCh (ch : Nat) : Bool := 65 ≤ ch && ch < 123

/-- Models `is_numeric_ch`. -/
def isNumericCh (ch : Nat) : Bool := 48 ≤ ch && ch < 58

/-- Models `is_alphanumeric_ch`. -/
def isAlphanumericCh (ch : Nat) : Bool := isAlphabeticCh ch || isNumericCh ch

-- == ident classifiers: src/cyan-compiler/src/tok/ident.rs =====================================

/-- Models `is_ident_ch`. -/
def isIdentCh (ch : Nat) : Bool := isAlphanumericCh ch || ch == 95

/-- Models `is_ident_chs`. -/
def isIdentChs (s : List Nat) : Bool := s.all isIdentCh

/-- Models `is_ident_prefix_ch`. -/
def isIdentPrefixCh (ch : Nat) : Bool := isAlphabeticCh ch || ch == 95

/-- Models `is_ident_str` (first byte an ident-prefix byte, every byte an ident
byte). -/
def isIdentStr (s : List Nat) : Bool :=
  match s with
  | [] => false
  | c :: _ => isIdentPrefixCh c && isIdentChs s

/-- Models `iter_ident_prefix_chs`: underscore, then the `ALPHABET` range 65..123. -/
def identPrefixChs : List Nat := 95 :: List.range' 65 58

-- == PrefixTree: src/libcyan/src/util/prefix_tree.rs ===========================================

/-- A prefix tree: an optional value at this node plus a table of child nodes keyed by
byte. The source backs the table with a sorted array and binary search; an
association list with the same lookup results models it. -/
inductive PrefixTree (V : Type) where
  | node (value : Option V) (table : List (Nat × PrefixTree V))

def PrefixTree.value {V : Type} : PrefixTree V → Option V
  | .node v _ => v

/-- Models `Table::get` (binary search by key in the sorted array). -/
def tableGet {V : Type} (table : List (Nat × PrefixTree V)) (key : Nat) :
    Option (PrefixTree V) :=
  match table with
  | [] => none
  | (k, t) :: rest => if k = key then some t else tableGet rest key

/-- Models `Table::entry`'s insert-or-reuse followed by writing back the updated
child. -/
def tableSet {V : Type} (table : List (Nat × PrefixTree V)) (key : Nat)
    (c : PrefixTree V) : List (Nat × PrefixTree V) :=
  match table with
  | [] => [(key, c)]
  | (k, t) :: rest => if k = key then (k, c) :: rest else (k, t) :: tableSet rest key c

/-- Models `PrefixTree::get`: deepest match wins, falling back to this node's value. -/
def PrefixTree.get {V : Type} : PrefixTree V → List Nat → Option V
  | .node val _, [] => val
  | .node val table, b :: rest =>
    match tableGet table b with
    | some child =>
      match child.get rest with
      | some v => some v
      | none => val
    | none => val

/-- Models `PrefixTree::insert_seq` / `insert_iter` (replacing any previous value at
the end of the path). -/
def PrefixTree.insertSeq {V : Type} : PrefixTree V → List Nat → V → PrefixTree V
  | .node _ table, [], v => .node (some v) table
  | .node val table, b :: rest, v =>
    let child := match tableGet table b with
      | some c => c
      | none => .node none []
    .node val (tableSet table b (child.insertSeq rest v))

/-- All `(path, value)` pairs present in a tree, depth-bounded by fuel (the concrete
lexer tree has depth 9, so any fuel above that is exact). -/
def PrefixTree.entriesF {V : Type} : Nat → PrefixTree V → List (List Nat × V)
  | 0, _ => []
  | fuel + 1, .node val table =>
    (match val with
     | some v => [(([] : List Nat), v)]
     | none => []) ++
    table.flatMap (fun e => (PrefixTree.entriesF fuel e.2).map (fun p => (e.1 :: p.1, p.2)))

-- == Lexer: src/libcyan/src/tok/lex.rs =========================================================

/-- The `Prefix` dispatch categories registered in the lexer's prefix tree. -/
inductive LexHit where
  | doubleQuote
  | digit
  | staticTok (s : StaticTok)
  | linebreakHit
  | spaceHit
  | doubleForwardSlash
  | identPrefixChHit
  deriving DecidableEq

/-- Models `PREFIX_TREE`, with the insertions in source order: the double quote, the
digits, every static token's source text, the linebreak, the space, the double
forward slash, and finally every identifier-prefix byte (the last insertions
overwrite any single-byte static entries sharing those bytes). -/
def lexPrefixTree : PrefixTree LexHit :=
  let t1 := (PrefixTree.node none []).insertSeq [34] .doubleQuote
  let t2 := (List.range' 48 10).foldl (fun t d => t.insertSeq [d] .digit) t1
  let t3 := StaticTok.variants.foldl
    (fun t st => t.insertSeq st.sourceText (.staticTok st)) t2
  let t4 := t3.insertSeq [10] .linebreakHit
  let t5 := t4.insertSeq [32] .spaceHit
  let t6 := t5.insertSeq [47, 47] .doubleForwardSlash
  identPrefixChs.foldl (fun t c => t.insertSeq [c] .identPrefixChHit) t6

/-- Models `ByteStream::advance_while`: the position after consuming the maximal run
satisfying the predicate. -/
def advanceWhile (bytes : List Nat) (pos : Nat) (pred : Nat → Bool) : Nat :=
  pos + ((bytes.drop pos).takeWhile pred).length

/-- Models `lex_ident_prefix_ch`: consume the (asserted) prefix byte, then `assume_n`
further bytes, then the maximal identifier-byte run; emit an `Ident` over the span.
The `Ident::new` assert `is_ident_str` holds on every reachable call. -/
def lexIdentAt (bytes : List Nat) (pos assumeN : Nat) : Tok × Nat :=
  let p2 := advanceWhile bytes (pos + 1 + assumeN) isIdentCh
  (.ident ((bytes.drop pos).take (p2 - pos)), p2)

/-- One iteration of `lex_loop`: dispatch on the deepest prefix-tree hit at the
current position and run the matching `lex_*` handler. Returns the single token the
handler pushes and the new stream position. -/
def lexStep (bytes : List Nat) (pos : Nat) : Tok × Nat :=
  match lexPrefixTree.get (bytes.drop pos) with
  | some .doubleQuote =>
    let p2 := advanceWhile bytes (pos + 1) (fun ch => !(ch == 34))
    let p3 := match bytes[p2]? with
      | some c => if c = 34 then p2 + 1 else p2
      | none => p2
    (.strLiteral ((bytes.drop pos).take (p3 - pos)), p3)
  | some .digit =>
    let p2 := advanceWhile bytes pos isNumericCh
    (.decIntLiteral ((bytes.drop pos).take (p2 - pos)), p2)
  | some (.staticTok st) =>
    if isIdentStr st.sourceText &&
        (match bytes[pos + st.sourceText.length]? with
         | some next => isIdentCh next
         | none => false) then
      lexIdentAt bytes pos st.sourceText.length
    else
      (.static st, pos + st.sourceText.length)
  | some .linebreakHit => (.linebreak, pos + 1)
  | some .spaceHit =>
    let p2 := advanceWhile bytes pos (fun ch => ch == 32)
    if p2 - pos > 1 then (.align (p2 - pos), p2) else (.static .Space, p2)
  | some .doubleForwardSlash =>
    let p2 := advanceWhile bytes (pos + 2) (fun ch => !(ch == 10))
    (.lineComment ((bytes.drop (pos + 2)).take (p2 - (pos + 2))), p2)
  | some .identPrefixChHit => lexIdentAt bytes pos 0
  | none => (.unexpected (bytes.getD pos 0), pos + 1)

/-- Models `lex_loop`, with the remaining input length as fuel (each iteration
consumes at least one byte, so `bytes.length` units suffice). Returns the emitted
tokens and the final stream position. -/
def lexLoopF (bytes : List Nat) : Nat → Nat → List Tok × Nat
  | 0, pos => ([], pos)
  | fuel + 1, pos =>
    if pos < bytes.length then
      let step := lexStep bytes pos
      let rest := lexLoopF bytes fuel step.2
      (step.1 :: rest.1, rest.2)
    else ([], pos)

/-- The token sequence `lex` pushes into the token buffer. -/
def lexToks (bytes : List Nat) : List Tok := (lexLoopF bytes bytes.length 0).1

/-- Models `lex`: run the loop over a fresh token buffer borrowing the interner
(`shrink_to_fit` only affects capacity and is omitted). -/
def lex (fuel : Nat) (bytes : List Nat) (I : StrInterner) : Option TokBuf :=
  TokBuf.pushAll fuel (lexToks bytes) (TokBuf.empty I)

/-- An ASCII letter in the ordinary sense (A-Z or a-z); used to state what the spec
means by "letter", in contrast to the source's `is_alphabetic_ch` range. -/
def isAsciiLetter (b : Nat) : Bool := (65 ≤ b && b ≤ 90) || (97 ≤ b && b ≤ 122)

-- == BumpAllocator: src/libcyan/src/util/bump_allocator.rs =====================================

/-- The bump arena for values of type `V`, all of one size and of the arena's
alignment (the per-call alignment and `needs_drop` asserts are compile-time type
facts satisfied at every reachable call). `mem o` is the typed value whose bytes sit
at offset `o`, `none` where nothing was written. -/
structure BumpAllocator (V : Type) where
  size : Nat
  mem : Nat → Option V
  pos : Nat

/-- Models `BumpAllocator::new` (a fresh, uninitialized arena of `size` bytes). -/
def BumpAllocator.new (V : Type) (size : Nat) : BumpAllocator V :=
  ⟨size, fun _ => none, 0⟩

/-- Models `BumpAllocator::bump` for a value type of byte size `sz`. The space and
key-width asserts become the `none` case. Faithful to the source's store: the code
computes `ptr = self.ptr.add(self.pos)` but then writes through `self.ptr as *mut T`,
so every value is written at offset 0, while the returned handle is `pos + 1` and
`pos` advances by `size_of::<T>()`. -/
def BumpAllocator.bump {V : Type} (sz : Nat) (a : BumpAllocator V) (v : V) :
    Option (BumpAllocator V × Nat) :=
  if sz ≤ a.size - a.pos ∧ a.pos + 1 < 2 ^ 32 then
    some (⟨a.size, fun o => if o = 0 then some v else a.mem o, a.pos + sz⟩, a.pos + 1)
  else none

/-- Models dereferencing `BumpAllocator::get` / `get_mut`: the offset-bound assert
becomes the `none` case, and reading an offset where nothing was written is `none`. -/
def BumpAllocator.get {V : Type} (a : BumpAllocator V) (handle : Nat) : Option V :=
  if handle - 1 < a.size then a.mem (handle - 1) else none

/-- Models `BumpAllocator::shrink_to_fit`: the allocation is truncated to `pos`;
`realloc` preserves the retained prefix, so `mem` is unchanged. -/
def BumpAllocator.shrink {V : Type} (a : BumpAllocator V) : BumpAllocator V :=
  ⟨a.pos, a.mem, a.pos⟩

/-- What the spec says `bump` does: store the value at the current cursor offset.
Modelled from the spec for comparison with the code's behaviour. -/
def BumpAllocator.bumpSpec {V : Type} (sz : Nat) (a : BumpAllocator V) (v : V) :
    Option (BumpAllocator V × Nat) :=
  if sz ≤ a.size - a.pos ∧ a.pos + 1 < 2 ^ 32 then
    some (⟨a.size, fun o => if o = a.pos then some v else a.mem o, a.pos + sz⟩,
      a.pos + 1)
  else none

-- == Token classes: src/libcyan/src/tok/class.rs ===============================================

/-- Models `Formatting::match` (a single space, a linebreak, or an align run). -/
def formattingMatch : Tok → Bool
  | .static .Space => true
  | .linebreak => true
  | .align _ => true
  | _ => false

/-- Models `Ident::match` (classification only; the view is the ident itself). -/
def identMatch : Tok → Bool
  | .ident _ => true
  | _ => false

/-- Models the per-delimiter classes generated by `make_delim_class`. -/
def staticMatch (st : StaticTok) : Tok → Bool
  | .static s => s = st
  | _ => false

/-- Models `LineComment::match`. -/
def lineCommentMatch : Tok → Bool
  | .lineComment _ => true
  | _ => false

/-- The view of `ItemDeclarator`. -/
inductive ItemDecl where
  | procD | structD | enumD | lineCommentD
  deriving DecidableEq

/-- Models `ItemDeclarator::match`. -/
def itemDeclaratorMatch : Tok → Option ItemDecl
  | .static .Proc => some .procD
  | .static .Struct => some .structD
  | .static .Enum => some .enumD
  | .lineComment _ => some .lineCommentD
  | _ => none

-- == Token stream and parser: src/libcyan/src/parse/parse.rs ===================================

/-- Models `TokCursor::read` against a buffer; the outer `none` is the panic of an
unwrap inside `get`, `some none` is end-of-buffer / no token here. -/
def cursorRead (tb : TokBuf) (c : Key) : Option (Option Tok) :=
  match tb.get c with
  | .crash => none
  | .notFound => some none
  | .found t => some (some t)

/-- Models the cursor advance (`forward`): a no-op at end of buffer, else the next
pack slot when occupied, else the next address. The outer `none` is a panicking
`Key::new` assert. -/
def cursorForward (tb : TokBuf) (c : Key) : Option Key :=
  (cursorNext tb c).map (·.2)

/-- Modelled from the spec: `has_next()` on the cursor (the libcyan `TokCursor` that
`parse_root`'s `while` guard calls is not under src/; the spec lists `has_next` among
the cursor operations, true exactly when a token remains at the cursor). -/
def cursorHasNext (tb : TokBuf) (c : Key) : Option Bool :=
  match tb.get c with
  | .crash => none
  | .notFound => some false
  | .found _ => some true

/-- Models `TokStream::discard`: consume while the next token matches the class. -/
def discardF (tb : TokBuf) (matchC : Tok → Bool) : Nat → Key → Option Key
  | 0, _ => none
  | fuel + 1, c =>
    match cursorRead tb c with
    | none => none
    | some none => some c
    | some (some t) =>
      if matchC t then
        match cursorForward tb c with
        | none => none
        | some c2 => discardF tb matchC fuel c2
      else some c

/-- Models `TokStream::sync`: advance up to (not including) the next token of the
class, or to end-of-buffer. -/
def syncF (tb : TokBuf) (matchC : Tok → Bool) : Nat → Key → Option Key
  | 0, _ => none
  | fuel + 1, c =>
    match cursorRead tb c with
    | none => none
    | some none => some c
    | some (some t) =>
      if matchC t then some c
      else
        match cursorForward tb c with
        | none => none
        | some c2 => syncF tb matchC fuel c2

/-- Models `TokStream::consume_ref`: discard formatting, then consume and return a
reference if the next token matches; the discarded position persists either way. -/
def consumeRefF (tb : TokBuf) (matchC : Tok → Bool) (fuel : Nat) (c : Key) :
    Option (Option Key × Key) :=
  match discardF tb formattingMatch fuel c with
  | none => none
  | some c1 =>
    match cursorRead tb c1 with
    | none => none
    | some none => some (none, c1)
    | some (some t) =>
      if matchC t then
        match cursorForward tb c1 with
        | none => none
        | some c2 => some (some c1, c2)
      else some (none, c1)

/-- Models `TokStream::peek` for `ItemDeclarator` (discard formatting, classify
without consuming). -/
def peekItemDeclF (tb : TokBuf) (fuel : Nat) (c : Key) :
    Option (Option ItemDecl × Key) :=
  match discardF tb formattingMatch fuel c with
  | none => none
  | some c1 =>
    match cursorRead tb c1 with
    | none => none
    | some none => some (none, c1)
    | some (some t) => some (itemDeclaratorMatch t, c1)

/-- Models `TokStream::peek` for a boolean (delimiter) class. -/
def peekF (tb : TokBuf) (matchC : Tok → Bool) (fuel : Nat) (c : Key) :
    Option (Bool × Key) :=
  match discardF tb formattingMatch fuel c with
  | none => none
  | some c1 =>
    match cursorRead tb c1 with
    | none => none
    | some none => some (false, c1)
    | some (some t) => some (matchC t, c1)

/-- Models `TokStream::assert_ref`: no formatting skip; the implementation panic on a
mismatch or end-of-buffer is the `none` case. -/
def assertRefF (tb : TokBuf) (matchC : Tok → Bool) (c : Key) : Option (Key × Key) :=
  match cursorRead tb c with
  | none => none
  | some none => none
  | some (some t) =>
    if matchC t then
      match cursorForward tb c with
      | none => none
      | some c2 => some (c, c2)
    else none

/-- Models `diagnostic::MissingTok` (the diagnostic kind pushed by `expect_ref` and
the root loop): the source-unit id and the key the parser was looking at. -/
structure MissingTok where
  sourceUnit : Nat
  atKey : Key
  deriving DecidableEq

/-- Models `ParsePanic`. -/
structure ParsePanic where
  deriving DecidableEq

/-- The mutable parser state threaded through `ParseContext`: the cursor position and
the diagnostics out-vector. The arena is modelled by materializing each linked list
the parser builds as a Lean list (`extend_ll` appends one node per call). -/
structure PSt where
  pos : Key
  diags : List MissingTok
  deriving DecidableEq

/-- Models `ParseContext::expect_ref`: `consume_ref`, else push a `MissingTok` at the
cursor and return the panic. -/
def expectRefF (tb : TokBuf) (su : Nat) (matchC : Tok → Bool) (fuel : Nat) (st : PSt) :
    Option (Except ParsePanic Key × PSt) :=
  match consumeRefF tb matchC fuel st.pos with
  | none => none
  | some (some ref, c2) => some (.ok ref, { st with pos := c2 })
  | some (none, c1) =>
    some (.error ⟨⟩,
      { pos := c1, diags := st.diags ++ [⟨su, c1⟩] })

-- AST nodes as built by parse.rs. Modelled from the spec: the revision of
-- libcyan/src/parse/ast.rs matching parse.rs is not under src/ (src/ holds an older
-- revision lacking these node shapes); fields follow parse.rs's constructor calls and
-- the spec's grammar, with `TokRef<C>` as `Key` and arena handles flattened to lists.
inductive AstType where
  | namedType (ident : Key) (arguments : Option (Key × List (AstType × Option Key) × Key))

/-- Modelled from the spec: `Parameter = Ident ':' Type` plus the optional trailing
comma reference, as constructed by `parse_parameters`. -/
structure AstParameter where
  ident : Key
  colon : Key
  ty : AstType
  comma : Option Key

/-- Modelled from the spec: `Parameters = '(' (Parameter (',' Parameter)* ','?)? ')'`. -/
structure AstParameters where
  openParen : Key
  closeParen : Key
  params : List AstParameter

/-- Modelled from the spec: `ImperativeBlock = '{' Statement* '}'` (statement bodies
are future work in the source; the list stays empty). -/
structure AstBlock where
  openCurly : Key
  closeCurly : Key
  deriving DecidableEq

/-- Modelled from the spec: `ProcDefinition = proc Ident Parameters ':' Type Block`. -/
structure AstProcDef where
  procKeyword : Key
  ident : Key
  parameters : AstParameters
  returnTypeSeparator : Key
  returnType : AstType
  body : AstBlock

/-- Modelled from the spec: the top-level item union built by `parse_tl_item`. -/
inductive AstTopLevelItem where
  | procItem (d : AstProcDef)
  | lineCommentItem (tok : Key)

mutual

/-- Models `parse_type`: an `Ident`, then type arguments when a `<` follows. -/
def parseTypeF (tb : TokBuf) (su : Nat) : Nat → PSt → Option (Except ParsePanic AstType × PSt)
  | 0, _ => none
  | fuel + 1, st =>
    match expectRefF tb su identMatch fuel st with
    | none => none
    | some (.error p, st2) => some (.error p, st2)
    | some (.ok ident, st2) =>
      match peekF tb (staticMatch .LessThan) fuel st2.pos with
      | none => none
      | some (false, c1) => some (.ok (.namedType ident none), { st2 with pos := c1 })
      | some (true, c1) =>
        match parseTypeArgumentsF tb su fuel { st2 with pos := c1 } with
        | none => none
        | some (.error p, st3) => some (.error p, st3)
        | some (.ok args, st3) => some (.ok (.namedType ident (some args)), st3)

/-- Models `parse_type_arguments`: `<`, a comma-separated type list, `>`. -/
def parseTypeArgumentsF (tb : TokBuf) (su : Nat) : Nat → PSt →
    Option (Except ParsePanic (Key × List (AstType × Option Key) × Key) × PSt)
  | 0, _ => none
  | fuel + 1, st =>
    match assertRefF tb (staticMatch .LessThan) st.pos with
    | none => none
    | some (openAngle, c2) =>
      match parseTypeArgsLoopF tb su fuel { st with pos := c2 } with
      | none => none
      | some (.error p, st2) => some (.error p, st2)
      | some (.ok args, st2) =>
        match expectRefF tb su (staticMatch .GreaterThan) fuel st2 with
        | none => none
        | some (.error p, st3) => some (.error p, st3)
        | some (.ok closeAngle, st3) => some (.ok (openAngle, args, closeAngle), st3)

/-- The list loop inside `parse_type_arguments`. -/
def parseTypeArgsLoopF (tb : TokBuf) (su : Nat) : Nat → PSt →
    Option (Except ParsePanic (List (AstType × Option Key)) × PSt)
  | 0, _ => none
  | fuel + 1, st =>
    match cursorHasNext tb st.pos with
    | none => none
    | some false => some (.ok [], st)
    | some true =>
      match peekF tb (staticMatch .GreaterThan) fuel st.pos with
      | none => none
      | some (true, c1) => some (.ok [], { st with pos := c1 })
      | some (false, c1) =>
        match parseTypeF tb su fuel { st with pos := c1 } with
        | none => none
        | some (.error p, st2) => some (.error p, st2)
        | some (.ok ty, st2) =>
          match consumeRefF tb (staticMatch .Comma) fuel st2.pos with
          | none => none
          | some (none, c2) => some (.ok [(ty, none)], { st2 with pos := c2 })
          | some (some comma, c2) =>
            match parseTypeArgsLoopF tb su fuel { st2 with pos := c2 } with
            | none => none
            | some (.error p, st3) => some (.error p, st3)
            | some (.ok rest, st3) => some (.ok ((ty, some comma) :: rest), st3)

/-- Models `parse_parameters`. -/
def parseParametersF (tb : TokBuf) (su : Nat) : Nat → PSt →
    Option (Except ParsePanic AstParameters × PSt)
  | 0, _ => none
  | fuel + 1, st =>
    match expectRefF tb su (staticMatch .OpenParen) fuel st with
    | none => none
    | some (.error p, st2) => some (.error p, st2)
    | some (.ok openParen, st2) =>
      match parseParamsLoopF tb su fuel st2 with
      | none => none
      | some (.error p, st3) => some (.error p, st3)
      | some (.ok params, st3) =>
        match expectRefF tb su (staticMatch .CloseParen) fuel st3 with
        | none => none
        | some (.error p, st4) => some (.error p, st4)
        | some (.ok closeParen, st4) =>
          some (.ok ⟨openParen, closeParen, params⟩, st4)

/-- The list loop inside `parse_parameters`. -/
def parseParamsLoopF (tb : TokBuf) (su : Nat) : Nat → PSt →
    Option (Except ParsePanic (List AstParameter) × PSt)
  | 0, _ => none
  | fuel + 1, st =>
    match cursorHasNext tb st.pos with
    | none => none
    | some false => some (.ok [], st)
    | some true =>
      match peekF tb (staticMatch .CloseParen) fuel st.pos with
      | none => none
      | some (true, c1) => some (.ok [], { st with pos := c1 })
      | some (false, c1) =>
        match expectRefF tb su identMatch fuel { st with pos := c1 } with
        | none => none
        | some (.error p, st2) => some (.error p, st2)
        | some (.ok ident, st2) =>
          match expectRefF tb su (staticMatch .Colon) fuel st2 with
          | none => none
          | some (.error p, st3) => some (.error p, st3)
          | some (.ok colon, st3) =>
            match parseTypeF tb su fuel st3 with
            | none => none
            | some (.error p, st4) => some (.error p, st4)
            | some (.ok ty, st4) =>
              match consumeRefF tb (staticMatch .Comma) fuel st4.pos with
              | none => none
              | some (none, c2) =>
                some (.ok [⟨ident, colon, ty, none⟩], { st4 with pos := c2 })
              | some (some comma, c2) =>
                match parseParamsLoopF tb su fuel { st4 with pos := c2 } with
                | none => none
                | some (.error p, st5) => some (.error p, st5)
                | some (.ok rest, st5) =>
                  some (.ok (⟨ident, colon, ty, some comma⟩ :: rest), st5)

/-- Models `parse_imperative_block`; statement parsing is `TODO` in the source, so
the loop only skips formatting and otherwise spins (fuel exhaustion models the
resulting infinite loop on unexpected content). -/
def parseImperativeBlockF (tb : TokBuf) (su : Nat) : Nat → PSt →
    Option (Except ParsePanic AstBlock × PSt)
  | 0, _ => none
  | fuel + 1, st =>
    match expectRefF tb su (staticMatch .OpenCurly) fuel st with
    | none => none
    | some (.error p, st2) => some (.error p, st2)
    | some (.ok openCurly, st2) =>
      match parseBlockLoopF tb su fuel st2 with
      | none => none
      | some st3 =>
        match expectRefF tb su (staticMatch .CloseCurly) fuel st3 with
        | none => none
        | some (.error p, st4) => some (.error p, st4)
        | some (.ok closeCurly, st4) => some (.ok ⟨openCurly, closeCurly⟩, st4)

/-- The (statement-less) loop inside `parse_imperative_block`. -/
def parseBlockLoopF (tb : TokBuf) (su : Nat) : Nat → PSt → Option PSt
  | 0, _ => none
  | fuel + 1, st =>
    match cursorHasNext tb st.pos with
    | none => none
    | some false => some st
    | some true =>
      match peekF tb (staticMatch .CloseCurly) fuel st.pos with
      | none => none
      | some (true, c1) => some { st with pos := c1 }
      | some (false, c1) => parseBlockLoopF tb su fuel { st with pos := c1 }

/-- Models `parse_proc_def`. -/
def parseProcDefF (tb : TokBuf) (su : Nat) : Nat → PSt →
    Option (Except ParsePanic AstProcDef × PSt)
  | 0, _ => none
  | fuel + 1, st =>
    match assertRefF tb (staticMatch .Proc) st.pos with
    | none => none
    | some (procKeyword, c2) =>
      match expectRefF tb su identMatch fuel { st with pos := c2 } with
      | none => none
      | some (.error p, st2) => some (.error p, st2)
      | some (.ok ident, st2) =>
        match parseParametersF tb su fuel st2 with
        | none => none
        | some (.error p, st3) => some (.error p, st3)
        | some (.ok parameters, st3) =>
          match expectRefF tb su (staticMatch .Colon) fuel st3 with
          | none => none
          | some (.error p, st4) => some (.error p, st4)
          | some (.ok sep, st4) =>
            match parseTypeF tb su fuel st4 with
            | none => none
            | some (.error p, st5) => some (.error p, st5)
            | some (.ok returnType, st5) =>
              match parseImperativeBlockF tb su fuel st5 with
              | none => none
              | some (.error p, st6) => some (.error p, st6)
              | some (.ok body, st6) =>
                some (.ok ⟨procKeyword, ident, parameters, sep, returnType, body⟩, st6)

/-- Models `parse_tl_item` (struct and enum bodies are `todo!()`, an abort). -/
def parseTlItemF (tb : TokBuf) (su : Nat) : Nat → ItemDecl → PSt →
    Option (Except ParsePanic AstTopLevelItem × PSt)
  | 0, _, _ => none
  | fuel + 1, d, st =>
    match d with
    | .procD =>
      match parseProcDefF tb su fuel st with
      | none => none
      | some (.error p, st2) => some (.error p, st2)
      | some (.ok pd, st2) => some (.ok (.procItem pd), st2)
    | .structD => none
    | .enumD => none
    | .lineCommentD =>
      match assertRefF tb lineCommentMatch st.pos with
      | none => none
      | some (tok, c2) => some (.ok (.lineCommentItem tok), { st with pos := c2 })

/-- Models `parse_root`: while tokens remain, peek an `ItemDeclarator` (emitting a
`MissingTok` and syncing when absent), parse the item, and append it to the root
list; on a panic, sync to the next declarator and continue. -/
def parseRootF (tb : TokBuf) (su : Nat) : Nat → PSt →
    Option (List AstTopLevelItem × PSt)
  | 0, _ => none
  | fuel + 1, st =>
    match cursorHasNext tb st.pos with
    | none => none
    | some false => some ([], st)
    | some true =>
      match peekItemDeclF tb fuel st.pos with
      | none => none
      | some (none, c1) =>
        match syncF tb (fun t => (itemDeclaratorMatch t).isSome) fuel c1 with
        | none => none
        | some c2 =>
          match parseRootF tb su fuel
              { pos := c2, diags := st.diags ++ [⟨su, c1⟩] } with
          | none => none
          | some (items, st2) => some (items, st2)
      | some (some d, c1) =>
        match parseTlItemF tb su fuel d { st with pos := c1 } with
        | none => none
        | some (.error _, st2) =>
          match syncF tb (fun t => (itemDeclaratorMatch t).isSome) fuel st2.pos with
          | none => none
          | some c2 =>
            match parseRootF tb su fuel { st2 with pos := c2 } with
            | none => none
            | some (items, st3) => some (items, st3)
        | some (.ok item, st2) =>
          match parseRootF tb su fuel st2 with
          | none => none
          | some (items, st3) => some (item :: items, st3)

end

/-- Models `parse`: run the root parser over a fresh stream (the arena allocation and
`shrink_to_fit` have no observable effect on the root list or diagnostics). -/
def parseF (tb : TokBuf) (su : Nat) (fuel : Nat) :
    Option (List AstTopLevelItem × List MissingTok) :=
  match parseRootF tb su fuel ⟨Key.zero, []⟩ with
  | none => none
  | some (items, st) => some (items, st.diags)

/-- The well-formed shape of a non-empty static-pack `etc`: `o` ids stored
contiguously from slot 0, each a valid static-token id, with zeros above. -/
def PackInv (etc o : Nat) : Prop :=
  1 ≤ o ∧ o ≤ 3 ∧
  (∀ p, p < o → slotId etc p ≠ 0 ∧ (StaticTok.fromId (slotId etc p)).isSome) ∧
  (∀ p, o ≤ p → p < 3 → slotId etc p = 0) ∧
  2 ^ (8 * (o - 1)) ≤ etc ∧ etc < 2 ^ (8 * o)

-- == Claim C7 ==================================================================================

/-- The number of dense entries a run of `n` further static tokens will allocate when
the last entry is a pack with `o` occupants (`o = 0`: no pack to extend). -/
def staticAdded (n o : Nat) : Nat :=
  if o = 0 then (n + 2) / 3 else (n + o + 2) / 3 - 1

/-- The last-entry state tracked while pushing consecutive static tokens. -/
def LastPackState (tb : TokBuf) (o : Nat) : Prop :=
  if o = 0 then ∀ e, tb.buf.getLast? = some e → e.kind ≠ some EntryType.staticPack
  else ∃ e, tb.buf.getLast? = some e ∧ e.kind = some EntryType.staticPack ∧
    PackInv e.etc o

/-- The invariant maintained on `lines` by the push operations: addresses are recorded
in non-decreasing order and never exceed the number of dense entries. -/
def LinesInv (tb : TokBuf) : Prop :=
  List.Sorted (· ≤ ·) tb.lines ∧ ∀ x ∈ tb.lines, x ≤ tb.buf.length

-- == Claim C9 ==================================================================================

/-- Depth bound of a prefix tree, as a fueled check: `depthLe n t` holds when every
path of `t` has at most `n` edges. -/
def PrefixTree.depthLe {V : Type} : Nat → PrefixTree V → Bool
  | 0, .node _ table => table.isEmpty
  | n + 1, .node _ table => table.all (fun e => PrefixTree.depthLe n e.2)

-- == Claim C10 =================================================================================

/-- The length side condition carried by a pushed token: identifier bytes fit in a
`usize` (automatic for any Rust `Vec`). -/
def TokLenOk : Tok → Prop
  | .ident bytes => bytes.length < 2 ^ 64
  | _ => True

/-- Well-formedness of one dense entry, as established by every push: the kind byte
decodes, a static pack satisfies the pack shape invariant, and the wide kinds whose
`get` path unwraps a table reference carry a nonzero key. -/
def EntryInv (e : TokBufEntry) : Prop :=
  e.kind ≠ none ∧
  (e.kind = some EntryType.staticPack → ∃ o, PackInv e.etc o) ∧
  ((e.kind = some EntryType.strLiteral ∨ e.kind = some EntryType.decIntLiteral ∨
    e.kind = some EntryType.ident ∨ e.kind = some EntryType.lineComment) → e.etc ≠ 0)

/-- The buffer invariant: the shared interner's table invariant plus per-entry
well-formedness. -/
def TokBufInv (tb : TokBuf) : Prop :=
  TableInv tb.interner.str_list tb.interner.table ∧ ∀ e ∈ tb.buf, EntryInv e

/-- The four conditions under which `TokBuf::get` answers `None`: address out of
range, nonzero pack index into a non-pack entry, pack index beyond slot 2, or an
addressed pack slot that is empty. -/
def GetMiss (tb : TokBuf) (key : Key) : Prop :=
  tb.buf[key.addr]? = none ∨
  (∃ e k, tb.buf[key.addr]? = some e ∧ e.kind = some k ∧
    k ≠ EntryType.staticPack ∧ key.packIdx ≠ 0) ∨
  (∃ e, tb.buf[key.addr]? = some e ∧ e.kind = some EntryType.staticPack ∧
    2 < key.packIdx) ∨
  (∃ e, tb.buf[key.addr]? = some e ∧ e.kind = some EntryType.staticPack ∧
    key.packIdx ≤ 2 ∧ slotId e.etc key.packIdx = 0)

-- == Claim C3: decoding a buffer back into tokens =============================================

/-- The static tokens stored in a pack's occupied slots, in slot order. -/
def packToks (etc : Nat) : List Tok :=
  (List.range 3).filterMap (fun p =>
    if slotId etc p = 0 then none
    else (StaticTok.fromId (slotId etc p)).map Tok.static)

/-- The tokens one dense entry denotes, the references resolved against the buffer's
side tables. -/
def decodeEntry (tb : TokBuf) (e : TokBufEntry) : List Tok :=
  match e.kind with
  | none => []
  | some EntryType.staticPack => packToks e.etc
  | some EntryType.strLiteral => [Tok.strLiteral (StrList.get tb.str_table e.etc)]
  | some EntryType.decIntLiteral => [Tok.decIntLiteral (StrList.get tb.str_table e.etc)]
  | some EntryType.ident => [Tok.ident (StrList.get tb.interner.str_list e.etc)]
  | some EntryType.linebreak => [Tok.linebreak]
  | some EntryType.align => [Tok.align e.etc]
  | some EntryType.lineComment => [Tok.lineComment (StrList.get tb.str_table e.etc)]
  | some EntryType.unexpected => [Tok.unexpected (e.etc % 2 ^ 8)]

/-- The full token sequence a buffer denotes. -/
def decodeToks (tb : TokBuf) : List Tok := tb.buf.flatMap (decodeEntry tb)

/-- Well-formedness of an entry relative to the buffer's tables: the kind decodes, a
pack satisfies the shape invariant, and every table reference is a valid key of its
table (so it survives later pushes unchanged). -/
def EntryWf (tb : TokBuf) (e : TokBufEntry) : Prop :=
  e.kind ≠ none ∧
  (e.kind = some EntryType.staticPack → ∃ o, PackInv e.etc o) ∧
  ((e.kind = some EntryType.strLiteral ∨ e.kind = some EntryType.decIntLiteral ∨
    e.kind = some EntryType.lineComment) → StrList.ValidKey tb.str_table e.etc) ∧
  (e.kind = some EntryType.ident → StrList.ValidKey tb.interner.str_list e.etc)

/-- The roundtrip invariant: interner table invariant plus per-entry
well-formedness. -/
def BufWf (tb : TokBuf) : Prop :=
  TableInv tb.interner.str_list tb.interner.table ∧ ∀ e ∈ tb.buf, EntryWf tb e

/-- The well-formed tokens of the roundtrip claim: byte payloads have `usize` length
and an unexpected byte is an actual byte. -/
def WfTok : Tok → Prop
  | .strLiteral bytes => bytes.length < 2 ^ 64
  | .decIntLiteral bytes => bytes.length < 2 ^ 64
  | .ident bytes => bytes.length < 2 ^ 64
  | .lineComment bytes => bytes.length < 2 ^ 64
  | .unexpected ch => ch < 2 ^ 8
  | _ => True

/-- The tokens still ahead of a cursor standing at entry `addr`, slot `pidx`. -/
def cursorRest (tb : TokBuf) (addr pidx : Nat) : List Tok :=
  (match tb.buf[addr]? with
   | none => []
   | some e => (decodeEntry tb e).drop pidx) ++
  (tb.buf.drop (addr + 1)).flatMap (decodeEntry tb)

-- == Theorems ================================================================================
theorem leBytes_length (k n : Nat) : (leBytes k n).length = k := by
  induction k generalizing n with
  | zero => rfl
  | succ k ih => simp [leBytes, ih]

theorem leValue_leBytes (k n : Nat) : leValue (leBytes k n) = n % 256 ^ k := by
  induction k generalizing n with
  | zero => simp [leBytes, leValue, Nat.mod_one]
  | succ k ih =>
      have h : 256 ^ (k + 1) = 256 * 256 ^ k := by ring
      simp only [leBytes, leValue, List.foldr_cons]
      have := ih (n / 256)
      simp only [leValue] at this
      rw [this, h, Nat.mod_mul]

theorem StrList.get_push_self (l : StrList) (s : List Nat) (hs : s.length < 2 ^ 64) :
    StrList.get (StrList.push l s).1 (StrList.push l s).2 = s := by
  have hdr : (leBytes 8 s.length).length = 8 := leBytes_length 8 s.length
  simp only [StrList.push, StrList.get, Nat.add_sub_cancel]
  have h1 : (l ++ leBytes 8 s.length ++ s).drop l.length = leBytes 8 s.length ++ s := by
    rw [List.append_assoc]
    exact List.drop_left l (leBytes 8 s.length ++ s)
  have h2 : (l ++ leBytes 8 s.length ++ s).drop (l.length + 8) = s := by
    apply List.drop_left'
    simp [hdr]
  rw [h1, h2]
  have h3 : (leBytes 8 s.length ++ s).take 8 = leBytes 8 s.length :=
    List.take_left' hdr
  rw [h3, leValue_leBytes]
  have h4 : (256 : Nat) ^ 8 = 2 ^ 64 := by norm_num
  rw [h4, Nat.mod_eq_of_lt hs, List.take_length]

theorem StrList.push_key (l : StrList) (s : List Nat) :
    (StrList.push l s).2 = l.length + 1 := rfl

theorem StrList.valid_push_self (l : StrList) (s : List Nat) (hs : s.length < 2 ^ 64) :
    StrList.ValidKey (StrList.push l s).1 (StrList.push l s).2 := by
  have hdr : (leBytes 8 s.length).length = 8 := leBytes_length 8 s.length
  constructor
  · simp [StrList.push]
  · have h1 : ((l ++ leBytes 8 s.length ++ s).drop ((StrList.push l s).2 - 1)).take 8 =
        leBytes 8 s.length := by
      rw [StrList.push_key, Nat.add_sub_cancel, List.append_assoc,
        List.drop_left l (leBytes 8 s.length ++ s)]
      exact List.take_left' hdr
    simp only [StrList.push, StrList.push_key, Nat.add_sub_cancel] at h1 ⊢
    rw [h1, leValue_leBytes]
    have h4 : (256 : Nat) ^ 8 = 2 ^ 64 := by norm_num
    rw [h4, Nat.mod_eq_of_lt hs]
    simp [hdr]
    omega

/-- The `StrList` is append-only: a valid key keeps denoting the same bytes after more
pushes extend the backing vector. -/
theorem StrList.get_append (l ext : StrList) (key : Nat) (h : StrList.ValidKey l key) :
    StrList.get (l ++ ext) key = StrList.get l key := by
  obtain ⟨h1, h2⟩ := h
  have hd8 : ((l ++ ext).drop (key - 1)).take 8 = (l.drop (key - 1)).take 8 := by
    rw [List.drop_append_of_le_length (by omega), List.take_append_of_le_length]
    rw [List.length_drop]
    omega
  simp only [StrList.get, hd8]
  rw [List.drop_append_of_le_length (by omega), List.take_append_of_le_length]
  rw [List.length_drop]
  omega

theorem StrList.valid_append (l ext : StrList) (key : Nat) (h : StrList.ValidKey l key) :
    StrList.ValidKey (l ++ ext) key := by
  obtain ⟨h1, h2⟩ := h
  refine ⟨h1, ?_⟩
  have hd8 : ((l ++ ext).drop (key - 1)).take 8 = (l.drop (key - 1)).take 8 := by
    rw [List.drop_append_of_le_length (by omega), List.take_append_of_le_length]
    rw [List.length_drop]
    omega
  rw [hd8]
  simp only [List.length_append]
  omega

/-- Any valid key is bounded by the list length, so a freshly pushed key is distinct
from every previously valid key. -/
theorem StrList.valid_key_lt (l : StrList) (key : Nat) (h : StrList.ValidKey l key) :
    key < l.length + 1 := by
  obtain ⟨h1, h2⟩ := h
  omega

theorem tableInv_empty (sl : StrList) : TableInv sl Table.default := by
  refine ⟨?_, ?_, ?_, ?_⟩ <;>
    simp [StoredAt, Table.default]

/-- Extending the string list preserves the table invariant, since the bytes of every
valid key are unchanged. -/
theorem TableInv.extend (sl ext : StrList) (t : Table) (h : TableInv sl t) :
    TableInv (sl ++ ext) t := by
  have hget : ∀ x, StoredAt t x → StrList.get (sl ++ ext) x = StrList.get sl x :=
    fun x hx => StrList.get_append sl ext x (h.valid x hx)
  refine ⟨?_, ?_, ?_, ?_⟩
  · exact fun x hx => StrList.valid_append sl ext x (h.valid x hx)
  · intro i k hik
    have := h.homeLe i k hik
    rwa [homeSlot, hget k ⟨i, hik⟩]
  · intro i k hik j hj1 hj2
    refine h.probe i k hik j ?_ hj2
    rwa [homeSlot, hget k ⟨i, hik⟩] at hj1
  · intro i j ki kj hi hj hb
    exact h.inj i j ki kj hi hj (by rwa [hget ki ⟨i, hi⟩, hget kj ⟨j, hj⟩] at hb)

theorem storedAt_mem_storedKeys (t : Table) (x : Nat) :
    StoredAt t x ↔ x ∈ storedKeys t := by
  constructor
  · rintro ⟨i, hi⟩
    rw [storedKeys, List.mem_filterMap]
    exact ⟨some x, (List.mem_iff_getElem?).2 ⟨i, hi⟩, rfl⟩
  · intro hx
    rw [storedKeys, List.mem_filterMap] at hx
    obtain ⟨a, ha, ha2⟩ := hx
    subst ha2
    obtain ⟨i, hi⟩ := (List.mem_iff_getElem?).1 ha
    exact ⟨i, hi⟩

-- scanLookup facts
theorem scanLookup_some (sl : StrList) (s : List Nat) (l : List (Option Nat)) (k : Nat)
    (h : scanLookup sl s l = some k) :
    StrList.get sl k = s ∧ some k ∈ l := by
  induction l with
  | nil => simp [scanLookup] at h
  | cons a rest ih =>
      match a with
      | none => simp [scanLookup] at h
      | some k0 =>
          by_cases hk : StrList.get sl k0 = s
          · simp [scanLookup, hk] at h
            subst h
            exact ⟨hk, List.mem_cons_self _ _⟩
          · simp [scanLookup, hk] at h
            obtain ⟨hb, hm⟩ := ih h
            exact ⟨hb, List.mem_cons_of_mem _ hm⟩

/-- If slot `i` holds a key whose bytes equal `s`, all slots from `place` up to `i` are
occupied by keys with bytes distinct from `s`, and `place ≤ i`, the probe scan starting
at `place` returns exactly that key. -/
theorem scanLookup_drop_found (sl : StrList) (s : List Nat) (arr : List (Option Nat))
    (i k : Nat) (hik : arr[i]? = some (some k)) (hks : StrList.get sl k = s) :
    ∀ place, place ≤ i →
    (∀ j, place ≤ j → j < i → arr[j]? ≠ some none) →
    (∀ j kj, place ≤ j → j < i → arr[j]? = some (some kj) → StrList.get sl kj ≠ s) →
    scanLookup sl s (arr.drop place) = some k := by
  have hilen : i < arr.length := by
    rcases List.getElem?_eq_some_iff.1 hik with ⟨h, _⟩
    exact h
  suffices hs : ∀ (d place : Nat), i - place = d → place ≤ i →
      (∀ j, place ≤ j → j < i → arr[j]? ≠ some none) →
      (∀ j kj, place ≤ j → j < i → arr[j]? = some (some kj) → StrList.get sl kj ≠ s) →
      scanLookup sl s (arr.drop place) = some k by
    intro place hpl hocc hnm
    exact hs (i - place) place rfl hpl hocc hnm
  intro d
  induction d with
  | zero =>
      intro place hd hpl _ _
      have hpe : place = i := by omega
      subst hpe
      rw [List.drop_eq_getElem_cons hilen]
      have : arr[place] = some k := by
        rcases List.getElem?_eq_some_iff.1 hik with ⟨h, h2⟩
        exact h2
      rw [this]
      simp [scanLookup, hks]
  | succ d ih =>
      intro place hd hpl hocc hnm
      have hpi : place < i := by omega
      have hplen : place < arr.length := by omega
      rw [List.drop_eq_getElem_cons hplen]
      have hplace := List.getElem?_eq_getElem hplen
      match hv : arr[place] with
      | none =>
          exact absurd (by rw [hplace, hv]) (hocc place le_rfl hpi)
      | some kp =>
          have hb : StrList.get sl kp ≠ s :=
            hnm place kp le_rfl hpi (by rw [hplace, hv])
          simp only [scanLookup, if_neg hb]
          exact ih (place + 1) (by omega) (by omega)
            (fun j h1 h2 => hocc j (by omega) h2)
            (fun j kj h1 h2 h3 => hnm j kj (by omega) h2 h3)

/-- Under the table invariant, `lookup` finds the (unique) stored key with bytes `s`. -/
theorem lookup_found (sl : StrList) (t : Table) (s : List Nat) (i k : Nat)
    (hinv : TableInv sl t) (hik : t.arr[i]? = some (some k))
    (hks : StrList.get sl k = s) :
    lookup t sl s = some k := by
  have hilen : i < t.arr.length := by
    rcases List.getElem?_eq_some_iff.1 hik with ⟨h, _⟩
    exact h
  have hlen : t.arr.length ≠ 0 := by omega
  have hhome : homeSlot sl t.arr.length k = fastHash s % t.arr.length := by
    rw [homeSlot, hks]
  rw [lookup, if_neg hlen]
  refine scanLookup_drop_found sl s t.arr i k hik hks (fastHash s % t.arr.length)
    ?_ ?_ ?_
  · rw [← hhome]
    exact hinv.homeLe i k hik
  · intro j h1 h2
    exact hinv.probe i k hik j (by rw [hhome]; exact h1) h2
  · intro j kj h1 h2 h3 hb
    have := hinv.inj j i kj k h3 hik (by rw [hb, hks])
    omega

/-- If `lookup` fails, no stored key has bytes `s`. -/
theorem lookup_none (sl : StrList) (t : Table) (s : List Nat)
    (hinv : TableInv sl t) (hnone : lookup t sl s = none) :
    ∀ (i k : Nat), t.arr[i]? = some (some k) → StrList.get sl k ≠ s := by
  intro i k hik hks
  rw [lookup_found sl t s i k hinv hik hks] at hnone
  exact Option.noConfusion hnone

/-- The successful result of `lookup` is a stored key whose bytes equal `s`. -/
theorem lookup_some (sl : StrList) (t : Table) (s : List Nat) (k : Nat)
    (h : lookup t sl s = some k) :
    StrList.get sl k = s ∧ StoredAt t k := by
  rw [lookup] at h
  by_cases hlen : t.arr.length = 0
  · simp [hlen] at h
  · rw [if_neg hlen] at h
    obtain ⟨hb, hm⟩ := scanLookup_some sl s _ k h
    refine ⟨hb, ?_⟩
    obtain ⟨j, hj⟩ := (List.mem_iff_getElem?).1 hm
    rw [List.getElem?_drop] at hj
    exact ⟨_, hj⟩

-- findNoneIdx facts
theorem findNoneIdx_some (l : List (Option Nat)) (off : Nat)
    (h : findNoneIdx l = some off) :
    l[off]? = some none ∧ ∀ m, m < off → ∃ x, l[m]? = some (some x) := by
  induction l generalizing off with
  | nil => simp [findNoneIdx] at h
  | cons a rest ih =>
      match a with
      | none =>
          simp [findNoneIdx] at h
          subst h
          exact ⟨by simp, by omega⟩
      | some x =>
          simp only [findNoneIdx, Option.map_eq_some'] at h
          obtain ⟨off0, hoff0, hoff⟩ := h
          subst hoff
          obtain ⟨h1, h2⟩ := ih off0 hoff0
          refine ⟨by simpa using h1, ?_⟩
          intro m hm
          match m with
          | 0 => exact ⟨x, by simp⟩
          | m + 1 =>
              have := h2 m (by omega)
              simpa using this

theorem findNoneIdx_none (l : List (Option Nat)) (h : findNoneIdx l = none) :
    ∀ m, m < l.length → l[m]? ≠ some none := by
  induction l with
  | nil => intro m hm; simp at hm
  | cons a rest ih =>
      match a with
      | none => simp [findNoneIdx] at h
      | some x =>
          simp only [findNoneIdx, Option.map_eq_none'] at h
          intro m hm
          match m with
          | 0 => simp
          | m + 1 =>
              simp only [List.length_cons] at hm
              simpa using ih h m (by omega)

-- insert / grow / rehash specifications, by induction on fuel
theorem storedAt_replicate_none (n x : Nat) :
    ¬ StoredAt ⟨List.replicate n none, 0⟩ x := by
  rintro ⟨i, hi⟩
  rw [List.getElem?_replicate] at hi
  by_cases h : i < n <;> simp [h] at hi

theorem tableInv_replicate (sl : StrList) (n : Nat) :
    TableInv sl ⟨List.replicate n none, 0⟩ := by
  have hno : ∀ (i k : Nat), (⟨List.replicate n none, 0⟩ : Table).arr[i]? ≠ some (some k) := by
    intro i k hi
    exact storedAt_replicate_none n k ⟨i, hi⟩
  exact ⟨fun x hx => absurd hx (storedAt_replicate_none n x),
    fun i k hik => absurd hik (hno i k),
    fun i k hik => absurd hik (hno i k),
    fun i j ki kj hi => absurd hi (hno i ki)⟩

/-- Distinct slots of an invariant-satisfying table hold keys with distinct bytes, so
the rehash key list is pairwise distinct in bytes. -/
theorem storedKeys_pairwise (sl : StrList) (t : Table) (hinv : TableInv sl t) :
    List.Pairwise (fun a b => StrList.get sl a ≠ StrList.get sl b) (storedKeys t) := by
  rw [storedKeys]
  have main : ∀ (arr : List (Option Nat)),
      (∀ (i j ki kj : Nat), arr[i]? = some (some ki) → arr[j]? = some (some kj) →
        StrList.get sl ki = StrList.get sl kj → i = j) →
      List.Pairwise (fun a b => StrList.get sl a ≠ StrList.get sl b)
        (arr.filterMap id) := by
    intro arr
    induction arr with
    | nil => intro _; simp
    | cons a rest ih =>
        intro H
        have hrest : ∀ (i j ki kj : Nat), rest[i]? = some (some ki) →
            rest[j]? = some (some kj) →
            StrList.get sl ki = StrList.get sl kj → i = j := by
          intro i j ki kj hi hj hb
          have := H (i + 1) (j + 1) ki kj (by simpa using hi) (by simpa using hj) hb
          omega
        match a with
        | none => simpa using ih hrest
        | some k =>
            simp only [List.filterMap_cons, id_eq, List.pairwise_cons]
            refine ⟨?_, ih hrest⟩
            intro x hx hb
            rw [List.mem_filterMap] at hx
            obtain ⟨o, ho, ho2⟩ := hx
            subst ho2
            obtain ⟨j, hj⟩ := (List.mem_iff_getElem?).1 ho
            have := H 0 (j + 1) k x (by simp) (by simpa using hj) hb
            omega
  exact main t.arr hinv.inj

/-- Effect of one successful slot placement in `insert`: the invariant is preserved and
exactly the key `k` is added, provided no stored key shares its bytes. -/
theorem insert_slot_spec (sl : StrList) (t : Table) (k place off : Nat)
    (hinv : TableInv sl t) (hvk : StrList.ValidKey sl k)
    (hfresh : ∀ x, StoredAt t x → StrList.get sl x ≠ StrList.get sl k)
    (hplace : place = if t.arr.length = 0 then 0
      else fastHash (StrList.get sl k) % t.arr.length)
    (hoff : findNoneIdx (t.arr.drop place) = some off) :
    TableInv sl ⟨t.arr.set (place + off) (some k), t.occupancy + 1⟩ ∧
    (∀ x, StoredAt ⟨t.arr.set (place + off) (some k), t.occupancy + 1⟩ x ↔
      StoredAt t x ∨ x = k) := by
  obtain ⟨hslot, hocc⟩ := findNoneIdx_some _ _ hoff
  rw [List.getElem?_drop] at hslot
  have hlt : place + off < t.arr.length := (List.getElem?_eq_some_iff.1 hslot).1
  have hlen0 : t.arr.length ≠ 0 := by omega
  have hplace2 : place = homeSlot sl t.arr.length k := by
    rw [hplace, if_neg hlen0, homeSlot]
  have hoccm : ∀ m, m < off → ∃ x, t.arr[place + m]? = some (some x) := by
    intro m hm
    obtain ⟨x, hx⟩ := hocc m hm
    rw [List.getElem?_drop] at hx
    exact ⟨x, hx⟩
  have hlen2 : (t.arr.set (place + off) (some k)).length = t.arr.length :=
    List.length_set _ _ _
  have hat : (t.arr.set (place + off) (some k))[place + off]? = some (some k) :=
    List.getElem?_set_self hlt
  have hne : ∀ (i : Nat), i ≠ place + off →
      (t.arr.set (place + off) (some k))[i]? = t.arr[i]? := by
    intro i hi
    exact List.getElem?_set_ne (by omega)
  have hstored : ∀ x, StoredAt ⟨t.arr.set (place + off) (some k), t.occupancy + 1⟩ x ↔
      StoredAt t x ∨ x = k := by
    intro x
    constructor
    · rintro ⟨i, hi⟩
      by_cases hieq : i = place + off
      · subst hieq
        rw [hat] at hi
        right
        simp only [Option.some.injEq] at hi
        exact hi.symm
      · exact Or.inl ⟨i, (hne i hieq) ▸ hi⟩
    · rintro (⟨i, hi⟩ | rfl)
      · have hieq : i ≠ place + off := by
          intro he
          subst he
          rw [hslot] at hi
          simp at hi
        exact ⟨i, by rw [hne i hieq]; exact hi⟩
      · exact ⟨place + off, hat⟩
  refine ⟨⟨?_, ?_, ?_, ?_⟩, hstored⟩
  · intro x hx
    rcases (hstored x).1 hx with h | rfl
    · exact hinv.valid x h
    · exact hvk
  · intro i k0 hik
    by_cases hieq : i = place + off
    · subst hieq
      rw [hat] at hik
      simp only [Option.some.injEq] at hik
      subst hik
      simp only [hlen2]
      omega
    · rw [hne i hieq] at hik
      simp only [hlen2]
      exact hinv.homeLe i k0 hik
  · intro i k0 hik j hj1 hj2
    simp only [hlen2] at hj1
    by_cases hjeq : j = place + off
    · subst hjeq
      rw [hat]
      simp
    · rw [hne j hjeq]
      by_cases hieq : i = place + off
      · subst hieq
        rw [hat] at hik
        simp only [Option.some.injEq] at hik
        subst hik
        rw [← hplace2] at hj1
        obtain ⟨x, hx⟩ := hoccm (j - place) (by omega)
        rw [show place + (j - place) = j by omega] at hx
        rw [hx]
        simp
      · rw [hne i hieq] at hik
        exact hinv.probe i k0 hik j hj1 hj2
  · intro i j ki kj hi hj hb
    by_cases hieq : i = place + off <;> by_cases hjeq : j = place + off
    · omega
    · subst hieq
      rw [hat] at hi
      simp only [Option.some.injEq] at hi
      subst hi
      rw [hne j hjeq] at hj
      exact absurd hb.symm (hfresh kj ⟨j, hj⟩)
    · subst hjeq
      rw [hat] at hj
      simp only [Option.some.injEq] at hj
      subst hj
      rw [hne i hieq] at hi
      exact absurd hb (hfresh ki ⟨i, hi⟩)
    · rw [hne i hieq] at hi
      rw [hne j hjeq] at hj
      exact hinv.inj i j ki kj hi hj hb

theorem insertSpecAll : ∀ fuel, InsSpec fuel ∧ GrowSpec fuel ∧ InsAllSpec fuel := by
  intro fuel
  induction fuel with
  | zero =>
      refine ⟨?_, ?_, ?_⟩
      · intro sl t t' k h
        simp [insertF, tableJobF] at h
      · intro sl t t' h
        simp [growF, tableJobF] at h
      · intro sl ks t t' h hinv hvk hpw hfresh
        simp [insertAllF, tableJobF] at h
  | succ fuel ih =>
      obtain ⟨ihIns, ihGrow, ihAll⟩ := ih
      have hIns : InsSpec (fuel + 1) := by
        intro sl t t' k h hinv hvk hfresh
        rw [insertF] at h
        simp only [tableJobF] at h
        rcases hfn : findNoneIdx (t.arr.drop
            (if t.arr.length = 0 then 0
             else fastHash (StrList.get sl k) % t.arr.length)) with _ | off
        · rw [hfn] at h
          rcases hg : tableJobF sl fuel (.grow t) with _ | t2
          · rw [hg] at h
            exact Option.noConfusion h
          · rw [hg] at h
            obtain ⟨hinv2, hst2⟩ := ihGrow sl t t2 hg hinv
            obtain ⟨hinv3, hst3⟩ := ihIns sl t2 t' k h hinv2 hvk
              (fun x hx => hfresh x ((hst2 x).1 hx))
            refine ⟨hinv3, fun x => ?_⟩
            rw [hst3 x, hst2 x]
        · rw [hfn] at h
          cases h
          exact insert_slot_spec sl t k _ off hinv hvk hfresh rfl hfn
      have hGrow : GrowSpec (fuel + 1) := by
        intro sl t t' h hinv
        rw [growF] at h
        simp only [tableJobF] at h
        obtain ⟨hinv2, hst2⟩ := ihAll sl (storedKeys t)
          ⟨List.replicate (2 * max 1 t.arr.length) none, 0⟩ t' h
          (tableInv_replicate sl _)
          (fun k hk => hinv.valid k ((storedAt_mem_storedKeys t k).2 hk))
          (storedKeys_pairwise sl t hinv)
          (fun k _ x hx => absurd hx (storedAt_replicate_none _ x))
        refine ⟨hinv2, fun x => ?_⟩
        rw [hst2 x]
        constructor
        · rintro (h0 | h)
          · exact absurd h0 (storedAt_replicate_none _ x)
          · exact (storedAt_mem_storedKeys t x).2 h
        · intro h
          exact Or.inr ((storedAt_mem_storedKeys t x).1 h)
      have hAll : InsAllSpec (fuel + 1) := by
        intro sl ks t t' h hinv hvk hpw hfresh
        match ks with
        | [] =>
            rw [insertAllF] at h
            simp only [tableJobF] at h
            cases h
            exact ⟨hinv, fun x => by simp⟩
        | k :: ks =>
            rw [insertAllF] at h
            simp only [tableJobF] at h
            rcases h1 : tableJobF sl fuel (.ins t k) with _ | t2
            · rw [h1] at h
              exact Option.noConfusion h
            · rw [h1] at h
              obtain ⟨hinv2, hst2⟩ := ihIns sl t t2 k h1 hinv
                (hvk k (List.mem_cons_self _ _))
                (hfresh k (List.mem_cons_self _ _))
              rw [List.pairwise_cons] at hpw
              obtain ⟨hpw1, hpw2⟩ := hpw
              obtain ⟨hinv3, hst3⟩ := ihAll sl ks t2 t' h hinv2
                (fun k2 hk2 => hvk k2 (List.mem_cons_of_mem _ hk2))
                hpw2
                (by
                  intro k2 hk2 x hx
                  rcases (hst2 x).1 hx with hold | rfl
                  · exact hfresh k2 (List.mem_cons_of_mem _ hk2) x hold
                  · exact hpw1 k2 hk2)
              refine ⟨hinv3, fun x => ?_⟩
              rw [hst3 x, hst2 x]
              constructor
              · rintro ((h | rfl) | h)
                · exact Or.inl h
                · exact Or.inr (List.mem_cons_self _ _)
                · exact Or.inr (List.mem_cons_of_mem _ h)
              · rintro (h | h)
                · exact Or.inl (Or.inl h)
                · rcases List.mem_cons.1 h with rfl | h2
                  · exact Or.inl (Or.inr rfl)
                  · exact Or.inr h2
      exact ⟨hIns, hGrow, hAll⟩

-- intern specification
theorem StrList.push_fst (l : StrList) (s : List Nat) :
    (StrList.push l s).1 = l ++ (leBytes 8 s.length ++ s) := by
  simp [StrList.push]

theorem intern_spec (fuel : Nat) (I : StrInterner) (s : List Nat) (I' : StrInterner)
    (k : Nat) (h : internF fuel I s = some (I', k))
    (hinv : TableInv I.str_list I.table) (hs : s.length < 2 ^ 64) :
    InternPost I s I' k := by
  rw [internF] at h
  rcases hlk : lookup I.table I.str_list s with _ | k0
  · rw [hlk] at h
    simp only at h
    -- the miss path: optionally grow, push the bytes, insert the fresh key
    have hnost : ∀ (i x : Nat), I.table.arr[i]? = some (some x) →
        StrList.get I.str_list x ≠ s := lookup_none I.str_list I.table s hinv hlk
    rcases hg : (if growCondition I.table then growF I.str_list fuel I.table
        else some I.table) with _ | t1
    · rw [hg] at h
      exact Option.noConfusion h
    · rw [hg] at h
      have ht1 : TableInv I.str_list t1 ∧ (∀ x, StoredAt t1 x ↔ StoredAt I.table x) := by
        by_cases hgc : growCondition I.table
        · rw [if_pos hgc] at hg
          exact (insertSpecAll fuel).2.1 I.str_list I.table t1 hg hinv
        · rw [if_neg hgc] at hg
          cases hg
          exact ⟨hinv, fun x => Iff.rfl⟩
      obtain ⟨ht1inv, ht1st⟩ := ht1
      set pushed := StrList.push I.str_list s with hpushed
      have hsl2 : pushed.1 = I.str_list ++ (leBytes 8 s.length ++ s) :=
        StrList.push_fst I.str_list s
      have hvk2 : StrList.ValidKey pushed.1 pushed.2 :=
        StrList.valid_push_self I.str_list s hs
      have hbytes2 : StrList.get pushed.1 pushed.2 = s :=
        StrList.get_push_self I.str_list s hs
      have ht1inv2 : TableInv pushed.1 t1 := by
        rw [hsl2]
        exact TableInv.extend _ _ _ ht1inv
      have hfresh : ∀ x, StoredAt t1 x →
          StrList.get pushed.1 x ≠ StrList.get pushed.1 pushed.2 := by
        intro x hx
        have hxo : StoredAt I.table x := (ht1st x).1 hx
        have hvx : StrList.ValidKey I.str_list x := hinv.valid x hxo
        rw [hbytes2, hsl2, StrList.get_append _ _ _ hvx]
        obtain ⟨i, hi⟩ := hxo
        exact hnost i x hi
      dsimp only at h
      rcases h2 : insertF pushed.1 fuel t1 pushed.2 with _ | t2
      · rw [h2] at h
        exact Option.noConfusion h
      · rw [h2] at h
        simp only [Option.some.injEq, Prod.mk.injEq] at h
        obtain ⟨hI', hk⟩ := h
        subst hI'
        subst hk
        obtain ⟨hinv3, hst3⟩ :=
          (insertSpecAll fuel).1 pushed.1 t1 t2 pushed.2 h2 ht1inv2 hvk2 hfresh
        refine ⟨hinv3, hbytes2, hvk2, (hst3 _).2 (Or.inr rfl), ⟨_, hsl2⟩, ?_, ?_⟩
        · intro x hx
          exact (hst3 x).2 (Or.inl ((ht1st x).2 hx))
        · intro k0 hk0 hbk0
          obtain ⟨i, hi⟩ := hk0
          exact absurd hbk0 (hnost i k0 hi)
  · rw [hlk] at h
    simp only [Option.some.injEq, Prod.mk.injEq] at h
    obtain ⟨hI', hk⟩ := h
    subst hI'
    subst hk
    obtain ⟨hb, hst⟩ := lookup_some I.str_list I.table s k0 hlk
    exact ⟨hinv, hb, hinv.valid k0 hst, hst, ⟨[], by simp⟩, fun x hx => hx,
      fun k1 hk1 hbk1 => by
        obtain ⟨i, hi⟩ := hk1
        have := lookup_found I.str_list I.table s i k1 hinv hi hbk1
        rw [hlk] at this
        exact Option.some_inj.1 this⟩

-- a whole run of interns against one shared interner
theorem runInterns_spec (fuel : Nat) (ss : List (List Nat)) (I I' : StrInterner)
    (ks : List Nat) (h : runInternsF fuel I ss = some (I', ks))
    (hinv : TableInv I.str_list I.table) (hlens : ∀ s ∈ ss, s.length < 2 ^ 64) :
    RunPost I ss I' ks := by
  induction ss generalizing I ks with
  | nil =>
      rw [runInternsF] at h
      simp only [Option.some.injEq, Prod.mk.injEq] at h
      obtain ⟨hI, hks⟩ := h
      subst hI
      subst hks
      exact ⟨hinv, ⟨[], by simp⟩, rfl, by simp, by simp, by simp⟩
  | cons s ss ih =>
      rw [runInternsF] at h
      rcases h1 : internF fuel I s with _ | p1
      · rw [h1] at h
        exact Option.noConfusion h
      · rw [h1] at h
        obtain ⟨I1, k⟩ := p1
        dsimp only at h
        rcases h2 : runInternsF fuel I1 ss with _ | p2
        · rw [h2] at h
          exact Option.noConfusion h
        · rw [h2] at h
          obtain ⟨I2, ks'⟩ := p2
          simp only [Option.some.injEq, Prod.mk.injEq] at h
          obtain ⟨hI2, hks⟩ := h
          subst hI2
          subst hks
          have hip := intern_spec fuel I s I1 k h1 hinv
            (hlens s (List.mem_cons_self _ _))
          have hr := ih I1 ks' h2 hip.inv
            (fun s2 hs2 => hlens s2 (List.mem_cons_of_mem _ hs2))
          obtain ⟨e0, he0⟩ := hip.ext
          obtain ⟨e1, he1⟩ := hr.ext
          refine ⟨hr.inv, ⟨e0 ++ e1, by rw [he1, he0, List.append_assoc]⟩, ?_, ?_, ?_, ?_⟩
          · simp [hr.len]
          · intro i hi
            match i with
            | 0 =>
                refine ⟨k, s, by simp, by simp, ?_⟩
                rw [he1, StrList.get_append _ _ _ hip.validk]
                exact hip.bytes
            | i + 1 =>
                obtain ⟨k2, s2, hk2, hs2, hb2⟩ := hr.bytes i (by simpa using hi)
                exact ⟨k2, s2, by simpa using hk2, by simpa using hs2, hb2⟩
          · intro k0 hk0 hvk0 j s0 hj hb0
            match j with
            | 0 =>
                simp only [List.getElem?_cons_zero, Option.some.injEq] at hj
                subst hj
                have := hip.idem k0 hk0 hb0
                subst this
                simp
            | j + 1 =>
                simp only [List.getElem?_cons_succ]
                refine hr.pre k0 (hip.mono k0 hk0) ?_ j s0 (by simpa using hj) ?_
                · rw [he0]
                  exact StrList.valid_append _ _ _ hvk0
                · rw [he0, StrList.get_append _ _ _ hvk0]
                  exact hb0
          · intro i j si sj hi hj hb
            match i, j with
            | 0, 0 => rfl
            | 0, j + 1 =>
                simp only [List.getElem?_cons_zero, Option.some.injEq] at hi
                subst hi
                subst hb
                simp only [List.getElem?_cons_zero, List.getElem?_cons_succ]
                exact (hr.pre k hip.stored hip.validk j s (by simpa using hj)
                  hip.bytes).symm
            | i + 1, 0 =>
                simp only [List.getElem?_cons_zero, Option.some.injEq] at hj
                simp only [List.getElem?_cons_zero, List.getElem?_cons_succ]
                have hss : ss[i]? = some s := by
                  have hsi : si = s := by rw [hb, ← hj]
                  rw [← hsi]
                  simpa using hi
                exact hr.pre k hip.stored hip.validk i s hss hip.bytes
            | i + 1, j + 1 =>
                simp only [List.getElem?_cons_succ]
                exact hr.agree i j si sj (by simpa using hi) (by simpa using hj) hb

/-- C4: for every sequence of byte strings interned against one `StrInterner` (fresh,
hash-table-of-keys variant), the returned keys agree exactly when the byte strings are
equal bytewise: `intern(s) == intern(t)` iff `s == t`; in particular repeated calls
with the same bytes return the same key. Stated over any run of `intern` calls that
completes within the given fuel (the Rust loops always terminate). -/
theorem claim_C4_intern_unique (fuel : Nat) (ss : List (List Nat)) (I : StrInterner)
    (ks : List Nat)
    (hrun : runInternsF fuel StrInterner.default ss = some (I, ks))
    (hlens : ∀ s ∈ ss, s.length < 2 ^ 64) :
    ks.length = ss.length ∧
    ∀ (i j : Nat), i < ss.length → j < ss.length →
      (ks[i]? = ks[j]? ↔ ss[i]? = ss[j]?) := by
  have hpost := runInterns_spec fuel ss StrInterner.default I ks hrun
    (tableInv_empty []) hlens
  refine ⟨hpost.len, ?_⟩
  intro i j hi hj
  obtain ⟨ki, si, hki, hsi, hbi⟩ := hpost.bytes i hi
  obtain ⟨kj, sj, hkj, hsj, hbj⟩ := hpost.bytes j hj
  constructor
  · intro hk
    rw [hki, hkj] at hk
    obtain rfl : ki = kj := Option.some_inj.1 hk
    have hss : si = sj := by rw [← hbi, ← hbj]
    rw [hsi, hsj, hss]
  · intro hsij
    rw [hsi, hsj] at hsij
    exact hpost.agree i j si sj hsi hsj (Option.some_inj.1 hsij)

theorem claim_C4_intern_unique_witness :
    ([1, 10, 1] : List Nat).length = ([[97], [98], [97]] : List (List Nat)).length ∧
    ∀ (i j : Nat), i < ([[97], [98], [97]] : List (List Nat)).length →
      j < ([[97], [98], [97]] : List (List Nat)).length →
      (([1, 10, 1] : List Nat)[i]? = ([1, 10, 1] : List Nat)[j]? ↔
        ([[97], [98], [97]] : List (List Nat))[i]? =
          ([[97], [98], [97]] : List (List Nat))[j]?) :=
  claim_C4_intern_unique 16 [[97], [98], [97]]
    ⟨⟨[some 10, some 1], 2⟩, [1, 0, 0, 0, 0, 0, 0, 0, 97, 1, 0, 0, 0, 0, 0, 0, 0, 98]⟩
    [1, 10, 1] (by decide) (by decide)

/-- A successful table lookup returns an entry of the table. -/
theorem tableGet_mem {V : Type} (table : List (Nat × PrefixTree V)) (b : Nat)
    (c : PrefixTree V) (hc : tableGet table b = some c) : (b, c) ∈ table := by
  induction table with
  | nil => simp [tableGet] at hc
  | cons e es ihe =>
      obtain ⟨k, t0⟩ := e
      by_cases hk : k = b
      · subst hk
        simp [tableGet] at hc
        subst hc
        exact List.mem_cons_self _ _
      · simp only [tableGet, if_neg hk] at hc
        exact List.mem_cons_of_mem _ (ihe hc)

/-- Every successful `get` reads the value of some node of the tree whose path is a
prefix of the queried sequence. -/
theorem PrefixTree.get_mem_entries {V : Type} (t : PrefixTree V) (seq : List Nat)
    (v : V) (h : PrefixTree.get t seq = some v) :
    ∀ fuel, seq.length < fuel →
      ∃ p ∈ PrefixTree.entriesF fuel t, p.2 = v ∧ p.1 <+: seq := by
  induction seq generalizing t v with
  | nil =>
      intro fuel hfuel
      match fuel, hfuel with
      | fuel + 1, _ =>
        obtain ⟨val, table⟩ := t
        simp only [PrefixTree.get] at h
        subst h
        exact ⟨([], v), by simp [PrefixTree.entriesF], rfl, List.nil_prefix⟩
  | cons b rest ih =>
      intro fuel hfuel
      match fuel, hfuel with
      | fuel + 1, hf =>
        obtain ⟨val, table⟩ := t
        simp only [PrefixTree.get] at h
        rcases hg : tableGet table b with _ | child
        · rw [hg] at h
          dsimp only at h
          subst h
          exact ⟨([], v), by simp [PrefixTree.entriesF], rfl, List.nil_prefix⟩
        · rw [hg] at h
          dsimp only at h
          rcases hgc : PrefixTree.get child rest with _ | v2
          · rw [hgc] at h
            dsimp only at h
            subst h
            exact ⟨([], v), by simp [PrefixTree.entriesF], rfl, List.nil_prefix⟩
          · rw [hgc] at h
            dsimp only at h
            obtain rfl : v2 = v := Option.some_inj.1 h
            obtain ⟨p, hp, hpv, hps⟩ := ih child v2 hgc fuel (by simpa using hf)
            refine ⟨(b :: p.1, p.2), ?_, hpv, List.cons_prefix_cons.2 ⟨rfl, hps⟩⟩
            simp only [PrefixTree.entriesF, List.mem_append, List.mem_flatMap]
            refine Or.inr ⟨(b, child), tableGet_mem table b child hg, ?_⟩
            simp only [List.mem_map]
            exact ⟨p, hp, rfl⟩

-- == Claim C1 ==================================================================================

/-- C1 (code bug): in a fresh 8-byte arena of 4-byte values, `bump(10)` then
`bump(20)` return the claimed handles 1 and 5, but after `shrink_to_fit`,
dereferencing handle 1 yields 20 (the second value clobbered the first, because
`bump` stores through the arena base instead of the computed `base + pos` pointer)
and dereferencing handle 5 reads memory never written. The spec-intended store at
`pos` (`bumpSpec`) makes both reads return the bumped values at the same input. -/
theorem claim_C1_bump_stores_at_base :
    ((BumpAllocator.bump 4 (BumpAllocator.new Nat 8) 10).bind
      (fun p => (BumpAllocator.bump 4 p.1 20).map
        (fun q => (p.2, q.2, BumpAllocator.get (BumpAllocator.shrink q.1) p.2,
                   BumpAllocator.get (BumpAllocator.shrink q.1) q.2)))) =
      some (1, 5, some 20, none) ∧
    ((10 : Nat) ≠ 20 ∧ some (20 : Nat) ≠ some 10 ∧ (none : Option Nat) ≠ some 20) ∧
    ((BumpAllocator.bumpSpec 4 (BumpAllocator.new Nat 8) 10).bind
      (fun p => (BumpAllocator.bumpSpec 4 p.1 20).map
        (fun q => (BumpAllocator.get (BumpAllocator.shrink q.1) p.2,
                   BumpAllocator.get (BumpAllocator.shrink q.1) q.2)))) =
      some (some 10, some 20) := by
  refine ⟨rfl, by decide, rfl⟩

-- == Claim C2 ==================================================================================

/-- C2 (code bug): lexing the single byte `[` (0x5B) emits an `Ident` token whose
source text is `[`, which neither begins with an ASCII letter nor with `_`. The cause
is `is_alphabetic_ch`'s range 65..123, which also accepts 91..96; the identifier
registrations in the prefix tree then overwrite the `[` static-token entry even
though the code's own `StaticTok::OpenSquare` declares `[` as its source text. -/
theorem claim_C2_ident_first_byte_not_letter :
    lexToks [91] = [.ident [91]] ∧
    isAsciiLetter 91 = false ∧ (91 : Nat) ≠ 95 ∧
    isAlphabeticCh 91 = true ∧
    StaticTok.OpenSquare.sourceText = [91] := by decide

-- == Claim C5 ==================================================================================

/-- C5 (counterexample): push one linebreak into a fresh buffer; the recorded
line-start list is `[0]`; the line-number query at address 0 returns 0, while the
number of recorded line-start addresses less than *or equal to* 0 is 1. -/
theorem claim_C5_counterexample :
    TokBuf.pushAll 1 [Tok.linebreak] (TokBuf.empty StrInterner.default) =
      some ⟨StrInterner.default, [], [⟨5 * 2 ^ 24⟩], [0]⟩ ∧
    TokBuf.getLineNo ⟨StrInterner.default, [], [⟨5 * 2 ^ 24⟩], [0]⟩ 0 = 0 ∧
    List.countP (fun lb => decide (lb ≤ 0)) [0] = 1 ∧ (0 : Nat) ≠ 1 := by decide

-- == Claim C6 ==================================================================================

/-- C6 (counterexample): lexing `"if let & ::"` produces three dense entries, not
two — the single spaces are `Static(Space)` tokens and are packed interleaved, so no
entry holds `If`, `Let`, `Ampersand` in slots 0..2. -/
theorem claim_C6_counterexample :
    lex 16 [105, 102, 32, 108, 101, 116, 32, 38, 32, 58, 58] StrInterner.default =
      some ⟨StrInterner.default, [], [⟨16981505⟩, ⟨18750494⟩, ⟨16777241⟩], []⟩ ∧
    ([⟨16981505⟩, ⟨18750494⟩, ⟨16777241⟩] : List TokBufEntry).length ≠ 2 := by decide

/-- C6 (amended): lexing `"if let & ::"` produces exactly three `StaticPack`
entries: the first packs `If`, `Space`, `Let` in slots 0..2, the second packs
`Space`, `Ampersand`, `Space`, and the third holds `ColonColon` in slot 0. -/
theorem claim_C6_static_packing :
    (lex 16 [105, 102, 32, 108, 101, 116, 32, 38, 32, 58, 58]
        StrInterner.default).map
      (fun tb => tb.buf.map
        (fun e => (e.kind, slotId e.etc 0, slotId e.etc 1, slotId e.etc 2))) =
    some [(some .staticPack, StaticTok.If.id, StaticTok.Space.id, StaticTok.Let.id),
          (some .staticPack, StaticTok.Space.id, StaticTok.Ampersand.id,
            StaticTok.Space.id),
          (some .staticPack, StaticTok.ColonColon.id, 0, 0)] := by decide

-- == Claim C8 ==================================================================================

/-- C8: on the input `"proc"`, the root parser peeks the `Proc` declarator, enters
`parse_proc_def` (which consumes `proc`, fails `expect_ref::<Ident>` at the
end-of-buffer key (addr 1, pack 0), pushes exactly one `MissingTok` there, and
returns the `ParsePanic`), syncs to end-of-buffer, terminates, and returns a root
with no top-level items and exactly that one diagnostic. -/
theorem claim_C8_parse_proc_alone :
    (((lex 16 [112, 114, 111, 99] StrInterner.default).bind
        (fun tb => parseRootF tb 0 32 ⟨Key.zero, []⟩)).map
      (fun p => (p.1.length, p.2))) = some (0, ⟨⟨256⟩, [⟨0, ⟨256⟩⟩]⟩) ∧
    (((lex 16 [112, 114, 111, 99] StrInterner.default).bind
        (fun tb => parseProcDefF tb 0 32 ⟨Key.zero, []⟩)).map
      (fun p => ((match p.1 with | .ok _ => false | .error _ => true),
        p.2.pos, p.2.diags))) = some (true, ⟨256⟩, [⟨0, ⟨256⟩⟩]) ∧
    (lex 16 [112, 114, 111, 99] StrInterner.default).map (fun tb => tb.buf.length) =
      some 1 ∧
    (⟨256⟩ : Key).addr = 1 := by decide

-- == Static pack arithmetic ====================================================================
theorem staticTok_id_bounds (st : StaticTok) : 1 ≤ st.id ∧ st.id ≤ 31 := by
  cases st <;> decide

theorem staticTok_fromId_id (st : StaticTok) : StaticTok.fromId st.id = some st := by
  cases st <;> rfl

theorem natBitLen_le (fuel v k : Nat) (hv : v < 2 ^ k) (hk : k ≤ fuel) :
    natBitLen fuel v ≤ k := by
  induction fuel generalizing v k with
  | zero => simp [natBitLen]
  | succ fuel ih =>
      by_cases h0 : v = 0
      · simp [natBitLen, h0]
      · rw [natBitLen, if_neg h0]
        match k with
        | 0 => omega
        | k + 1 =>
            have : v / 2 < 2 ^ k := by
              rw [pow_succ] at hv
              omega
            have := ih (v / 2) k this (by omega)
            omega

theorem natBitLen_gt (fuel v k : Nat) (hv : 2 ^ k ≤ v) (hk : k < fuel) :
    k + 1 ≤ natBitLen fuel v := by
  induction fuel generalizing v k with
  | zero => omega
  | succ fuel ih =>
      have h0 : v ≠ 0 := by
        have : 0 < 2 ^ k := Nat.pos_pow_of_pos k (by omega)
        omega
      rw [natBitLen, if_neg h0]
      match k with
      | 0 => omega
      | k + 1 =>
          have : 2 ^ k ≤ v / 2 := by
            rw [pow_succ] at hv
            omega
          have := ih (v / 2) k this (by omega)
          omega

/-- The source's occupancy computation `4 - etc.leading_zeros() / 8` recovers the
number of occupied slots. -/
theorem occupied_of_packInv (etc o : Nat) (h : PackInv etc o) :
    4 - u32LeadingZeros etc / 8 = o := by
  obtain ⟨ho1, ho3, _, _, hlow, hhigh⟩ := h
  have hle := natBitLen_le 32 etc (8 * o) hhigh (by omega)
  have hgt := natBitLen_gt 32 etc (8 * (o - 1)) hlow (by omega)
  rw [u32LeadingZeros]
  omega

theorem occupied_zero : 4 - u32LeadingZeros 0 / 8 = 0 := by decide

/-- A single valid static-token id in slot 0. -/
theorem packInv_single (id : Nat) (h1 : 1 ≤ id) (h31 : id ≤ 31)
    (hfrom : (StaticTok.fromId id).isSome) : PackInv id 1 := by
  refine ⟨le_rfl, by omega, ?_, ?_, by simpa using h1, by simpa using by omega⟩
  · intro p hp
    match p, hp with
    | 0, _ =>
        have hs : slotId id 0 = id := by
          simp [slotId, Nat.shiftRight_eq_div_pow]
          omega
        rw [hs]
        exact ⟨by omega, hfrom⟩
  · intro p hp _
    have h2 : (2 : Nat) ^ 8 ≤ 2 ^ (8 * p) := by
      apply Nat.pow_le_pow_right (by omega)
      omega
    have hdiv : id / 2 ^ (8 * p) = 0 := Nat.div_eq_of_lt (by omega)
    simp [slotId, Nat.shiftRight_eq_div_pow, hdiv]

/-- Folding a fresh id into slot `o` of a pack with `o < 3` occupants: the bitwise or
is a plain addition, the old slots are unchanged, the new slot holds the id, and the
shape invariant advances to `o + 1`. -/
theorem packInv_fold (etc o id : Nat) (h : PackInv etc o) (ho : o < 3)
    (h1 : 1 ≤ id) (h31 : id ≤ 31) (hfrom : (StaticTok.fromId id).isSome) :
    (id <<< (8 * o)) ||| etc = 2 ^ (8 * o) * id + etc ∧
    PackInv (2 ^ (8 * o) * id + etc) (o + 1) ∧
    (∀ p, p < o → slotId (2 ^ (8 * o) * id + etc) p = slotId etc p) ∧
    slotId (2 ^ (8 * o) * id + etc) o = id := by
  obtain ⟨ho1, ho3, hslots, hzero, hlow, hhigh⟩ := h
  have hppos : ∀ k : Nat, 0 < 2 ^ k := fun k => Nat.pos_pow_of_pos k (by omega)
  have hor : (id <<< (8 * o)) ||| etc = 2 ^ (8 * o) * id + etc := by
    rw [Nat.shiftLeft_eq, Nat.mul_comm id (2 ^ (8 * o))]
    exact (Nat.mul_add_lt_is_or hhigh id).symm
  have hkeep : ∀ p, p < o → slotId (2 ^ (8 * o) * id + etc) p = slotId etc p := by
    intro p hp
    have hsplit : 2 ^ (8 * o) = 2 ^ (8 * p) * 2 ^ (8 * (o - p)) := by
      rw [← pow_add]
      congr 1
      omega
    have h256 : (256 : Nat) ∣ 2 ^ (8 * (o - p)) := by
      have h8 : (256 : Nat) = 2 ^ 8 := by norm_num
      rw [h8]
      exact pow_dvd_pow 2 (by omega)
    simp only [slotId, Nat.shiftRight_eq_div_pow]
    have hnum : 2 ^ (8 * o) * id + etc = etc + 2 ^ (8 * (o - p)) * id * 2 ^ (8 * p) := by
      rw [hsplit]
      ring
    rw [hnum, Nat.add_mul_div_right _ _ (hppos (8 * p))]
    obtain ⟨c, hc⟩ := h256
    have h2 : etc / 2 ^ (8 * p) + 2 ^ (8 * (o - p)) * id =
        etc / 2 ^ (8 * p) + c * id * 256 := by
      rw [hc]
      ring
    have h8 : (2 : Nat) ^ 8 = 256 := by norm_num
    rw [h2, h8, Nat.add_mul_mod_self_right]
  have hnew : slotId (2 ^ (8 * o) * id + etc) o = id := by
    simp only [slotId, Nat.shiftRight_eq_div_pow]
    have hnum : 2 ^ (8 * o) * id + etc = etc + id * 2 ^ (8 * o) := by ring
    rw [hnum, Nat.add_mul_div_right _ _ (hppos (8 * o)), Nat.div_eq_of_lt hhigh]
    have h8 : (2 : Nat) ^ 8 = 256 := by norm_num
    rw [h8]
    omega
  have hb : 2 ^ (8 * o) * id + etc < 2 ^ (8 * (o + 1)) := by
    have he : 2 ^ (8 * (o + 1)) = 2 ^ (8 * o) * 2 ^ 8 := by
      rw [show 8 * (o + 1) = 8 * o + 8 by ring, pow_add]
    have hid : id + 1 ≤ 2 ^ 8 := by
      have : (2 : Nat) ^ 8 = 256 := by norm_num
      omega
    calc 2 ^ (8 * o) * id + etc < 2 ^ (8 * o) * id + 2 ^ (8 * o) := by omega
      _ = 2 ^ (8 * o) * (id + 1) := by ring
      _ ≤ 2 ^ (8 * o) * 2 ^ 8 := Nat.mul_le_mul_left _ hid
      _ = 2 ^ (8 * (o + 1)) := he.symm
  refine ⟨hor, ⟨by omega, by omega, ?_, ?_, ?_, hb⟩, hkeep, hnew⟩
  · intro p hp
    by_cases hpo : p < o
    · rw [hkeep p hpo]
      exact hslots p hpo
    · have hpe : p = o := by omega
      subst hpe
      rw [hnew]
      exact ⟨by omega, hfrom⟩
  · intro p hp1 hp3
    have hsplit : 2 ^ (8 * (o + 1)) ≤ 2 ^ (8 * p) := by
      apply Nat.pow_le_pow_right (by omega)
      omega
    simp only [slotId, Nat.shiftRight_eq_div_pow]
    have hd : 2 ^ (8 * o) * id + etc < 2 ^ (8 * p) := by omega
    rw [Nat.div_eq_of_lt hd]
    simp
  · calc 2 ^ (8 * (o + 1 - 1)) = 2 ^ (8 * o) := rfl
      _ ≤ 2 ^ (8 * o) * id := Nat.le_mul_of_pos_right _ (by omega)
      _ ≤ 2 ^ (8 * o) * id + etc := by omega

-- == Entry and push shape lemmas ===============================================================
theorem entryType_id_bounds (k : EntryType) : 1 ≤ k.id ∧ k.id ≤ 8 := by
  cases k <;> decide

theorem entryType_fromId_id (k : EntryType) : EntryType.fromId k.id = some k := by
  cases k <;> rfl

theorem entry_kind (k : EntryType) (etc : Nat) (h : etc < 2 ^ 24) :
    (⟨k.id * 2 ^ 24 + etc⟩ : TokBufEntry).kind = some k := by
  rw [TokBufEntry.kind]
  have hd : (k.id * 2 ^ 24 + etc) / 2 ^ 24 = k.id := by
    rw [Nat.mul_comm, Nat.mul_add_div (by norm_num), Nat.div_eq_of_lt h]
    omega
  rw [TokBufEntry.data, hd]
  exact entryType_fromId_id k

theorem entry_etc (k : EntryType) (etc : Nat) (h : etc < 2 ^ 24) :
    (⟨k.id * 2 ^ 24 + etc⟩ : TokBufEntry).etc = etc := by
  rw [TokBufEntry.etc]
  have : k.id * 2 ^ 24 + etc = etc + k.id * 2 ^ 24 := by ring
  rw [TokBufEntry.data, this, Nat.add_mul_mod_self_right, Nat.mod_eq_of_lt h]

theorem tokBufEntry_new_eq (k : EntryType) (etc : Nat) (h : etc < 2 ^ 24) :
    TokBufEntry.new k etc = some ⟨k.id * 2 ^ 24 + etc⟩ := by
  rw [TokBufEntry.new, if_pos h]

/-- Pushing a static token onto a buffer whose last entry is absent or not a
`StaticPack`: a fresh singleton pack is appended. -/
theorem pushStaticTok_not_pack (tb : TokBuf) (st : StaticTok)
    (hlast : ∀ e, tb.buf.getLast? = some e → e.kind ≠ some EntryType.staticPack) :
    TokBuf.pushStaticTok tb st =
      some { tb with buf := tb.buf ++ [⟨EntryType.staticPack.id * 2 ^ 24 + st.id⟩] } := by
  obtain ⟨hid1, hid31⟩ := staticTok_id_bounds st
  have hpe : (⟨EntryType.staticPack.id * 2 ^ 24⟩ : TokBufEntry).etc = 0 := by decide
  have hocc : 4 - u32LeadingZeros (0 : Nat) / 8 = 0 := by decide
  have hnew : TokBufEntry.new .staticPack ((st.id <<< (8 * 0)) ||| 0) =
      some ⟨EntryType.staticPack.id * 2 ^ 24 + st.id⟩ := by
    rw [Nat.mul_zero, Nat.shiftLeft_zero, Nat.or_zero]
    exact tokBufEntry_new_eq _ _ (by omega)
  rcases h : tb.buf.getLast? with _ | e
  · rw [TokBuf.pushStaticTok, h]
    dsimp only
    rw [List.getLast?_concat]
    dsimp only
    rw [hpe, hocc]
    rw [if_pos (by omega : (0 : Nat) < 3), hnew]
    rw [List.dropLast_concat]
  · rw [TokBuf.pushStaticTok, h]
    dsimp only
    rw [if_neg (hlast e h), List.getLast?_concat]
    dsimp only
    rw [hpe, hocc]
    rw [if_pos (by omega : (0 : Nat) < 3), hnew]
    rw [List.dropLast_concat]

/-- Pushing a static token onto a buffer whose last entry is a pack with room: the id
is folded into the next slot of that pack. -/
theorem pushStaticTok_fold (tb : TokBuf) (st : StaticTok) (e : TokBufEntry) (o : Nat)
    (hlast : tb.buf.getLast? = some e) (hkind : e.kind = some EntryType.staticPack)
    (hinv : PackInv e.etc o) (ho : o < 3) :
    TokBuf.pushStaticTok tb st =
      some { tb with buf := tb.buf.dropLast ++
        [⟨EntryType.staticPack.id * 2 ^ 24 + (2 ^ (8 * o) * st.id + e.etc)⟩] } := by
  obtain ⟨hid1, hid31⟩ := staticTok_id_bounds st
  have hocc := occupied_of_packInv e.etc o hinv
  obtain ⟨hor, hinv2, _, _⟩ :=
    packInv_fold e.etc o st.id hinv ho hid1 hid31
      (by rw [staticTok_fromId_id]; rfl)
  have hlt : 2 ^ (8 * o) * st.id + e.etc < 2 ^ 24 := by
    obtain ⟨_, ho3, _, _, _, hb⟩ := hinv2
    calc 2 ^ (8 * o) * st.id + e.etc < 2 ^ (8 * (o + 1)) := hb
      _ ≤ 2 ^ 24 := Nat.pow_le_pow_right (by omega) (by omega)
  rw [TokBuf.pushStaticTok, hlast]
  dsimp only
  rw [if_pos hkind, hlast]
  dsimp only
  rw [hocc, if_pos ho, hor, tokBufEntry_new_eq _ _ hlt]

/-- Pushing a static token onto a buffer whose last entry is a full pack: a fresh
singleton pack is appended. -/
theorem pushStaticTok_full (tb : TokBuf) (st : StaticTok) (e : TokBufEntry)
    (hlast : tb.buf.getLast? = some e) (hkind : e.kind = some EntryType.staticPack)
    (hinv : PackInv e.etc 3) :
    TokBuf.pushStaticTok tb st =
      some { tb with buf := tb.buf ++ [⟨EntryType.staticPack.id * 2 ^ 24 + st.id⟩] } := by
  obtain ⟨hid1, hid31⟩ := staticTok_id_bounds st
  have hocc := occupied_of_packInv e.etc 3 hinv
  rw [TokBuf.pushStaticTok, hlast]
  dsimp only
  rw [if_pos hkind, hlast]
  dsimp only
  rw [hocc, if_neg (by omega : ¬ (3 : Nat) < 3),
    tokBufEntry_new_eq _ _ (by omega : st.id < 2 ^ 24)]

theorem staticAdded_zero (n : Nat) : staticAdded n 0 = (n + 2) / 3 := by
  rw [staticAdded, if_pos rfl]

theorem staticAdded_pos (n o : Nat) (h : o ≠ 0) :
    staticAdded n o = (n + o + 2) / 3 - 1 := by
  rw [staticAdded, if_neg h]

theorem pushStatics_aux (fuel : Nat) (stoks : List StaticTok) :
    ∀ (tb : TokBuf) (o : Nat), o ≤ 3 → LastPackState tb o →
    ∃ tb', TokBuf.pushAll fuel (stoks.map Tok.static) tb = some tb' ∧
      tb'.buf.length = tb.buf.length + staticAdded stoks.length o := by
  induction stoks with
  | nil =>
      intro tb o ho ho1
      refine ⟨tb, rfl, ?_⟩
      simp only [List.length_nil]
      by_cases h0 : o = 0
      · rw [h0, staticAdded_zero]
        omega
      · rw [staticAdded_pos _ _ h0]
        omega
  | cons st stoks ih =>
      intro tb o ho hstate
      obtain ⟨hid1, hid31⟩ := staticTok_id_bounds st
      have hkind1 : (⟨EntryType.staticPack.id * 2 ^ 24 + st.id⟩ : TokBufEntry).kind =
          some EntryType.staticPack := entry_kind _ _ (by omega)
      have hetc1 : (⟨EntryType.staticPack.id * 2 ^ 24 + st.id⟩ : TokBufEntry).etc =
          st.id := entry_etc _ _ (by omega)
      have hfrom : (StaticTok.fromId st.id).isSome := by
        rw [staticTok_fromId_id]
        rfl
      by_cases h0 : o = 0
      · subst h0
        rw [LastPackState, if_pos rfl] at hstate
        have hp := pushStaticTok_not_pack tb st hstate
        have hstate2 : LastPackState
            { tb with buf := tb.buf ++ [⟨EntryType.staticPack.id * 2 ^ 24 + st.id⟩] }
            1 := by
          rw [LastPackState, if_neg (by omega)]
          refine ⟨_, List.getLast?_concat _, hkind1, ?_⟩
          rw [hetc1]
          exact packInv_single st.id hid1 hid31 hfrom
        obtain ⟨tb', hpush, hlen⟩ := ih _ 1 (by omega) hstate2
        refine ⟨tb', ?_, ?_⟩
        · rw [List.map_cons, TokBuf.pushAll, TokBuf.push, hp]; dsimp only; rw [hpush]
        · rw [hlen]
          dsimp only
          rw [staticAdded_pos _ _ (by omega : (1 : Nat) ≠ 0), List.length_cons,
            staticAdded_zero]
          simp only [List.length_append, List.length_cons, List.length_nil]
          omega
      · rw [LastPackState, if_neg h0] at hstate
        obtain ⟨e, hlast, hkind, hinv⟩ := hstate
        have hnonempty : tb.buf ≠ [] := by
          intro hnil
          rw [hnil] at hlast
          simp at hlast
        by_cases h3 : o = 3
        · subst h3
          have hp := pushStaticTok_full tb st e hlast hkind hinv
          have hstate2 : LastPackState
              { tb with buf := tb.buf ++ [⟨EntryType.staticPack.id * 2 ^ 24 + st.id⟩] }
              1 := by
            rw [LastPackState, if_neg (by omega)]
            refine ⟨_, List.getLast?_concat _, hkind1, ?_⟩
            rw [hetc1]
            exact packInv_single st.id hid1 hid31 hfrom
          obtain ⟨tb', hpush, hlen⟩ := ih _ 1 (by omega) hstate2
          refine ⟨tb', ?_, ?_⟩
          · rw [List.map_cons, TokBuf.pushAll, TokBuf.push, hp]; dsimp only; rw [hpush]
          · rw [hlen]
            dsimp only
            rw [staticAdded_pos _ _ (by omega : (1 : Nat) ≠ 0), List.length_cons,
              staticAdded_pos _ _ (by omega : (3 : Nat) ≠ 0)]
            simp only [List.length_append, List.length_cons, List.length_nil]
            omega
        · have holt : o < 3 := by omega
          have hp := pushStaticTok_fold tb st e o hlast hkind hinv holt
          obtain ⟨_, hinv2, _, _⟩ :=
            packInv_fold e.etc o st.id hinv holt hid1 hid31 hfrom
          have hlt24 : 2 ^ (8 * o) * st.id + e.etc < 2 ^ 24 := by
            obtain ⟨_, _, _, _, _, hb⟩ := hinv2
            calc 2 ^ (8 * o) * st.id + e.etc < 2 ^ (8 * (o + 1)) := hb
              _ ≤ 2 ^ 24 := Nat.pow_le_pow_right (by omega) (by omega)
          have hstate2 : LastPackState
              { tb with buf := tb.buf.dropLast ++
                [⟨EntryType.staticPack.id * 2 ^ 24 + (2 ^ (8 * o) * st.id + e.etc)⟩] }
              (o + 1) := by
            rw [LastPackState, if_neg (by omega)]
            refine ⟨_, List.getLast?_concat _, entry_kind _ _ hlt24, ?_⟩
            rw [entry_etc _ _ hlt24]
            exact hinv2
          obtain ⟨tb', hpush, hlen⟩ := ih _ (o + 1) (by omega) hstate2
          refine ⟨tb', ?_, ?_⟩
          · rw [List.map_cons, TokBuf.pushAll, TokBuf.push, hp]; dsimp only; rw [hpush]
          · rw [hlen]
            dsimp only
            rw [staticAdded_pos _ _ (by omega : o + 1 ≠ 0), List.length_cons,
              staticAdded_pos _ _ h0]
            simp only [List.length_append, List.length_cons, List.length_nil,
              List.length_dropLast]
            have h1 : 1 ≤ tb.buf.length := List.length_pos.mpr hnonempty
            omega

/-- C7: pushing `N ≥ 1` consecutive static tokens (no intervening wide tokens) into a
token buffer whose last entry is not a static pack (in particular a fresh buffer)
allocates exactly `⌈N/3⌉ = (N+2)/3` dense entries for them. -/
theorem claim_C7_static_pack_density (fuel : Nat) (stoks : List StaticTok)
    (tb : TokBuf) (_hN : 1 ≤ stoks.length)
    (hlast : ∀ e, tb.buf.getLast? = some e → e.kind ≠ some EntryType.staticPack) :
    ∃ tb', TokBuf.pushAll fuel (stoks.map Tok.static) tb = some tb' ∧
      tb'.buf.length = tb.buf.length + (stoks.length + 2) / 3 := by
  have h := pushStatics_aux fuel stoks tb 0 (by omega)
    (by rw [LastPackState, if_pos rfl]; exact hlast)
  rw [staticAdded, if_pos rfl] at h
  exact h

theorem claim_C7_static_pack_density_witness :
    1 ≤ ([StaticTok.If, .Let, .Ampersand, .ColonColon] : List StaticTok).length ∧
    ∃ tb', TokBuf.pushAll 1
        ([StaticTok.If, .Let, .Ampersand, .ColonColon].map Tok.static)
        (TokBuf.empty StrInterner.default) = some tb' ∧
      tb'.buf.length = (TokBuf.empty StrInterner.default).buf.length +
        (([StaticTok.If, .Let, .Ampersand, .ColonColon] : List StaticTok).length + 2) / 3 :=
  ⟨by decide,
   claim_C7_static_pack_density 1 [StaticTok.If, .Let, .Ampersand, .ColonColon]
    (TokBuf.empty StrInterner.default) (by decide)
    (by intro e he; simp [TokBuf.empty] at he)⟩

-- == Claim C5 (amended): partition_point over sorted line starts ===============================
theorem ppGo_correct (pred : Nat → Bool) (l : List Nat) (N : Nat)
    (hchar : ∀ (i : Nat) (hi : i < l.length), (pred l[i] = true ↔ i < N)) :
    ∀ (fuel left right : Nat), left ≤ N → N ≤ right → right ≤ l.length →
      right - left ≤ fuel → ppGo pred l fuel left right = N := by
  intro fuel
  induction fuel with
  | zero =>
      intro left right h1 h2 h3 h4
      rw [ppGo]
      omega
  | succ fuel ih =>
      intro left right h1 h2 h3 h4
      rw [ppGo]
      by_cases hlr : left < right
      · rw [if_pos hlr]
        dsimp only
        have hmidlt : left + (right - left) / 2 < l.length := by omega
        have hget : l.getD (left + (right - left) / 2) 0 = l[left + (right - left) / 2] :=
          List.getD_eq_getElem l 0 hmidlt
        by_cases hp : pred (l.getD (left + (right - left) / 2) 0) = true
        · rw [if_pos hp]
          have hlt : left + (right - left) / 2 < N :=
            (hchar _ hmidlt).mp (by rw [← hget]; exact hp)
          exact ih _ _ (by omega) h2 h3 (by omega)
        · rw [if_neg hp]
          have hge : ¬ (left + (right - left) / 2 < N) := fun hc =>
            hp (by rw [hget]; exact (hchar _ hmidlt).mpr hc)
          exact ih _ _ h1 (by omega) (by omega) (by omega)
      · rw [if_neg hlr]
        omega

theorem sorted_countP_char (a : Nat) :
    ∀ (l : List Nat), List.Sorted (· ≤ ·) l →
      ∀ (i : Nat) (hi : i < l.length),
        (decide (l[i] < a) = true ↔ i < l.countP (fun x => decide (x < a))) := by
  intro l
  induction l with
  | nil =>
      intro _ i hi
      simp at hi
  | cons x l ih =>
      intro hs i hi
      rw [List.sorted_cons] at hs
      obtain ⟨hx, hs'⟩ := hs
      rw [List.countP_cons]
      cases i with
      | zero =>
          simp only [List.getElem_cons_zero]
          by_cases hxa : x < a
          · have hd : decide (x < a) = true := by simpa using hxa
            rw [hd, if_pos rfl]
            exact ⟨fun _ => by omega, fun _ => rfl⟩
          · have hd : decide (x < a) = false := by simpa using hxa
            have hz : l.countP (fun y => decide (y < a)) = 0 :=
              List.countP_eq_zero.mpr (fun y hy => by
                simp only [decide_eq_true_eq]
                have := hx y hy
                omega)
            rw [hd, if_neg (show ¬ (false = true) by simp), hz]
            exact ⟨fun hc => by simp at hc, fun hc => absurd hc (by omega)⟩
      | succ i =>
          simp only [List.getElem_cons_succ]
          have hi' : i < l.length := by
            simp only [List.length_cons] at hi
            omega
          by_cases hxa : x < a
          · have hd : decide (x < a) = true := by simpa using hxa
            rw [if_pos hd]
            have hiff := ih hs' i hi'
            constructor
            · intro h
              have := hiff.mp h
              omega
            · intro h
              exact hiff.mpr (by omega)
          · have hd : decide (x < a) = false := by simpa using hxa
            have hz : l.countP (fun y => decide (y < a)) = 0 :=
              List.countP_eq_zero.mpr (fun y hy => by
                simp only [decide_eq_true_eq]
                have := hx y hy
                omega)
            rw [if_neg (show ¬ (decide (x < a) = true) by simp [hd]), hz]
            constructor
            · intro h
              simp only [decide_eq_true_eq] at h
              have := hx _ (List.getElem_mem hi')
              omega
            · intro h
              exact absurd h (by omega)

theorem partitionPoint_sorted_lt (l : List Nat) (a : Nat)
    (hs : List.Sorted (· ≤ ·) l) :
    partitionPoint (fun x => decide (x < a)) l = l.countP (fun x => decide (x < a)) := by
  rw [partitionPoint]
  exact ppGo_correct _ l _ (fun i hi => sorted_countP_char a l hs i hi)
    l.length 0 l.length (Nat.zero_le _) (l.countP_le_length _) le_rfl (by omega)

theorem pushStaticTok_shape (tb : TokBuf) (st : StaticTok) (tb2 : TokBuf)
    (h : tb.pushStaticTok st = some tb2) :
    tb.buf.length ≤ tb2.buf.length ∧ tb2.lines = tb.lines ∧
      tb2.str_table = tb.str_table := by
  rw [TokBuf.pushStaticTok] at h
  dsimp only at h
  cases hl : tb.buf.getLast? with
  | none =>
      rw [hl] at h
      dsimp only at h
      rw [List.getLast?_concat] at h
      dsimp only at h
      by_cases ho : 4 - u32LeadingZeros
          (⟨EntryType.staticPack.id * 2 ^ 24⟩ : TokBufEntry).etc / 8 < 3
      · rw [if_pos ho] at h
        cases hn : TokBufEntry.new .staticPack
            ((st.id <<< (8 * (4 - u32LeadingZeros
              (⟨EntryType.staticPack.id * 2 ^ 24⟩ : TokBufEntry).etc / 8))) |||
              (⟨EntryType.staticPack.id * 2 ^ 24⟩ : TokBufEntry).etc) with
        | none =>
            rw [hn] at h
            simp at h
        | some e2 =>
            rw [hn] at h
            dsimp only at h
            simp only [Option.some.injEq] at h
            subst h
            refine ⟨?_, rfl, rfl⟩
            simp only [List.length_append, List.length_dropLast, List.length_cons,
              List.length_nil]
            omega
      · rw [if_neg ho] at h
        cases hn : TokBufEntry.new .staticPack st.id with
        | none =>
            rw [hn] at h
            simp at h
        | some e2 =>
            rw [hn] at h
            dsimp only at h
            simp only [Option.some.injEq] at h
            subst h
            refine ⟨?_, rfl, rfl⟩
            simp only [List.length_append, List.length_cons, List.length_nil]
            omega
  | some e =>
      rw [hl] at h
      dsimp only at h
      by_cases hk : e.kind = some EntryType.staticPack
      · rw [if_pos hk] at h
        rw [hl] at h
        dsimp only at h
        by_cases ho : 4 - u32LeadingZeros e.etc / 8 < 3
        · rw [if_pos ho] at h
          cases hn : TokBufEntry.new .staticPack
              ((st.id <<< (8 * (4 - u32LeadingZeros e.etc / 8))) ||| e.etc) with
          | none =>
              rw [hn] at h
              simp at h
          | some e2 =>
              rw [hn] at h
              dsimp only at h
              simp only [Option.some.injEq] at h
              subst h
              refine ⟨?_, rfl, rfl⟩
              simp only [List.length_append, List.length_dropLast, List.length_cons,
                List.length_nil]
              omega
        · rw [if_neg ho] at h
          cases hn : TokBufEntry.new .staticPack st.id with
          | none =>
              rw [hn] at h
              simp at h
          | some e2 =>
              rw [hn] at h
              dsimp only at h
              simp only [Option.some.injEq] at h
              subst h
              refine ⟨?_, rfl, rfl⟩
              simp only [List.length_append, List.length_cons, List.length_nil]
              omega
      · rw [if_neg hk] at h
        rw [List.getLast?_concat] at h
        dsimp only at h
        by_cases ho : 4 - u32LeadingZeros
            (⟨EntryType.staticPack.id * 2 ^ 24⟩ : TokBufEntry).etc / 8 < 3
        · rw [if_pos ho] at h
          cases hn : TokBufEntry.new .staticPack
              ((st.id <<< (8 * (4 - u32LeadingZeros
                (⟨EntryType.staticPack.id * 2 ^ 24⟩ : TokBufEntry).etc / 8))) |||
                (⟨EntryType.staticPack.id * 2 ^ 24⟩ : TokBufEntry).etc) with
          | none =>
              rw [hn] at h
              simp at h
          | some e2 =>
              rw [hn] at h
              dsimp only at h
              simp only [Option.some.injEq] at h
              subst h
              refine ⟨?_, rfl, rfl⟩
              simp only [List.length_append, List.length_dropLast, List.length_cons,
                List.length_nil]
              omega
        · rw [if_neg ho] at h
          cases hn : TokBufEntry.new .staticPack st.id with
          | none =>
              rw [hn] at h
              simp at h
          | some e2 =>
              rw [hn] at h
              dsimp only at h
              simp only [Option.some.injEq] at h
              subst h
              refine ⟨?_, rfl, rfl⟩
              simp only [List.length_append, List.length_cons, List.length_nil]
              omega

theorem push_lines_shape (fuel : Nat) (tb : TokBuf) (t : Tok) (tb2 : TokBuf)
    (h : TokBuf.push fuel tb t = some tb2) :
    tb.buf.length ≤ tb2.buf.length ∧
      (tb2.lines = tb.lines ∨
        ∃ k, tb2.lines = tb.lines ++ List.replicate k tb.buf.length) := by
  cases t with
  | static stok =>
      rw [TokBuf.push] at h
      have hs := pushStaticTok_shape tb stok tb2 h
      exact ⟨hs.1, Or.inl hs.2.1⟩
  | strLiteral bytes =>
      rw [TokBuf.push, TokBuf.pushStrLiteral] at h
      cases hn : TokBufEntry.new .strLiteral (StrList.push tb.str_table bytes).2 with
      | none =>
          rw [hn] at h
          simp at h
      | some e =>
          rw [hn] at h
          dsimp only at h
          simp only [Option.some.injEq] at h
          subst h
          refine ⟨by simp, Or.inr ⟨bytes.count 10, rfl⟩⟩
  | decIntLiteral bytes =>
      rw [TokBuf.push, TokBuf.pushDecIntLiteral] at h
      cases hn : TokBufEntry.new .decIntLiteral (StrList.push tb.str_table bytes).2 with
      | none =>
          rw [hn] at h
          simp at h
      | some e =>
          rw [hn] at h
          dsimp only at h
          simp only [Option.some.injEq] at h
          subst h
          exact ⟨by simp, Or.inl rfl⟩
  | ident bytes =>
      rw [TokBuf.push, TokBuf.pushIdent] at h
      cases hi : internF fuel tb.interner bytes with
      | none =>
          rw [hi] at h
          simp at h
      | some p =>
          obtain ⟨I2, key⟩ := p
          rw [hi] at h
          dsimp only at h
          cases hn : TokBufEntry.new .ident key with
          | none =>
              rw [hn] at h
              simp at h
          | some e =>
              rw [hn] at h
              dsimp only at h
              simp only [Option.some.injEq] at h
              subst h
              exact ⟨by simp, Or.inl rfl⟩
  | linebreak =>
      rw [TokBuf.push, TokBuf.pushLinebreak] at h
      cases hn : TokBufEntry.new .linebreak 0 with
      | none =>
          rw [hn] at h
          simp at h
      | some e =>
          rw [hn] at h
          dsimp only at h
          simp only [Option.some.injEq] at h
          subst h
          exact ⟨by simp, Or.inr ⟨1, by simp⟩⟩
  | align count =>
      rw [TokBuf.push, TokBuf.pushAlign] at h
      cases hn : TokBufEntry.new .align count with
      | none =>
          rw [hn] at h
          simp at h
      | some e =>
          rw [hn] at h
          dsimp only at h
          simp only [Option.some.injEq] at h
          subst h
          exact ⟨by simp, Or.inl rfl⟩
  | lineComment bytes =>
      rw [TokBuf.push, TokBuf.pushLineComment] at h
      cases hn : TokBufEntry.new .lineComment (StrList.push tb.str_table bytes).2 with
      | none =>
          rw [hn] at h
          simp at h
      | some e =>
          rw [hn] at h
          dsimp only at h
          simp only [Option.some.injEq] at h
          subst h
          exact ⟨by simp, Or.inl rfl⟩
  | unexpected ch =>
      rw [TokBuf.push, TokBuf.pushUnexpected] at h
      cases hn : TokBufEntry.new .unexpected ch with
      | none =>
          rw [hn] at h
          simp at h
      | some e =>
          rw [hn] at h
          dsimp only at h
          simp only [Option.some.injEq] at h
          subst h
          exact ⟨by simp, Or.inl rfl⟩

theorem linesInv_push (fuel : Nat) (tb : TokBuf) (t : Tok) (tb2 : TokBuf)
    (h : TokBuf.push fuel tb t = some tb2) (hinv : LinesInv tb) : LinesInv tb2 := by
  obtain ⟨hsorted, hbound⟩ := hinv
  obtain ⟨hlen, hlines⟩ := push_lines_shape fuel tb t tb2 h
  cases hlines with
  | inl heq =>
      exact ⟨heq ▸ hsorted, fun x hx => le_trans (hbound x (heq ▸ hx)) hlen⟩
  | inr hrep =>
      obtain ⟨k, heq⟩ := hrep
      constructor
      · rw [heq]
        refine List.pairwise_append.mpr
          ⟨hsorted, List.pairwise_replicate.mpr (Or.inr le_rfl), ?_⟩
        intro x hx y hy
        rw [List.eq_of_mem_replicate hy]
        exact hbound x hx
      · intro x hx
        rw [heq, List.mem_append] at hx
        cases hx with
        | inl hx => exact le_trans (hbound x hx) hlen
        | inr hx =>
            rw [List.eq_of_mem_replicate hx]
            exact hlen

theorem linesInv_pushAll (fuel : Nat) (toks : List Tok) :
    ∀ (tb tb2 : TokBuf), TokBuf.pushAll fuel toks tb = some tb2 →
      LinesInv tb → LinesInv tb2 := by
  induction toks with
  | nil =>
      intro tb tb2 h hinv
      rw [TokBuf.pushAll] at h
      simp only [Option.some.injEq] at h
      subst h
      exact hinv
  | cons t toks ih =>
      intro tb tb2 h hinv
      rw [TokBuf.pushAll] at h
      cases hp : TokBuf.push fuel tb t with
      | none =>
          rw [hp] at h
          simp at h
      | some tbmid =>
          rw [hp] at h
          dsimp only at h
          exact ih tbmid tb2 h (linesInv_push fuel tb t tbmid hp hinv)

theorem linesInv_empty (I : StrInterner) : LinesInv (TokBuf.empty I) := by
  constructor
  · exact List.sorted_nil
  · intro x hx
    simp [TokBuf.empty] at hx

/-- C5 (amended): for every token buffer reached from a fresh buffer by pushes and
every token address `a`, `get_line_no` returns the number of recorded line-start
addresses *strictly less than* `a` (the comparator passed to `partition_point` is
`l < a`, not `l <= a`). -/
theorem claim_C5_line_count (fuel : Nat) (toks : List Tok) (I : StrInterner)
    (tb : TokBuf) (a : Nat)
    (h : TokBuf.pushAll fuel toks (TokBuf.empty I) = some tb) :
    tb.getLineNo a = tb.lines.countP (fun lbAddr => decide (lbAddr < a)) := by
  have hinv : LinesInv tb := linesInv_pushAll fuel toks _ tb h (linesInv_empty I)
  rw [TokBuf.getLineNo]
  exact partitionPoint_sorted_lt tb.lines a hinv.1

theorem claim_C5_line_count_witness :
    TokBuf.pushAll 1 [Tok.linebreak, Tok.linebreak] (TokBuf.empty StrInterner.default) =
      some ⟨StrInterner.default, [], [⟨5 * 2 ^ 24⟩, ⟨5 * 2 ^ 24⟩], [0, 1]⟩ ∧
    TokBuf.getLineNo ⟨StrInterner.default, [], [⟨5 * 2 ^ 24⟩, ⟨5 * 2 ^ 24⟩], [0, 1]⟩ 1 =
      List.countP (fun lbAddr => decide (lbAddr < 1)) [0, 1] :=
  ⟨by decide,
   claim_C5_line_count 1 [Tok.linebreak, Tok.linebreak] StrInterner.default
     ⟨StrInterner.default, [], [⟨5 * 2 ^ 24⟩, ⟨5 * 2 ^ 24⟩], [0, 1]⟩ 1 (by decide)⟩

/-- On a tree of depth at most `n`, every successful `get` reads an entry of the tree
(enumerable with fuel `n + 1`) whose path is a prefix of the queried sequence, with
no length constraint on the sequence. -/
theorem get_entry_of_depthLe {V : Type} :
    ∀ (n : Nat) (t : PrefixTree V) (seq : List Nat) (v : V),
      PrefixTree.depthLe n t = true → PrefixTree.get t seq = some v →
      ∃ p ∈ PrefixTree.entriesF (n + 1) t, p.2 = v ∧ p.1 <+: seq := by
  intro n
  induction n with
  | zero =>
      intro t seq v hd h
      obtain ⟨val, table⟩ := t
      rw [PrefixTree.depthLe] at hd
      have htab : table = [] := List.isEmpty_iff.mp hd
      subst htab
      have hv : val = some v := by
        cases seq with
        | nil => simpa [PrefixTree.get] using h
        | cons b rest => simpa [PrefixTree.get, tableGet] using h
      subst hv
      exact ⟨([], v), by simp [PrefixTree.entriesF], rfl, List.nil_prefix⟩
  | succ n ih =>
      intro t seq v hd h
      obtain ⟨val, table⟩ := t
      rw [PrefixTree.depthLe] at hd
      cases seq with
      | nil =>
          simp only [PrefixTree.get] at h
          subst h
          exact ⟨([], v), by simp [PrefixTree.entriesF], rfl, List.nil_prefix⟩
      | cons b rest =>
          simp only [PrefixTree.get] at h
          rcases hg : tableGet table b with _ | child
          · rw [hg] at h
            dsimp only at h
            subst h
            exact ⟨([], v), by simp [PrefixTree.entriesF], rfl, List.nil_prefix⟩
          · rw [hg] at h
            dsimp only at h
            rcases hgc : PrefixTree.get child rest with _ | v2
            · rw [hgc] at h
              dsimp only at h
              subst h
              exact ⟨([], v), by simp [PrefixTree.entriesF], rfl, List.nil_prefix⟩
            · rw [hgc] at h
              dsimp only at h
              obtain rfl : v2 = v := Option.some_inj.1 h
              have hchild : PrefixTree.depthLe n child = true :=
                List.all_eq_true.mp hd _ (tableGet_mem table b child hg)
              obtain ⟨p, hp, hpv, hps⟩ := ih child rest v2 hchild hgc
              refine ⟨(b :: p.1, p.2), ?_, hpv, List.cons_prefix_cons.2 ⟨rfl, hps⟩⟩
              simp only [PrefixTree.entriesF, List.mem_append, List.mem_flatMap]
              refine Or.inr ⟨(b, child), tableGet_mem table b child hg, ?_⟩
              simp only [List.mem_map]
              exact ⟨p, hp, rfl⟩

theorem depthLe_lexPrefixTree : PrefixTree.depthLe 12 lexPrefixTree = true := by decide

/-- The dispatch entries of the lexer's prefix tree: digit entries sit at single
numeric bytes, surviving static-token entries sit exactly at their source text, the
space entry at `[32]`, and the comment entry at `[47, 47]`. -/
theorem lexTreeEntryFacts :
    (PrefixTree.entriesF 13 lexPrefixTree).all (fun p =>
      match p.2 with
      | .digit => p.1.length == 1 && isNumericCh (p.1.getD 0 0)
      | .staticTok st => p.1 == st.sourceText
      | .spaceHit => p.1 == [32]
      | .doubleForwardSlash => p.1 == [47, 47]
      | _ => true) = true := by decide

theorem staticTok_sourceText_pos (st : StaticTok) : 0 < st.sourceText.length := by
  cases st <;> decide

theorem advanceWhile_le (bytes : List Nat) (pos : Nat) (pred : Nat → Bool)
    (h : pos ≤ bytes.length) :
    pos ≤ advanceWhile bytes pos pred ∧ advanceWhile bytes pos pred ≤ bytes.length := by
  rw [advanceWhile]
  have h1 : ((bytes.drop pos).takeWhile pred).length ≤ (bytes.drop pos).length :=
    (List.takeWhile_sublist pred).length_le
  rw [List.length_drop] at h1
  omega

theorem advanceWhile_strict (bytes : List Nat) (pos : Nat) (pred : Nat → Bool)
    (b : Nat) (hb : bytes[pos]? = some b) (hp : pred b = true) :
    pos + 1 ≤ advanceWhile bytes pos pred := by
  have hlt : pos < bytes.length := by
    by_contra hc
    rw [List.getElem?_eq_none (by omega)] at hb
    simp at hb
  have hdrop : bytes.drop pos = bytes[pos] :: bytes.drop (pos + 1) :=
    List.drop_eq_getElem_cons hlt
  have hbe : bytes[pos] = b := by
    rw [List.getElem?_eq_getElem hlt] at hb
    exact Option.some_inj.1 hb
  rw [advanceWhile, hdrop, hbe, List.takeWhile_cons_of_pos hp]
  simp only [List.length_cons]
  omega

/-- The head byte under a singleton-path prefix of the stream remainder. -/
theorem head_of_singleton_prefix (bytes : List Nat) (pos d : Nat)
    (hpre : [d] <+: bytes.drop pos) : bytes[pos]? = some d := by
  obtain ⟨t, ht⟩ := hpre
  have h0 := List.getElem?_drop bytes pos 0
  rw [← ht] at h0
  simpa using h0.symm

theorem lexStep_progress (bytes : List Nat) (pos : Nat) (hpos : pos < bytes.length) :
    pos < (lexStep bytes pos).2 ∧ (lexStep bytes pos).2 ≤ bytes.length := by
  rw [lexStep]
  rcases hg : lexPrefixTree.get (bytes.drop pos) with _ | hit
  · dsimp only
    exact ⟨by omega, by omega⟩
  · cases hit with
    | doubleQuote =>
        dsimp only
        have ha := advanceWhile_le bytes (pos + 1) (fun ch => !(ch == 34)) (by omega)
        rcases hc : bytes[advanceWhile bytes (pos + 1) (fun ch => !(ch == 34))]? with _ | c
        · dsimp only
          exact ⟨by omega, by omega⟩
        · have hlt : advanceWhile bytes (pos + 1) (fun ch => !(ch == 34)) <
              bytes.length := by
            by_contra hcon
            rw [List.getElem?_eq_none (by omega)] at hc
            simp at hc
          dsimp only
          by_cases h34 : c = 34
          · rw [if_pos h34]
            exact ⟨by omega, by omega⟩
          · rw [if_neg h34]
            exact ⟨by omega, by omega⟩
    | digit =>
        obtain ⟨p, hp, hv, hpre⟩ := get_entry_of_depthLe 12 lexPrefixTree
          (bytes.drop pos) _ depthLe_lexPrefixTree hg
        have hfact := List.all_eq_true.mp lexTreeEntryFacts p hp
        rw [hv] at hfact
        dsimp only at hfact
        rw [Bool.and_eq_true] at hfact
        obtain ⟨hlen1, hnum⟩ := hfact
        obtain ⟨d, hd⟩ : ∃ d, p.1 = [d] := by
          rcases hpl : p.1 with _ | ⟨x, _ | ⟨y, ys⟩⟩
          · rw [hpl] at hlen1
            simp at hlen1
          · exact ⟨x, rfl⟩
          · rw [hpl] at hlen1
            simp at hlen1
        rw [hd] at hpre hnum
        have hb := head_of_singleton_prefix bytes pos d hpre
        have hnum' : isNumericCh d = true := by simpa using hnum
        have hs := advanceWhile_strict bytes pos isNumericCh d hb hnum'
        have hl := advanceWhile_le bytes pos isNumericCh (by omega)
        dsimp only
        exact ⟨by omega, by omega⟩
    | staticTok st =>
        obtain ⟨p, hp, hv, hpre⟩ := get_entry_of_depthLe 12 lexPrefixTree
          (bytes.drop pos) _ depthLe_lexPrefixTree hg
        have hfact := List.all_eq_true.mp lexTreeEntryFacts p hp
        rw [hv] at hfact
        dsimp only at hfact
        have hfeq : p.1 = st.sourceText := eq_of_beq hfact
        have hple : st.sourceText.length ≤ bytes.length - pos := by
          have hle := hpre.length_le
          rw [List.length_drop, hfeq] at hle
          exact hle
        have hst := staticTok_sourceText_pos st
        dsimp only
        by_cases hcond : (isIdentStr st.sourceText &&
            (match bytes[pos + st.sourceText.length]? with
             | some next => isIdentCh next
             | none => false)) = true
        · rw [if_pos hcond]
          rw [Bool.and_eq_true] at hcond
          obtain ⟨-, hnext⟩ := hcond
          rcases hc : bytes[pos + st.sourceText.length]? with _ | next
          · rw [hc] at hnext
            simp at hnext
          · have hlt : pos + st.sourceText.length < bytes.length := by
              by_contra hcon
              rw [List.getElem?_eq_none (by omega)] at hc
              simp at hc
            rw [lexIdentAt]
            dsimp only
            have ha := advanceWhile_le bytes (pos + 1 + st.sourceText.length)
              isIdentCh (by omega)
            exact ⟨by omega, by omega⟩
        · rw [if_neg hcond]
          exact ⟨by omega, by omega⟩
    | linebreakHit =>
        dsimp only
        exact ⟨by omega, by omega⟩
    | spaceHit =>
        obtain ⟨p, hp, hv, hpre⟩ := get_entry_of_depthLe 12 lexPrefixTree
          (bytes.drop pos) _ depthLe_lexPrefixTree hg
        have hfact := List.all_eq_true.mp lexTreeEntryFacts p hp
        rw [hv] at hfact
        dsimp only at hfact
        have hfeq : p.1 = [32] := eq_of_beq hfact
        rw [hfeq] at hpre
        have hb := head_of_singleton_prefix bytes pos 32 hpre
        have hs := advanceWhile_strict bytes pos (fun ch => ch == 32) 32 hb (by decide)
        have hl := advanceWhile_le bytes pos (fun ch => ch == 32) (by omega)
        dsimp only
        by_cases hgt : advanceWhile bytes pos (fun ch => ch == 32) - pos > 1
        · rw [if_pos hgt]
          exact ⟨by omega, by omega⟩
        · rw [if_neg hgt]
          exact ⟨by omega, by omega⟩
    | doubleForwardSlash =>
        obtain ⟨p, hp, hv, hpre⟩ := get_entry_of_depthLe 12 lexPrefixTree
          (bytes.drop pos) _ depthLe_lexPrefixTree hg
        have hfact := List.all_eq_true.mp lexTreeEntryFacts p hp
        rw [hv] at hfact
        dsimp only at hfact
        have hfeq : p.1 = [47, 47] := eq_of_beq hfact
        have hp2 : pos + 2 ≤ bytes.length := by
          have hle := hpre.length_le
          rw [List.length_drop, hfeq] at hle
          simp only [List.length_cons, List.length_nil] at hle
          omega
        have ha := advanceWhile_le bytes (pos + 2) (fun ch => !(ch == 10)) hp2
        dsimp only
        exact ⟨by omega, by omega⟩
    | identPrefixChHit =>
        dsimp only
        rw [lexIdentAt]
        dsimp only
        have ha := advanceWhile_le bytes (pos + 1 + 0) isIdentCh (by omega)
        exact ⟨by omega, by omega⟩

theorem lexLoopF_complete (bytes : List Nat) :
    ∀ (fuel pos : Nat), pos ≤ bytes.length → bytes.length - pos ≤ fuel →
      (lexLoopF bytes fuel pos).2 = bytes.length ∧
      (lexLoopF bytes fuel pos).1.length ≤ bytes.length - pos := by
  intro fuel
  induction fuel with
  | zero =>
      intro pos h1 h2
      rw [lexLoopF]
      constructor
      · omega
      · simp
  | succ fuel ih =>
      intro pos h1 h2
      rw [lexLoopF]
      by_cases hlt : pos < bytes.length
      · rw [if_pos hlt]
        dsimp only
        obtain ⟨hst, hle⟩ := lexStep_progress bytes pos hlt
        obtain ⟨ih1, ih2⟩ := ih (lexStep bytes pos).2 hle (by omega)
        refine ⟨ih1, ?_⟩
        simp only [List.length_cons]
        omega
      · rw [if_neg hlt]
        constructor
        · omega
        · simp

/-- C9: every iteration of the lexer's main loop consumes at least one byte and stays
within the input (first conjunct), and emits exactly one token (second conjunct);
hence the loop run by `lex`, fueled with `|bytes|`, ends exactly at end-of-input
having emitted at most `|bytes|` tokens (third and fourth conjuncts). -/
theorem claim_C9_lexer_progress (bytes : List Nat) :
    (∀ pos, pos < bytes.length →
      pos < (lexStep bytes pos).2 ∧ (lexStep bytes pos).2 ≤ bytes.length) ∧
    (∀ fuel pos, pos < bytes.length →
      (lexLoopF bytes (fuel + 1) pos).1.length =
        (lexLoopF bytes fuel (lexStep bytes pos).2).1.length + 1) ∧
    (lexLoopF bytes bytes.length 0).2 = bytes.length ∧
    (lexToks bytes).length ≤ bytes.length := by
  refine ⟨fun pos h => lexStep_progress bytes pos h, ?_, ?_, ?_⟩
  · intro fuel pos h
    rw [lexLoopF, if_pos h]
    simp
  · exact (lexLoopF_complete bytes bytes.length 0 (by omega) (by omega)).1
  · have := (lexLoopF_complete bytes bytes.length 0 (by omega) (by omega)).2
    rw [lexToks]
    omega

theorem claim_C9_lexer_progress_witness :
    (0 < (lexStep [58, 58, 32] 0).2 ∧ (lexStep [58, 58, 32] 0).2 ≤ 3) ∧
    (lexLoopF [58, 58, 32] 3 0).2 = 3 ∧
    (lexToks [58, 58, 32]).length ≤ 3 :=
  ⟨(claim_C9_lexer_progress [58, 58, 32]).1 0 (by decide),
   (claim_C9_lexer_progress [58, 58, 32]).2.2⟩

theorem entryInv_of_pack (e : TokBufEntry) (hk : e.kind = some EntryType.staticPack)
    (o : Nat) (hp : PackInv e.etc o) : EntryInv e := by
  refine ⟨by simp [hk], fun _ => ⟨o, hp⟩, ?_⟩
  intro hc
  rcases hc with h | h | h | h <;> rw [hk] at h <;> simp at h

theorem entryInv_of_wide (e : TokBufEntry) (k : EntryType) (hk : e.kind = some k)
    (hnp : k ≠ EntryType.staticPack)
    (hetc : (k = EntryType.strLiteral ∨ k = EntryType.decIntLiteral ∨
      k = EntryType.ident ∨ k = EntryType.lineComment) → e.etc ≠ 0) : EntryInv e := by
  refine ⟨by simp [hk], fun hc => ?_, fun hc => ?_⟩
  · rw [hk] at hc
    exact absurd (Option.some_inj.mp hc) hnp
  · apply hetc
    rcases hc with h | h | h | h <;> rw [hk] at h
    · exact Or.inl (Option.some_inj.mp h)
    · exact Or.inr (Or.inl (Option.some_inj.mp h))
    · exact Or.inr (Or.inr (Or.inl (Option.some_inj.mp h)))
    · exact Or.inr (Or.inr (Or.inr (Option.some_inj.mp h)))

theorem tokBufEntry_new_some (k : EntryType) (etc : Nat) (e : TokBufEntry)
    (h : TokBufEntry.new k etc = some e) :
    etc < 2 ^ 24 ∧ e.kind = some k ∧ e.etc = etc := by
  rw [TokBufEntry.new] at h
  by_cases h24 : etc < 2 ^ 24
  · rw [if_pos h24] at h
    obtain rfl : (⟨k.id * 2 ^ 24 + etc⟩ : TokBufEntry) = e := Option.some_inj.mp h
    exact ⟨h24, entry_kind k etc h24, entry_etc k etc h24⟩
  · rw [if_neg h24] at h
    exact absurd h (by simp)

theorem tokBufInv_push (fuel : Nat) (tb : TokBuf) (t : Tok) (tb2 : TokBuf)
    (h : TokBuf.push fuel tb t = some tb2) (hlen : TokLenOk t)
    (hinv : TokBufInv tb) : TokBufInv tb2 := by
  obtain ⟨hti, hei⟩ := hinv
  cases t with
  | static stok =>
      rw [TokBuf.push] at h
      obtain ⟨hid1, hid31⟩ := staticTok_id_bounds stok
      have hfrom : (StaticTok.fromId stok.id).isSome := by
        rw [staticTok_fromId_id]
        rfl
      have hsingle : EntryInv ⟨EntryType.staticPack.id * 2 ^ 24 + stok.id⟩ := by
        refine entryInv_of_pack _ (entry_kind _ _ (by omega)) 1 ?_
        rw [entry_etc _ _ (by omega)]
        exact packInv_single stok.id hid1 hid31 hfrom
      rcases hl : tb.buf.getLast? with _ | e
      · rw [pushStaticTok_not_pack tb stok
          (fun e' he' => by rw [hl] at he'; exact absurd he' (by simp))] at h
        simp only [Option.some.injEq] at h
        subst h
        refine ⟨hti, ?_⟩
        intro e' he'
        rcases List.mem_append.mp he' with hm | hm
        · exact hei e' hm
        · rw [List.mem_singleton] at hm
          subst hm
          exact hsingle
      · by_cases hk : e.kind = some EntryType.staticPack
        · obtain ⟨o, hp⟩ := (hei e (List.mem_of_mem_getLast? hl)).2.1 hk
          have ho3 : o ≤ 3 := hp.2.1
          by_cases ho : o < 3
          · rw [pushStaticTok_fold tb stok e o hl hk hp ho] at h
            simp only [Option.some.injEq] at h
            subst h
            obtain ⟨-, hp2, -, -⟩ := packInv_fold e.etc o stok.id hp ho hid1 hid31 hfrom
            have hlt : 2 ^ (8 * o) * stok.id + e.etc < 2 ^ 24 := by
              obtain ⟨-, -, -, -, -, hb⟩ := hp2
              calc 2 ^ (8 * o) * stok.id + e.etc < 2 ^ (8 * (o + 1)) := hb
                _ ≤ 2 ^ 24 := Nat.pow_le_pow_right (by omega) (by omega)
            refine ⟨hti, ?_⟩
            intro e' he'
            rcases List.mem_append.mp he' with hm | hm
            · exact hei e' ((List.dropLast_sublist (l := tb.buf)).mem hm)
            · rw [List.mem_singleton] at hm
              subst hm
              refine entryInv_of_pack _ (entry_kind _ _ hlt) (o + 1) ?_
              rw [entry_etc _ _ hlt]
              exact hp2
          · have ho3' : o = 3 := by omega
            subst ho3'
            rw [pushStaticTok_full tb stok e hl hk hp] at h
            simp only [Option.some.injEq] at h
            subst h
            refine ⟨hti, ?_⟩
            intro e' he'
            rcases List.mem_append.mp he' with hm | hm
            · exact hei e' hm
            · rw [List.mem_singleton] at hm
              subst hm
              exact hsingle
        · rw [pushStaticTok_not_pack tb stok (fun e' he' => by
            rw [hl] at he'
            obtain rfl : e = e' := Option.some_inj.mp he'
            exact hk)] at h
          simp only [Option.some.injEq] at h
          subst h
          refine ⟨hti, ?_⟩
          intro e' he'
          rcases List.mem_append.mp he' with hm | hm
          · exact hei e' hm
          · rw [List.mem_singleton] at hm
            subst hm
            exact hsingle
  | strLiteral bytes =>
      rw [TokBuf.push, TokBuf.pushStrLiteral] at h
      rcases hn : TokBufEntry.new .strLiteral (StrList.push tb.str_table bytes).2 with _ | e
      · rw [hn] at h
        simp at h
      · rw [hn] at h
        dsimp only at h
        simp only [Option.some.injEq] at h
        subst h
        obtain ⟨-, hkind, hetc⟩ := tokBufEntry_new_some _ _ _ hn
        refine ⟨hti, ?_⟩
        intro e' he'
        rcases List.mem_append.mp he' with hm | hm
        · exact hei e' hm
        · rw [List.mem_singleton] at hm
          subst hm
          refine entryInv_of_wide _ _ hkind (by simp) (fun _ => ?_)
          rw [hetc, StrList.push_key]
          omega
  | decIntLiteral bytes =>
      rw [TokBuf.push, TokBuf.pushDecIntLiteral] at h
      rcases hn : TokBufEntry.new .decIntLiteral (StrList.push tb.str_table bytes).2 with _ | e
      · rw [hn] at h
        simp at h
      · rw [hn] at h
        dsimp only at h
        simp only [Option.some.injEq] at h
        subst h
        obtain ⟨-, hkind, hetc⟩ := tokBufEntry_new_some _ _ _ hn
        refine ⟨hti, ?_⟩
        intro e' he'
        rcases List.mem_append.mp he' with hm | hm
        · exact hei e' hm
        · rw [List.mem_singleton] at hm
          subst hm
          refine entryInv_of_wide _ _ hkind (by simp) (fun _ => ?_)
          rw [hetc, StrList.push_key]
          omega
  | ident bytes =>
      rw [TokBuf.push, TokBuf.pushIdent] at h
      rcases hi : internF fuel tb.interner bytes with _ | p
      · rw [hi] at h
        simp at h
      · obtain ⟨I2, key⟩ := p
        rw [hi] at h
        dsimp only at h
        rcases hn : TokBufEntry.new .ident key with _ | e
        · rw [hn] at h
          simp at h
        · rw [hn] at h
          dsimp only at h
          simp only [Option.some.injEq] at h
          subst h
          have hpost := intern_spec fuel tb.interner bytes I2 key hi hti hlen
          obtain ⟨-, hkind, hetc⟩ := tokBufEntry_new_some _ _ _ hn
          refine ⟨hpost.inv, ?_⟩
          intro e' he'
          rcases List.mem_append.mp he' with hm | hm
          · exact hei e' hm
          · rw [List.mem_singleton] at hm
            subst hm
            refine entryInv_of_wide _ _ hkind (by simp) (fun _ => ?_)
            rw [hetc]
            have := hpost.validk.1
            omega
  | linebreak =>
      rw [TokBuf.push, TokBuf.pushLinebreak] at h
      rcases hn : TokBufEntry.new .linebreak 0 with _ | e
      · rw [hn] at h
        simp at h
      · rw [hn] at h
        dsimp only at h
        simp only [Option.some.injEq] at h
        subst h
        obtain ⟨-, hkind, -⟩ := tokBufEntry_new_some _ _ _ hn
        refine ⟨hti, ?_⟩
        intro e' he'
        rcases List.mem_append.mp he' with hm | hm
        · exact hei e' hm
        · rw [List.mem_singleton] at hm
          subst hm
          refine entryInv_of_wide _ _ hkind (by simp) (fun hc => ?_)
          rcases hc with h' | h' | h' | h' <;> simp at h'
  | align count =>
      rw [TokBuf.push, TokBuf.pushAlign] at h
      rcases hn : TokBufEntry.new .align count with _ | e
      · rw [hn] at h
        simp at h
      · rw [hn] at h
        dsimp only at h
        simp only [Option.some.injEq] at h
        subst h
        obtain ⟨-, hkind, -⟩ := tokBufEntry_new_some _ _ _ hn
        refine ⟨hti, ?_⟩
        intro e' he'
        rcases List.mem_append.mp he' with hm | hm
        · exact hei e' hm
        · rw [List.mem_singleton] at hm
          subst hm
          refine entryInv_of_wide _ _ hkind (by simp) (fun hc => ?_)
          rcases hc with h' | h' | h' | h' <;> simp at h'
  | lineComment bytes =>
      rw [TokBuf.push, TokBuf.pushLineComment] at h
      rcases hn : TokBufEntry.new .lineComment (StrList.push tb.str_table bytes).2 with _ | e
      · rw [hn] at h
        simp at h
      · rw [hn] at h
        dsimp only at h
        simp only [Option.some.injEq] at h
        subst h
        obtain ⟨-, hkind, hetc⟩ := tokBufEntry_new_some _ _ _ hn
        refine ⟨hti, ?_⟩
        intro e' he'
        rcases List.mem_append.mp he' with hm | hm
        · exact hei e' hm
        · rw [List.mem_singleton] at hm
          subst hm
          refine entryInv_of_wide _ _ hkind (by simp) (fun _ => ?_)
          rw [hetc, StrList.push_key]
          omega
  | unexpected ch =>
      rw [TokBuf.push, TokBuf.pushUnexpected] at h
      rcases hn : TokBufEntry.new .unexpected ch with _ | e
      · rw [hn] at h
        simp at h
      · rw [hn] at h
        dsimp only at h
        simp only [Option.some.injEq] at h
        subst h
        obtain ⟨-, hkind, -⟩ := tokBufEntry_new_some _ _ _ hn
        refine ⟨hti, ?_⟩
        intro e' he'
        rcases List.mem_append.mp he' with hm | hm
        · exact hei e' hm
        · rw [List.mem_singleton] at hm
          subst hm
          refine entryInv_of_wide _ _ hkind (by simp) (fun hc => ?_)
          rcases hc with h' | h' | h' | h' <;> simp at h'

theorem tokBufInv_pushAll (fuel : Nat) (toks : List Tok) :
    ∀ (tb tb2 : TokBuf), TokBuf.pushAll fuel toks tb = some tb2 →
      (∀ t ∈ toks, TokLenOk t) → TokBufInv tb → TokBufInv tb2 := by
  induction toks with
  | nil =>
      intro tb tb2 h _ hinv
      rw [TokBuf.pushAll] at h
      simp only [Option.some.injEq] at h
      subst h
      exact hinv
  | cons t toks ih =>
      intro tb tb2 h hlens hinv
      rw [TokBuf.pushAll] at h
      rcases hp : TokBuf.push fuel tb t with _ | tbmid
      · rw [hp] at h
        simp at h
      · rw [hp] at h
        dsimp only at h
        exact ih tbmid tb2 h (fun t' ht' => hlens t' (List.mem_cons_of_mem _ ht'))
          (tokBufInv_push fuel tb t tbmid hp (hlens t (List.mem_cons_self _ _)) hinv)

theorem tokBufInv_empty : TokBufInv (TokBuf.empty StrInterner.default) := by
  refine ⟨tableInv_empty [], ?_⟩
  intro e he
  simp [TokBuf.empty] at he

theorem getMiss_false_of_found (tb : TokBuf) (key : Key) (tbe : TokBufEntry)
    (k : EntryType) (hb : tb.buf[key.addr]? = some tbe) (hk : tbe.kind = some k)
    (hpidx : k = EntryType.staticPack ∨ key.packIdx = 0)
    (hpk : k = EntryType.staticPack →
      key.packIdx ≤ 2 ∧ slotId tbe.etc key.packIdx ≠ 0) :
    ¬ GetMiss tb key := by
  intro hm
  rcases hm with h1 | ⟨e', k', he', hk', hne, hpx⟩ | ⟨e', he', hk', h2⟩ |
    ⟨e', he', hk', hle, hz⟩
  · rw [hb] at h1
    exact Option.noConfusion h1
  · rw [hb] at he'
    obtain rfl : tbe = e' := Option.some_inj.mp he'
    rw [hk] at hk'
    obtain rfl : k = k' := Option.some_inj.mp hk'
    rcases hpidx with hkp | hz0
    · exact hne hkp
    · exact hpx hz0
  · rw [hb] at he'
    obtain rfl : tbe = e' := Option.some_inj.mp he'
    rw [hk] at hk'
    have hkp : k = EntryType.staticPack := Option.some_inj.mp hk'
    have := (hpk hkp).1
    omega
  · rw [hb] at he'
    obtain rfl : tbe = e' := Option.some_inj.mp he'
    rw [hk] at hk'
    have hkp : k = EntryType.staticPack := Option.some_inj.mp hk'
    exact (hpk hkp).2 hz

/-- `get` on a buffer of well-formed entries: never a crash, `notFound` exactly under
the four miss conditions, and a token otherwise. -/
theorem get_spec_of_inv (tb : TokBuf) (key : Key)
    (hinv : ∀ e ∈ tb.buf, EntryInv e) :
    tb.get key ≠ GetOut.crash ∧
    (tb.get key = GetOut.notFound ↔ GetMiss tb key) ∧
    (¬ GetMiss tb key → ∃ t, tb.get key = GetOut.found t) := by
  rw [TokBuf.get]
  rcases hb : tb.buf[key.addr]? with _ | tbe
  · dsimp only
    refine ⟨by simp, ?_, ?_⟩
    · simp only [true_iff]
      exact Or.inl hb
    · intro hm
      exact absurd (Or.inl hb) hm
  · dsimp only
    obtain ⟨hknone, hpack, hwide⟩ := hinv tbe (List.getElem?_mem hb)
    rcases hk : tbe.kind with _ | k
    · exact absurd hk hknone
    · dsimp only
      by_cases hcond : k ≠ EntryType.staticPack ∧ key.packIdx ≠ 0
      · rw [if_pos hcond]
        refine ⟨by simp, ?_, ?_⟩
        · simp only [true_iff]
          exact Or.inr (Or.inl ⟨tbe, k, hb, hk, hcond.1, hcond.2⟩)
        · intro hm
          exact absurd (Or.inr (Or.inl ⟨tbe, k, hb, hk, hcond.1, hcond.2⟩)) hm
      · rw [if_neg hcond]
        have hcond' : k = EntryType.staticPack ∨ key.packIdx = 0 := by
          by_cases hkp : k = EntryType.staticPack
          · exact Or.inl hkp
          · refine Or.inr ?_
            by_contra hz
            exact hcond ⟨hkp, hz⟩
        cases k with
        | staticPack =>
            dsimp only
            by_cases h2 : key.packIdx > 2
            · rw [if_pos h2]
              refine ⟨by simp, ?_, ?_⟩
              · simp only [true_iff]
                exact Or.inr (Or.inr (Or.inl ⟨tbe, hb, hk, h2⟩))
              · intro hm
                exact absurd (Or.inr (Or.inr (Or.inl ⟨tbe, hb, hk, h2⟩))) hm
            · rw [if_neg h2]
              by_cases hz : slotId tbe.etc key.packIdx = 0
              · rw [if_pos hz]
                refine ⟨by simp, ?_, ?_⟩
                · simp only [true_iff]
                  exact Or.inr (Or.inr (Or.inr ⟨tbe, hb, hk, by omega, hz⟩))
                · intro hm
                  exact absurd (Or.inr (Or.inr (Or.inr ⟨tbe, hb, hk, by omega, hz⟩))) hm
              · rw [if_neg hz]
                obtain ⟨o, hp⟩ := hpack hk
                obtain ⟨ho1, ho3, hocc, hzero, -, -⟩ := hp
                have hplt : key.packIdx < o := by
                  by_contra hge
                  exact hz (hzero key.packIdx (by omega) (by omega))
                obtain ⟨s, hs⟩ := Option.isSome_iff_exists.mp (hocc key.packIdx hplt).2
                rw [hs]
                dsimp only
                have hmiss := getMiss_false_of_found tb key tbe EntryType.staticPack
                  hb hk (Or.inl rfl) (fun _ => ⟨by omega, hz⟩)
                refine ⟨by simp, ?_, fun _ => ⟨Tok.static s, rfl⟩⟩
                simp only [show (GetOut.found (Tok.static s) = GetOut.notFound) ↔ False
                  from by simp, false_iff]
                exact hmiss
        | strLiteral =>
            dsimp only
            have hetc : tbe.etc ≠ 0 := hwide (Or.inl hk)
            rw [if_neg hetc]
            have hmiss := getMiss_false_of_found tb key tbe EntryType.strLiteral
              hb hk hcond' (fun hkp => absurd hkp (by simp))
            refine ⟨by simp, ?_, fun _ => ⟨_, rfl⟩⟩
            simp only [show (GetOut.found (Tok.strLiteral
              (StrList.get tb.str_table tbe.etc)) = GetOut.notFound) ↔ False
              from by simp, false_iff]
            exact hmiss
        | decIntLiteral =>
            dsimp only
            have hetc : tbe.etc ≠ 0 := hwide (Or.inr (Or.inl hk))
            rw [if_neg hetc]
            have hmiss := getMiss_false_of_found tb key tbe EntryType.decIntLiteral
              hb hk hcond' (fun hkp => absurd hkp (by simp))
            refine ⟨by simp, ?_, fun _ => ⟨_, rfl⟩⟩
            simp only [show (GetOut.found (Tok.decIntLiteral
              (StrList.get tb.str_table tbe.etc)) = GetOut.notFound) ↔ False
              from by simp, false_iff]
            exact hmiss
        | ident =>
            dsimp only
            have hetc : tbe.etc ≠ 0 := hwide (Or.inr (Or.inr (Or.inl hk)))
            rw [if_neg hetc]
            have hmiss := getMiss_false_of_found tb key tbe EntryType.ident
              hb hk hcond' (fun hkp => absurd hkp (by simp))
            refine ⟨by simp, ?_, fun _ => ⟨_, rfl⟩⟩
            simp only [show (GetOut.found (Tok.ident
              (StrList.get tb.interner.str_list tbe.etc)) = GetOut.notFound) ↔ False
              from by simp, false_iff]
            exact hmiss
        | linebreak =>
            dsimp only
            have hmiss := getMiss_false_of_found tb key tbe EntryType.linebreak
              hb hk hcond' (fun hkp => absurd hkp (by simp))
            refine ⟨by simp, ?_, fun _ => ⟨_, rfl⟩⟩
            simp only [show (GetOut.found Tok.linebreak = GetOut.notFound) ↔ False
              from by simp, false_iff]
            exact hmiss
        | align =>
            dsimp only
            have hmiss := getMiss_false_of_found tb key tbe EntryType.align
              hb hk hcond' (fun hkp => absurd hkp (by simp))
            refine ⟨by simp, ?_, fun _ => ⟨_, rfl⟩⟩
            simp only [show (GetOut.found (Tok.align tbe.etc) = GetOut.notFound) ↔ False
              from by simp, false_iff]
            exact hmiss
        | lineComment =>
            dsimp only
            have hetc : tbe.etc ≠ 0 := hwide (Or.inr (Or.inr (Or.inr hk)))
            rw [if_neg hetc]
            have hmiss := getMiss_false_of_found tb key tbe EntryType.lineComment
              hb hk hcond' (fun hkp => absurd hkp (by simp))
            refine ⟨by simp, ?_, fun _ => ⟨_, rfl⟩⟩
            simp only [show (GetOut.found (Tok.lineComment
              (StrList.get tb.str_table tbe.etc)) = GetOut.notFound) ↔ False
              from by simp, false_iff]
            exact hmiss
        | unexpected =>
            dsimp only
            have hmiss := getMiss_false_of_found tb key tbe EntryType.unexpected
              hb hk hcond' (fun hkp => absurd hkp (by simp))
            refine ⟨by simp, ?_, fun _ => ⟨_, rfl⟩⟩
            simp only [show (GetOut.found (Tok.unexpected (tbe.etc % 2 ^ 8)) =
              GetOut.notFound) ↔ False from by simp, false_iff]
            exact hmiss

/-- C10: for a token buffer built by any successful sequence of pushes from fresh and
any 32-bit key, `get` is total: it never panics, answers `None` exactly when the
address is out of range, the pack index is nonzero on a non-pack entry, the pack
index exceeds 2, or the addressed pack slot is zero, and returns a token in every
other case. -/
theorem claim_C10_get_total (fuel : Nat) (toks : List Tok) (tb : TokBuf) (key : Key)
    (hrun : TokBuf.pushAll fuel toks (TokBuf.empty StrInterner.default) = some tb)
    (hlens : ∀ t ∈ toks, TokLenOk t) (_hkey : key.data < 2 ^ 32) :
    tb.get key ≠ GetOut.crash ∧
    (tb.get key = GetOut.notFound ↔ GetMiss tb key) ∧
    (¬ GetMiss tb key → ∃ t, tb.get key = GetOut.found t) := by
  have hinv := tokBufInv_pushAll fuel toks _ tb hrun hlens tokBufInv_empty
  exact get_spec_of_inv tb key hinv.2

theorem claim_C10_get_total_witness :
    ((⟨StrInterner.default, [], [⟨2 ^ 24 + StaticTok.If.id⟩], []⟩ : TokBuf).get ⟨0⟩ ≠
      GetOut.crash ∧
    ((⟨StrInterner.default, [], [⟨2 ^ 24 + StaticTok.If.id⟩], []⟩ : TokBuf).get ⟨0⟩ =
        GetOut.notFound ↔
      GetMiss ⟨StrInterner.default, [], [⟨2 ^ 24 + StaticTok.If.id⟩], []⟩ ⟨0⟩) ∧
    (¬ GetMiss ⟨StrInterner.default, [], [⟨2 ^ 24 + StaticTok.If.id⟩], []⟩ ⟨0⟩ →
      ∃ t, (⟨StrInterner.default, [], [⟨2 ^ 24 + StaticTok.If.id⟩], []⟩ : TokBuf).get
        ⟨0⟩ = GetOut.found t)) :=
  claim_C10_get_total 1 [Tok.static StaticTok.If]
    ⟨StrInterner.default, [], [⟨2 ^ 24 + StaticTok.If.id⟩], []⟩ ⟨0⟩ (by decide)
    (by intro t ht; rw [List.mem_singleton] at ht; subst ht; exact trivial)
    (by decide)

theorem key_addr_packIdx (addr pidx : Nat) (h : pidx < 2 ^ 8) :
    (⟨pidx + addr * 2 ^ 8⟩ : Key).addr = addr ∧
    (⟨pidx + addr * 2 ^ 8⟩ : Key).packIdx = pidx := by
  constructor
  · rw [Key.addr]
    dsimp only
    rw [Nat.add_mul_div_right _ _ (by norm_num : 0 < 2 ^ 8), Nat.div_eq_of_lt h]
    omega
  · rw [Key.packIdx]
    dsimp only
    rw [Nat.add_mul_mod_self_right, Nat.mod_eq_of_lt h]

theorem packToks_packInv (etc o : Nat) (h : PackInv etc o) :
    packToks etc = (List.range o).map
      (fun p => Tok.static ((StaticTok.fromId (slotId etc p)).getD StaticTok.If)) := by
  obtain ⟨ho1, ho3, hocc, hzero, -, -⟩ := h
  have hr3 : List.range 3 = [0, 1, 2] := rfl
  interval_cases o
  · obtain ⟨s0, hs0⟩ := Option.isSome_iff_exists.mp (hocc 0 (by omega)).2
    have hn0 : ¬ (slotId etc 0 = 0) := (hocc 0 (by omega)).1
    rw [packToks, hr3]
    simp only [List.filterMap_cons, List.filterMap_nil]
    simp [hn0, hzero 1 (by omega) (by omega), hzero 2 (by omega) (by omega), hs0,
      List.range_succ]
  · obtain ⟨s0, hs0⟩ := Option.isSome_iff_exists.mp (hocc 0 (by omega)).2
    obtain ⟨s1, hs1⟩ := Option.isSome_iff_exists.mp (hocc 1 (by omega)).2
    have hn0 : ¬ (slotId etc 0 = 0) := (hocc 0 (by omega)).1
    have hn1 : ¬ (slotId etc 1 = 0) := (hocc 1 (by omega)).1
    rw [packToks, hr3]
    simp only [List.filterMap_cons, List.filterMap_nil]
    simp [hn0, hn1, hzero 2 (by omega) (by omega), hs0, hs1, List.range_succ]
  · obtain ⟨s0, hs0⟩ := Option.isSome_iff_exists.mp (hocc 0 (by omega)).2
    obtain ⟨s1, hs1⟩ := Option.isSome_iff_exists.mp (hocc 1 (by omega)).2
    obtain ⟨s2, hs2⟩ := Option.isSome_iff_exists.mp (hocc 2 (by omega)).2
    have hn0 : ¬ (slotId etc 0 = 0) := (hocc 0 (by omega)).1
    have hn1 : ¬ (slotId etc 1 = 0) := (hocc 1 (by omega)).1
    have hn2 : ¬ (slotId etc 2 = 0) := (hocc 2 (by omega)).1
    rw [packToks, hr3]
    simp only [List.filterMap_cons, List.filterMap_nil]
    simp [hn0, hn1, hn2, hs0, hs1, hs2, List.range_succ]

theorem packToks_fold_append (etc o id : Nat) (s : StaticTok) (h : PackInv etc o)
    (ho : o < 3) (hid1 : 1 ≤ id) (hid31 : id ≤ 31)
    (hs : StaticTok.fromId id = some s) :
    packToks (2 ^ (8 * o) * id + etc) = packToks etc ++ [Tok.static s] := by
  obtain ⟨-, hinv2, hkeep, hnew⟩ :=
    packInv_fold etc o id h ho hid1 hid31 (by rw [hs]; rfl)
  obtain ⟨ho1, ho3, hocc, hzero, -, -⟩ := h
  obtain ⟨-, -, -, hzero2, -, -⟩ := hinv2
  have hr3 : List.range 3 = [0, 1, 2] := rfl
  have hidne : ¬ (id = 0) := by omega
  interval_cases o
  · obtain ⟨s0, hs0⟩ := Option.isSome_iff_exists.mp (hocc 0 (by omega)).2
    have hn0 : ¬ (slotId etc 0 = 0) := (hocc 0 (by omega)).1
    rw [show (2 : Nat) ^ (8 * 1) = 256 from rfl] at hkeep hnew hzero2
    rw [packToks, packToks, hr3]
    simp only [List.filterMap_cons, List.filterMap_nil]
    simp [hkeep 0 (by omega), hn0, hnew, hs, hidne,
      hzero 1 (by omega) (by omega), hzero 2 (by omega) (by omega),
      hzero2 2 (by omega) (by omega), hs0]
  · obtain ⟨s0, hs0⟩ := Option.isSome_iff_exists.mp (hocc 0 (by omega)).2
    obtain ⟨s1, hs1⟩ := Option.isSome_iff_exists.mp (hocc 1 (by omega)).2
    have hn0 : ¬ (slotId etc 0 = 0) := (hocc 0 (by omega)).1
    have hn1 : ¬ (slotId etc 1 = 0) := (hocc 1 (by omega)).1
    rw [show (2 : Nat) ^ (8 * 2) = 65536 from rfl] at hkeep hnew hzero2
    rw [packToks, packToks, hr3]
    simp only [List.filterMap_cons, List.filterMap_nil]
    simp [hkeep 0 (by omega), hkeep 1 (by omega), hn0, hn1, hnew, hs, hidne,
      hzero 2 (by omega) (by omega), hs0, hs1]

/-- Pushing a fresh singleton pack decodes to the one pushed static. -/
theorem packToks_single (id : Nat) (s : StaticTok) (hid1 : 1 ≤ id) (hid31 : id ≤ 31)
    (hs : StaticTok.fromId id = some s) :
    packToks id = [Tok.static s] := by
  have h := packInv_single id hid1 hid31 (by rw [hs]; rfl)
  obtain ⟨ho1, ho3, hocc, hzero, -, -⟩ := h
  have hr3 : List.range 3 = [0, 1, 2] := rfl
  have hne : ¬ (id = 0) := by omega
  have hslot0 : slotId id 0 = id := by
    simp [slotId, Nat.shiftRight_eq_div_pow]
    omega
  rw [packToks, hr3]
  simp only [List.filterMap_cons, List.filterMap_nil]
  simp [hslot0, hne, hs, hzero 1 (by omega) (by omega), hzero 2 (by omega) (by omega)]

theorem entryWf_of_pack (tb : TokBuf) (e : TokBufEntry)
    (hk : e.kind = some EntryType.staticPack) (o : Nat) (hp : PackInv e.etc o) :
    EntryWf tb e := by
  refine ⟨by simp [hk], fun _ => ⟨o, hp⟩, fun hc => ?_, fun hc => ?_⟩
  · rcases hc with h | h | h <;> rw [hk] at h <;> simp at h
  · rw [hk] at hc
    simp at hc

theorem entryWf_of_wide (tb : TokBuf) (e : TokBufEntry) (k : EntryType)
    (hk : e.kind = some k) (hnp : k ≠ EntryType.staticPack)
    (hvs : (k = EntryType.strLiteral ∨ k = EntryType.decIntLiteral ∨
      k = EntryType.lineComment) → StrList.ValidKey tb.str_table e.etc)
    (hvi : k = EntryType.ident → StrList.ValidKey tb.interner.str_list e.etc) :
    EntryWf tb e := by
  refine ⟨by simp [hk], fun hc => ?_, fun hc => ?_, fun hc => ?_⟩
  · rw [hk] at hc
    exact absurd (Option.some_inj.mp hc) hnp
  · apply hvs
    rcases hc with h | h | h <;> rw [hk] at h
    · exact Or.inl (Option.some_inj.mp h)
    · exact Or.inr (Or.inl (Option.some_inj.mp h))
    · exact Or.inr (Or.inr (Option.some_inj.mp h))
  · apply hvi
    rw [hk] at hc
    exact Option.some_inj.mp hc

theorem get_nonpack_notFound (tb : TokBuf) (key : Key) (e : TokBufEntry)
    (k : EntryType) (hb : tb.buf[key.addr]? = some e) (hk : e.kind = some k)
    (hnp : k ≠ EntryType.staticPack) (hz : key.packIdx ≠ 0) :
    tb.get key = GetOut.notFound := by
  rw [TokBuf.get, hb]
  dsimp only
  rw [hk]
  dsimp only
  rw [if_pos ⟨hnp, hz⟩]

theorem get_wide_found (tb : TokBuf) (key : Key) (e : TokBufEntry) (k : EntryType)
    (hb : tb.buf[key.addr]? = some e) (hk : e.kind = some k)
    (hnp : k ≠ EntryType.staticPack) (hz : key.packIdx = 0)
    (hwf : EntryWf tb e) :
    ∃ t, tb.get key = GetOut.found t ∧ decodeEntry tb e = [t] := by
  obtain ⟨-, -, hVstr, hVid⟩ := hwf
  have hcond : ¬ (k ≠ EntryType.staticPack ∧ key.packIdx ≠ 0) := by
    intro hc
    exact hc.2 hz
  rw [TokBuf.get, hb]
  dsimp only
  rw [hk]
  dsimp only
  rw [if_neg hcond, decodeEntry, hk]
  cases k with
  | staticPack => exact absurd rfl hnp
  | strLiteral =>
      dsimp only
      have hv := hVstr (Or.inl hk)
      rw [if_neg (show ¬ (e.etc = 0) by have := hv.1; omega)]
      exact ⟨_, rfl, rfl⟩
  | decIntLiteral =>
      dsimp only
      have hv := hVstr (Or.inr (Or.inl hk))
      rw [if_neg (show ¬ (e.etc = 0) by have := hv.1; omega)]
      exact ⟨_, rfl, rfl⟩
  | ident =>
      dsimp only
      have hv := hVid hk
      rw [if_neg (show ¬ (e.etc = 0) by have := hv.1; omega)]
      exact ⟨_, rfl, rfl⟩
  | linebreak =>
      dsimp only
      exact ⟨_, rfl, rfl⟩
  | align =>
      dsimp only
      exact ⟨_, rfl, rfl⟩
  | lineComment =>
      dsimp only
      have hv := hVstr (Or.inr (Or.inr hk))
      rw [if_neg (show ¬ (e.etc = 0) by have := hv.1; omega)]
      exact ⟨_, rfl, rfl⟩
  | unexpected =>
      dsimp only
      exact ⟨_, rfl, rfl⟩

theorem get_pack_found (tb : TokBuf) (key : Key) (e : TokBufEntry) (s : StaticTok)
    (hb : tb.buf[key.addr]? = some e) (hk : e.kind = some EntryType.staticPack)
    (hp2 : key.packIdx ≤ 2)
    (hs : StaticTok.fromId (slotId e.etc key.packIdx) = some s)
    (hnz : ¬ (slotId e.etc key.packIdx = 0)) :
    tb.get key = GetOut.found (Tok.static s) := by
  have hcond : ¬ (EntryType.staticPack ≠ EntryType.staticPack ∧ key.packIdx ≠ 0) := by
    intro hc
    exact hc.1 rfl
  rw [TokBuf.get, hb]
  dsimp only
  rw [hk]
  dsimp only
  rw [if_neg hcond]
  rw [if_neg (by omega : ¬ key.packIdx > 2)]
  rw [if_neg hnz, hs]

theorem get_pack_miss (tb : TokBuf) (key : Key) (e : TokBufEntry) (o : Nat)
    (hb : tb.buf[key.addr]? = some e) (hk : e.kind = some EntryType.staticPack)
    (hp : PackInv e.etc o) (hmiss : 2 < key.packIdx ∨ o ≤ key.packIdx) :
    tb.get key = GetOut.notFound := by
  have hcond : ¬ (EntryType.staticPack ≠ EntryType.staticPack ∧ key.packIdx ≠ 0) := by
    intro hc
    exact hc.1 rfl
  rw [TokBuf.get, hb]
  dsimp only
  rw [hk]
  dsimp only
  rw [if_neg hcond]
  by_cases h2 : key.packIdx > 2
  · rw [if_pos h2]
  · rw [if_neg h2]
    have ho : o ≤ key.packIdx := by
      rcases hmiss with hc | hc
      · omega
      · exact hc
    obtain ⟨-, ho3, -, hzero, -, -⟩ := hp
    rw [if_pos (hzero key.packIdx ho (by omega))]

theorem decodeEntry_stable (tb tb2 : TokBuf) (e : TokBufEntry)
    (hst : ∃ ext, tb2.str_table = tb.str_table ++ ext)
    (hsl : ∃ ext2, tb2.interner.str_list = tb.interner.str_list ++ ext2)
    (hwf : EntryWf tb e) :
    decodeEntry tb2 e = decodeEntry tb e ∧ EntryWf tb2 e := by
  obtain ⟨ext, hext⟩ := hst
  obtain ⟨ext2, hext2⟩ := hsl
  obtain ⟨hkn, hpk, hvs, hvi⟩ := hwf
  constructor
  · rcases hk : e.kind with _ | k
    · rw [decodeEntry, decodeEntry, hk]
    · rw [decodeEntry, decodeEntry, hk]
      cases k with
      | staticPack => rfl
      | strLiteral =>
          dsimp only
          rw [hext, StrList.get_append _ _ _ (hvs (Or.inl hk))]
      | decIntLiteral =>
          dsimp only
          rw [hext, StrList.get_append _ _ _ (hvs (Or.inr (Or.inl hk)))]
      | ident =>
          dsimp only
          rw [hext2, StrList.get_append _ _ _ (hvi hk)]
      | linebreak => rfl
      | align => rfl
      | lineComment =>
          dsimp only
          rw [hext, StrList.get_append _ _ _ (hvs (Or.inr (Or.inr hk)))]
      | unexpected => rfl
  · refine ⟨hkn, hpk, fun hc => ?_, fun hc => ?_⟩
    · rw [hext]
      exact StrList.valid_append _ _ _ (hvs hc)
    · rw [hext2]
      exact StrList.valid_append _ _ _ (hvi hc)

theorem flatMap_congr_mem {α β : Type} (l : List α) (f g : α → List β)
    (h : ∀ a ∈ l, f a = g a) : l.flatMap f = l.flatMap g := by
  induction l with
  | nil => rfl
  | cons a l ih =>
      rw [List.flatMap_cons, List.flatMap_cons, h a (List.mem_cons_self _ _),
        ih (fun a' ha' => h a' (List.mem_cons_of_mem _ ha'))]

theorem push_decode (fuel : Nat) (tb : TokBuf) (t : Tok) (tb2 : TokBuf)
    (h : TokBuf.push fuel tb t = some tb2) (hwf : WfTok t) (hinv : BufWf tb) :
    BufWf tb2 ∧ decodeToks tb2 = decodeToks tb ++ [t] ∧
    tb2.buf.length ≤ tb.buf.length + 1 := by
  obtain ⟨hti, hei⟩ := hinv
  cases t with
  | static stok =>
      rw [TokBuf.push] at h
      obtain ⟨hid1, hid31⟩ := staticTok_id_bounds stok
      have hfrom := staticTok_fromId_id stok
      have hsk : (⟨EntryType.staticPack.id * 2 ^ 24 + stok.id⟩ : TokBufEntry).kind =
          some EntryType.staticPack := entry_kind _ _ (by omega)
      have hse : (⟨EntryType.staticPack.id * 2 ^ 24 + stok.id⟩ : TokBufEntry).etc =
          stok.id := entry_etc _ _ (by omega)
      have hsdec : ∀ tbx : TokBuf,
          decodeEntry tbx ⟨EntryType.staticPack.id * 2 ^ 24 + stok.id⟩ =
            [Tok.static stok] := by
        intro tbx
        rw [decodeEntry, hsk]
        dsimp only
        rw [hse]
        exact packToks_single stok.id stok hid1 hid31 hfrom
      rcases hl : tb.buf.getLast? with _ | e
      · rw [pushStaticTok_not_pack tb stok
          (fun e' he' => by rw [hl] at he'; exact absurd he' (by simp))] at h
        simp only [Option.some.injEq] at h
        subst h
        refine ⟨⟨hti, fun e' he' => ?_⟩, ?_, by simp⟩
        · rcases List.mem_append.mp he' with hm | hm
          · exact hei e' hm
          · rw [List.mem_singleton] at hm
            subst hm
            exact entryWf_of_pack _ _ hsk 1
              (by rw [hse]; exact packInv_single stok.id hid1 hid31 (by rw [hfrom]; rfl))
        · rw [decodeToks, decodeToks]
          dsimp only
          rw [List.flatMap_append]
          simp only [List.flatMap_cons, List.flatMap_nil, List.append_nil]
          rw [hsdec]
          exact congrArg (fun l => l ++ [Tok.static stok]) (flatMap_congr_mem _ _ _ (fun a _ => rfl))
      · by_cases hk : e.kind = some EntryType.staticPack
        · obtain ⟨o, hp⟩ := ((hei e (List.mem_of_mem_getLast? hl)).2.1) hk
          have ho3 : o ≤ 3 := hp.2.1
          have hsplit : tb.buf = tb.buf.dropLast ++ [e] := by
            have hne : tb.buf ≠ [] := by
              intro h0
              rw [h0] at hl
              simp at hl
            have hgl := List.getLast?_eq_getLast tb.buf hne
            rw [hgl] at hl
            obtain rfl : tb.buf.getLast hne = e := Option.some_inj.mp hl
            exact (List.dropLast_append_getLast hne).symm
          by_cases ho : o < 3
          · rw [pushStaticTok_fold tb stok e o hl hk hp ho] at h
            simp only [Option.some.injEq] at h
            subst h
            obtain ⟨-, hp2, -, -⟩ := packInv_fold e.etc o stok.id hp ho hid1 hid31
              (by rw [hfrom]; rfl)
            have hlt : 2 ^ (8 * o) * stok.id + e.etc < 2 ^ 24 := by
              obtain ⟨-, -, -, -, -, hbd⟩ := hp2
              calc 2 ^ (8 * o) * stok.id + e.etc < 2 ^ (8 * (o + 1)) := hbd
                _ ≤ 2 ^ 24 := Nat.pow_le_pow_right (by omega) (by omega)
            refine ⟨⟨hti, fun e' he' => ?_⟩, ?_, ?_⟩
            · rcases List.mem_append.mp he' with hm | hm
              · exact hei e' ((List.dropLast_sublist (l := tb.buf)).mem hm)
              · rw [List.mem_singleton] at hm
                subst hm
                exact entryWf_of_pack _ _ (entry_kind _ _ hlt) (o + 1)
                  (by rw [entry_etc _ _ hlt]; exact hp2)
            · rw [decodeToks, decodeToks]
              dsimp only
              conv_rhs => rw [hsplit]
              rw [List.flatMap_append, List.flatMap_append]
              simp only [List.flatMap_cons, List.flatMap_nil, List.append_nil]
              rw [List.append_assoc]
              congr 1
              rw [decodeEntry, entry_kind _ _ hlt]
              dsimp only
              rw [entry_etc _ _ hlt,
                packToks_fold_append e.etc o stok.id stok hp ho hid1 hid31 hfrom,
                decodeEntry, hk]
            · simp only [List.length_append, List.length_dropLast, List.length_cons,
                List.length_nil]
              omega
          · have ho3' : o = 3 := by omega
            subst ho3'
            rw [pushStaticTok_full tb stok e hl hk hp] at h
            simp only [Option.some.injEq] at h
            subst h
            refine ⟨⟨hti, fun e' he' => ?_⟩, ?_, by simp⟩
            · rcases List.mem_append.mp he' with hm | hm
              · exact hei e' hm
              · rw [List.mem_singleton] at hm
                subst hm
                exact entryWf_of_pack _ _ hsk 1
                  (by rw [hse]; exact packInv_single stok.id hid1 hid31 (by rw [hfrom]; rfl))
            · rw [decodeToks, decodeToks]
              dsimp only
              rw [List.flatMap_append]
              simp only [List.flatMap_cons, List.flatMap_nil, List.append_nil]
              rw [hsdec]
              exact congrArg (fun l => l ++ [Tok.static stok]) (flatMap_congr_mem _ _ _ (fun a _ => rfl))
        · rw [pushStaticTok_not_pack tb stok (fun e' he' => by
            rw [hl] at he'
            obtain rfl : e = e' := Option.some_inj.mp he'
            exact hk)] at h
          simp only [Option.some.injEq] at h
          subst h
          refine ⟨⟨hti, fun e' he' => ?_⟩, ?_, by simp⟩
          · rcases List.mem_append.mp he' with hm | hm
            · exact hei e' hm
            · rw [List.mem_singleton] at hm
              subst hm
              exact entryWf_of_pack _ _ hsk 1
                (by rw [hse]; exact packInv_single stok.id hid1 hid31 (by rw [hfrom]; rfl))
          · rw [decodeToks, decodeToks]
            dsimp only
            rw [List.flatMap_append]
            simp only [List.flatMap_cons, List.flatMap_nil, List.append_nil]
            rw [hsdec]
            exact congrArg (fun l => l ++ [Tok.static stok]) (flatMap_congr_mem _ _ _ (fun a _ => rfl))
  | strLiteral bytes =>
      rw [TokBuf.push, TokBuf.pushStrLiteral] at h
      rcases hn : TokBufEntry.new .strLiteral (StrList.push tb.str_table bytes).2 with _ | e
      · rw [hn] at h
        simp at h
      · rw [hn] at h
        dsimp only at h
        simp only [Option.some.injEq] at h
        subst h
        obtain ⟨-, hkind, hetc⟩ := tokBufEntry_new_some _ _ _ hn
        have hst : ∃ ext, (StrList.push tb.str_table bytes).1 = tb.str_table ++ ext :=
          ⟨leBytes 8 bytes.length ++ bytes, List.append_assoc _ _ _⟩
        have hsl : ∃ ext2, tb.interner.str_list = tb.interner.str_list ++ ext2 :=
          ⟨[], (List.append_nil _).symm⟩
        have hstab := fun e' (he' : e' ∈ tb.buf) =>
          decodeEntry_stable tb
            ⟨tb.interner, (StrList.push tb.str_table bytes).1, tb.buf ++ [e],
              tb.lines ++ List.replicate (bytes.count 10) tb.buf.length⟩
            e' hst hsl (hei e' he')
        refine ⟨⟨hti, fun e' he' => ?_⟩, ?_, by simp⟩
        · rcases List.mem_append.mp he' with hm | hm
          · exact (hstab e' hm).2
          · rw [List.mem_singleton] at hm
            subst hm
            refine entryWf_of_wide _ _ _ hkind (by decide) (fun _ => ?_)
              (fun hc => absurd hc (by decide))
            rw [hetc]
            exact StrList.valid_push_self tb.str_table bytes hwf
        · rw [decodeToks, decodeToks]
          dsimp only
          rw [List.flatMap_append]
          simp only [List.flatMap_cons, List.flatMap_nil, List.append_nil]
          rw [flatMap_congr_mem _ _ _ (fun a ha => (hstab a ha).1)]
          congr 1
          rw [decodeEntry, hkind]
          dsimp only
          rw [hetc, StrList.get_push_self tb.str_table bytes hwf]
  | decIntLiteral bytes =>
      rw [TokBuf.push, TokBuf.pushDecIntLiteral] at h
      rcases hn : TokBufEntry.new .decIntLiteral (StrList.push tb.str_table bytes).2 with _ | e
      · rw [hn] at h
        simp at h
      · rw [hn] at h
        dsimp only at h
        simp only [Option.some.injEq] at h
        subst h
        obtain ⟨-, hkind, hetc⟩ := tokBufEntry_new_some _ _ _ hn
        have hst : ∃ ext, (StrList.push tb.str_table bytes).1 = tb.str_table ++ ext :=
          ⟨leBytes 8 bytes.length ++ bytes, List.append_assoc _ _ _⟩
        have hsl : ∃ ext2, tb.interner.str_list = tb.interner.str_list ++ ext2 :=
          ⟨[], (List.append_nil _).symm⟩
        have hstab := fun e' (he' : e' ∈ tb.buf) =>
          decodeEntry_stable tb
            ⟨tb.interner, (StrList.push tb.str_table bytes).1, tb.buf ++ [e], tb.lines⟩
            e' hst hsl (hei e' he')
        refine ⟨⟨hti, fun e' he' => ?_⟩, ?_, by simp⟩
        · rcases List.mem_append.mp he' with hm | hm
          · exact (hstab e' hm).2
          · rw [List.mem_singleton] at hm
            subst hm
            refine entryWf_of_wide _ _ _ hkind (by decide) (fun _ => ?_)
              (fun hc => absurd hc (by decide))
            rw [hetc]
            exact StrList.valid_push_self tb.str_table bytes hwf
        · rw [decodeToks, decodeToks]
          dsimp only
          rw [List.flatMap_append]
          simp only [List.flatMap_cons, List.flatMap_nil, List.append_nil]
          rw [flatMap_congr_mem _ _ _ (fun a ha => (hstab a ha).1)]
          congr 1
          rw [decodeEntry, hkind]
          dsimp only
          rw [hetc, StrList.get_push_self tb.str_table bytes hwf]
  | ident bytes =>
      rw [TokBuf.push, TokBuf.pushIdent] at h
      rcases hi : internF fuel tb.interner bytes with _ | p
      · rw [hi] at h
        simp at h
      · obtain ⟨I2, key⟩ := p
        rw [hi] at h
        dsimp only at h
        rcases hn : TokBufEntry.new .ident key with _ | e
        · rw [hn] at h
          simp at h
        · rw [hn] at h
          dsimp only at h
          simp only [Option.some.injEq] at h
          subst h
          have hpost := intern_spec fuel tb.interner bytes I2 key hi hti hwf
          obtain ⟨-, hkind, hetc⟩ := tokBufEntry_new_some _ _ _ hn
          have hst : ∃ ext, tb.str_table = tb.str_table ++ ext :=
            ⟨[], (List.append_nil _).symm⟩
          have hsl : ∃ ext2, I2.str_list = tb.interner.str_list ++ ext2 := hpost.ext
          have hstab := fun e' (he' : e' ∈ tb.buf) =>
            decodeEntry_stable tb
              ⟨I2, tb.str_table, tb.buf ++ [e], tb.lines⟩
              e' hst hsl (hei e' he')
          refine ⟨⟨hpost.inv, fun e' he' => ?_⟩, ?_, by simp⟩
          · rcases List.mem_append.mp he' with hm | hm
            · exact (hstab e' hm).2
            · rw [List.mem_singleton] at hm
              subst hm
              refine entryWf_of_wide _ _ _ hkind (by decide)
                (fun hc => absurd hc (by decide)) (fun _ => ?_)
              rw [hetc]
              exact hpost.validk
          · rw [decodeToks, decodeToks]
            dsimp only
            rw [List.flatMap_append]
            simp only [List.flatMap_cons, List.flatMap_nil, List.append_nil]
            rw [flatMap_congr_mem _ _ _ (fun a ha => (hstab a ha).1)]
            congr 1
            rw [decodeEntry, hkind]
            dsimp only
            rw [hetc, hpost.bytes]
  | linebreak =>
      rw [TokBuf.push, TokBuf.pushLinebreak] at h
      rcases hn : TokBufEntry.new .linebreak 0 with _ | e
      · rw [hn] at h
        simp at h
      · rw [hn] at h
        dsimp only at h
        simp only [Option.some.injEq] at h
        subst h
        obtain ⟨-, hkind, -⟩ := tokBufEntry_new_some _ _ _ hn
        refine ⟨⟨hti, fun e' he' => ?_⟩, ?_, by simp⟩
        · rcases List.mem_append.mp he' with hm | hm
          · exact hei e' hm
          · rw [List.mem_singleton] at hm
            subst hm
            exact entryWf_of_wide _ _ _ hkind (by decide)
              (fun hc => absurd hc (by decide)) (fun hc => absurd hc (by decide))
        · rw [decodeToks, decodeToks]
          dsimp only
          rw [List.flatMap_append]
          simp only [List.flatMap_cons, List.flatMap_nil, List.append_nil]
          congr 1
          rw [decodeEntry, hkind]
  | align count =>
      rw [TokBuf.push, TokBuf.pushAlign] at h
      rcases hn : TokBufEntry.new .align count with _ | e
      · rw [hn] at h
        simp at h
      · rw [hn] at h
        dsimp only at h
        simp only [Option.some.injEq] at h
        subst h
        obtain ⟨-, hkind, hetc⟩ := tokBufEntry_new_some _ _ _ hn
        refine ⟨⟨hti, fun e' he' => ?_⟩, ?_, by simp⟩
        · rcases List.mem_append.mp he' with hm | hm
          · exact hei e' hm
          · rw [List.mem_singleton] at hm
            subst hm
            exact entryWf_of_wide _ _ _ hkind (by decide)
              (fun hc => absurd hc (by decide)) (fun hc => absurd hc (by decide))
        · rw [decodeToks, decodeToks]
          dsimp only
          rw [List.flatMap_append]
          simp only [List.flatMap_cons, List.flatMap_nil, List.append_nil]
          congr 1
          rw [decodeEntry, hkind]
          dsimp only
          rw [hetc]
  | lineComment bytes =>
      rw [TokBuf.push, TokBuf.pushLineComment] at h
      rcases hn : TokBufEntry.new .lineComment (StrList.push tb.str_table bytes).2 with _ | e
      · rw [hn] at h
        simp at h
      · rw [hn] at h
        dsimp only at h
        simp only [Option.some.injEq] at h
        subst h
        obtain ⟨-, hkind, hetc⟩ := tokBufEntry_new_some _ _ _ hn
        have hst : ∃ ext, (StrList.push tb.str_table bytes).1 = tb.str_table ++ ext :=
          ⟨leBytes 8 bytes.length ++ bytes, List.append_assoc _ _ _⟩
        have hsl : ∃ ext2, tb.interner.str_list = tb.interner.str_list ++ ext2 :=
          ⟨[], (List.append_nil _).symm⟩
        have hstab := fun e' (he' : e' ∈ tb.buf) =>
          decodeEntry_stable tb
            ⟨tb.interner, (StrList.push tb.str_table bytes).1, tb.buf ++ [e], tb.lines⟩
            e' hst hsl (hei e' he')
        refine ⟨⟨hti, fun e' he' => ?_⟩, ?_, by simp⟩
        · rcases List.mem_append.mp he' with hm | hm
          · exact (hstab e' hm).2
          · rw [List.mem_singleton] at hm
            subst hm
            refine entryWf_of_wide _ _ _ hkind (by decide) (fun _ => ?_)
              (fun hc => absurd hc (by decide))
            rw [hetc]
            exact StrList.valid_push_self tb.str_table bytes hwf
        · rw [decodeToks, decodeToks]
          dsimp only
          rw [List.flatMap_append]
          simp only [List.flatMap_cons, List.flatMap_nil, List.append_nil]
          rw [flatMap_congr_mem _ _ _ (fun a ha => (hstab a ha).1)]
          congr 1
          rw [decodeEntry, hkind]
          dsimp only
          rw [hetc, StrList.get_push_self tb.str_table bytes hwf]
  | unexpected ch =>
      rw [TokBuf.push, TokBuf.pushUnexpected] at h
      rcases hn : TokBufEntry.new .unexpected ch with _ | e
      · rw [hn] at h
        simp at h
      · rw [hn] at h
        dsimp only at h
        simp only [Option.some.injEq] at h
        subst h
        obtain ⟨-, hkind, hetc⟩ := tokBufEntry_new_some _ _ _ hn
        refine ⟨⟨hti, fun e' he' => ?_⟩, ?_, by simp⟩
        · rcases List.mem_append.mp he' with hm | hm
          · exact hei e' hm
          · rw [List.mem_singleton] at hm
            subst hm
            exact entryWf_of_wide _ _ _ hkind (by decide)
              (fun hc => absurd hc (by decide)) (fun hc => absurd hc (by decide))
        · rw [decodeToks, decodeToks]
          dsimp only
          rw [List.flatMap_append]
          simp only [List.flatMap_cons, List.flatMap_nil, List.append_nil]
          congr 1
          rw [decodeEntry, hkind]
          dsimp only
          rw [hetc, Nat.mod_eq_of_lt hwf]

theorem pushAll_decode (fuel : Nat) (toks : List Tok) :
    ∀ (tb tb2 : TokBuf), TokBuf.pushAll fuel toks tb = some tb2 →
      (∀ t ∈ toks, WfTok t) → BufWf tb →
      BufWf tb2 ∧ decodeToks tb2 = decodeToks tb ++ toks ∧
      tb2.buf.length ≤ tb.buf.length + toks.length := by
  induction toks with
  | nil =>
      intro tb tb2 h _ hinv
      rw [TokBuf.pushAll] at h
      simp only [Option.some.injEq] at h
      subst h
      exact ⟨hinv, by simp, by simp⟩
  | cons t toks ih =>
      intro tb tb2 h hwf hinv
      rw [TokBuf.pushAll] at h
      rcases hp : TokBuf.push fuel tb t with _ | tbmid
      · rw [hp] at h
        simp at h
      · rw [hp] at h
        dsimp only at h
        obtain ⟨hinv2, hdec, hlen⟩ :=
          push_decode fuel tb t tbmid hp (hwf t (List.mem_cons_self _ _)) hinv
        obtain ⟨hinv3, hdec3, hlen3⟩ :=
          ih tbmid tb2 h (fun t' ht' => hwf t' (List.mem_cons_of_mem _ ht')) hinv2
        refine ⟨hinv3, ?_, by simp only [List.length_cons]; omega⟩
        rw [hdec3, hdec, List.append_assoc, List.singleton_append]

theorem bufWf_empty : BufWf (TokBuf.empty StrInterner.default) :=
  ⟨tableInv_empty [], fun e he => by simp [TokBuf.empty] at he⟩

theorem cursorRest_zero (tb : TokBuf) (addr : Nat) :
    cursorRest tb addr 0 = (tb.buf.drop addr).flatMap (decodeEntry tb) := by
  rw [cursorRest]
  rcases hb : tb.buf[addr]? with _ | e
  · have hge : tb.buf.length ≤ addr := by
      by_contra hc
      rw [List.getElem?_eq_getElem (by omega)] at hb
      simp at hb
    rw [List.drop_eq_nil_of_le hge, List.drop_eq_nil_of_le (by omega)]
    simp
  · have hlt : addr < tb.buf.length := by
      by_contra hc
      rw [List.getElem?_eq_none (by omega)] at hb
      simp at hb
    have hdcons : tb.buf.drop addr = e :: tb.buf.drop (addr + 1) := by
      rw [List.drop_eq_getElem_cons hlt]
      congr 1
      rw [List.getElem?_eq_getElem hlt] at hb
      exact Option.some_inj.mp hb
    rw [hdcons, List.flatMap_cons]
    dsimp only
    rw [List.drop_zero]

theorem cursor_run (tb : TokBuf) (hinv : ∀ e ∈ tb.buf, EntryWf tb e)
    (hlen : tb.buf.length ≤ Key.ADDR_MAX) :
    ∀ (fuel addr pidx : Nat), addr ≤ tb.buf.length →
      (pidx = 0 ∨ ∃ e o, tb.buf[addr]? = some e ∧ e.kind = some EntryType.staticPack ∧
        PackInv e.etc o ∧ pidx < o) →
      (cursorRest tb addr pidx).length < fuel →
      cursorToList tb fuel ⟨pidx + addr * 2 ^ 8⟩ = some (cursorRest tb addr pidx) := by
  intro fuel
  induction fuel with
  | zero =>
      intro addr pidx _ _ hf
      omega
  | succ fuel ih =>
      intro addr pidx haddr hstate hf
      have hpidx2 : pidx ≤ 2 := by
        rcases hstate with h0 | ⟨e, o, -, -, hp, hplt⟩
        · omega
        · have := hp.2.1
          omega
      obtain ⟨hka, hkp⟩ := key_addr_packIdx addr pidx (by omega)
      rcases hb : tb.buf[addr]? with _ | e
      · have hp0 : pidx = 0 := by
          rcases hstate with h0 | ⟨e, o, hb2, -, -, -⟩
          · exact h0
          · rw [hb] at hb2
            exact absurd hb2 (by simp)
        subst hp0
        have hget : tb.get ⟨0 + addr * 2 ^ 8⟩ = GetOut.notFound := by
          rw [TokBuf.get, hka, hb]
        have hrest : cursorRest tb addr 0 = [] := by
          have hge : tb.buf.length ≤ addr := by
            by_contra hc
            rw [List.getElem?_eq_getElem (by omega)] at hb
            simp at hb
          rw [cursorRest_zero, List.drop_eq_nil_of_le hge, List.flatMap_nil]
        rw [cursorToList, cursorNext, hget]
        dsimp only
        rw [hrest]
      · have hblt : addr < tb.buf.length := by
          by_contra hc
          rw [List.getElem?_eq_none (by omega)] at hb
          simp at hb
        have haddrMax : addr ≤ Key.ADDR_MAX := by omega
        obtain ⟨hkn, hpk, hvs, hvi⟩ := hinv e (List.getElem?_mem hb)
        by_cases hk : e.kind = some EntryType.staticPack
        · obtain ⟨o, hp⟩ := hpk hk
          have hplt : pidx < o := by
            rcases hstate with h0 | ⟨e2, o2, hb2, -, hp2, hlt2⟩
            · subst h0
              have := hp.1
              omega
            · rw [hb] at hb2
              obtain rfl : e = e2 := Option.some_inj.mp hb2
              have ho2 := occupied_of_packInv _ _ hp
              have ho2' := occupied_of_packInv _ _ hp2
              omega
          have hocc := hp.2.2.1
          obtain ⟨s, hs⟩ := Option.isSome_iff_exists.mp (hocc pidx hplt).2
          have hnz : ¬ (slotId e.etc pidx = 0) := (hocc pidx hplt).1
          have hget : tb.get ⟨pidx + addr * 2 ^ 8⟩ = GetOut.found (Tok.static s) := by
            refine get_pack_found tb _ e s ?_ hk ?_ ?_ ?_
            · rw [hka]
              exact hb
            · rw [hkp]
              omega
            · rw [hkp]
              exact hs
            · rw [hkp]
              exact hnz
          have hdec : decodeEntry tb e = (List.range o).map
              (fun p => Tok.static ((StaticTok.fromId (slotId e.etc p)).getD
                StaticTok.If)) := by
            rw [decodeEntry, hk]
            dsimp only
            exact packToks_packInv e.etc o hp
          have hlen_dec : (decodeEntry tb e).length = o := by
            rw [hdec]
            simp
          have hidx : (decodeEntry tb e)[pidx]? = some (Tok.static s) := by
            rw [hdec, List.getElem?_map, List.getElem?_range hplt]
            simp [hs]
          have hstep : (decodeEntry tb e).drop pidx =
              Tok.static s :: (decodeEntry tb e).drop (pidx + 1) := by
            have hplen : pidx < (decodeEntry tb e).length := by omega
            rw [List.drop_eq_getElem_cons hplen]
            congr 1
            exact Option.some_inj.mp ((List.getElem?_eq_getElem hplen).symm.trans hidx)
          have hcr : cursorRest tb addr pidx =
              Tok.static s :: cursorRest tb addr (pidx + 1) := by
            rw [cursorRest, cursorRest, hb]
            dsimp only
            rw [hstep, List.cons_append]
          have hnew1 : Key.new addr (pidx + 1) = some ⟨(pidx + 1) + addr * 2 ^ 8⟩ := by
            rw [Key.new, if_pos haddrMax]
          obtain ⟨hka2, hkp2⟩ := key_addr_packIdx addr (pidx + 1) (by omega)
          by_cases hnext : pidx + 1 < o
          · obtain ⟨s2, hs2⟩ := Option.isSome_iff_exists.mp (hocc (pidx + 1) hnext).2
            have hget2 : tb.get ⟨(pidx + 1) + addr * 2 ^ 8⟩ =
                GetOut.found (Tok.static s2) := by
              refine get_pack_found tb _ e s2 ?_ hk ?_ ?_ ?_
              · rw [hka2]
                exact hb
              · rw [hkp2]
                have := hp.2.1
                omega
              · rw [hkp2]
                exact hs2
              · rw [hkp2]
                exact (hocc (pidx + 1) hnext).1
            have hrec := ih addr (pidx + 1) haddr
              (Or.inr ⟨e, o, hb, hk, hp, hnext⟩)
              (by rw [hcr] at hf; simp only [List.length_cons] at hf; omega)
            rw [cursorToList, cursorNext, hget]
            dsimp only
            rw [hka, hkp, hnew1]
            dsimp only
            rw [hget2]
            dsimp only
            rw [hrec]
            dsimp only
            rw [hcr]
          · have hget2 : tb.get ⟨(pidx + 1) + addr * 2 ^ 8⟩ = GetOut.notFound := by
              refine get_pack_miss tb _ e o ?_ hk hp ?_
              · rw [hka2]
                exact hb
              · rw [hkp2]
                omega
            have hnew2 : Key.new (addr + 1) 0 = some ⟨0 + (addr + 1) * 2 ^ 8⟩ := by
              rw [Key.new, if_pos (by omega)]
            have hdropend : (decodeEntry tb e).drop (pidx + 1) = [] := by
              apply List.drop_eq_nil_of_le
              omega
            have hcr2 : cursorRest tb addr pidx =
                Tok.static s :: cursorRest tb (addr + 1) 0 := by
              rw [hcr]
              congr 1
              rw [cursorRest, hb]
              dsimp only
              rw [hdropend, List.nil_append, cursorRest_zero]
            have hrec := ih (addr + 1) 0 (by omega) (Or.inl rfl)
              (by rw [hcr2] at hf; simp only [List.length_cons] at hf; omega)
            rw [cursorToList, cursorNext, hget]
            dsimp only
            rw [hka, hkp, hnew1]
            dsimp only
            rw [hget2]
            dsimp only
            rw [hnew2]
            dsimp only
            rw [hrec]
            dsimp only
            rw [hcr2]
        · have hp0 : pidx = 0 := by
            rcases hstate with h0 | ⟨e2, o2, hb2, hk2, -, -⟩
            · exact h0
            · rw [hb] at hb2
              obtain rfl : e = e2 := Option.some_inj.mp hb2
              exact absurd hk2 hk
          subst hp0
          rcases hke : e.kind with _ | k
          · exact absurd hke hkn
          · have hknp : k ≠ EntryType.staticPack := by
              intro hc
              subst hc
              exact hk hke
            obtain ⟨t, hget, hdect⟩ := get_wide_found tb ⟨0 + addr * 2 ^ 8⟩ e k
              (by rw [hka]; exact hb) hke hknp (by rw [hkp])
              (hinv e (List.getElem?_mem hb))
            obtain ⟨hka2, hkp2⟩ := key_addr_packIdx addr 1 (by norm_num)
            have hget2 : tb.get ⟨1 + addr * 2 ^ 8⟩ = GetOut.notFound :=
              get_nonpack_notFound tb _ e k (by rw [hka2]; exact hb) hke hknp
                (by rw [hkp2]; omega)
            have hnew1 : Key.new addr (0 + 1) = some ⟨(0 + 1) + addr * 2 ^ 8⟩ := by
              rw [Key.new, if_pos haddrMax]
            have hnew2 : Key.new (addr + 1) 0 = some ⟨0 + (addr + 1) * 2 ^ 8⟩ := by
              rw [Key.new, if_pos (by omega)]
            have hcr : cursorRest tb addr 0 = t :: cursorRest tb (addr + 1) 0 := by
              rw [cursorRest, hb]
              dsimp only
              rw [List.drop_zero, hdect, cursorRest_zero, List.singleton_append]
            have hrec := ih (addr + 1) 0 (by omega) (Or.inl rfl)
              (by rw [hcr] at hf; simp only [List.length_cons] at hf; omega)
            rw [cursorToList, cursorNext, hget]
            dsimp only
            rw [hka, hkp, hnew1]
            dsimp only
            rw [hget2]
            dsimp only
            rw [hnew2]
            dsimp only
            rw [hrec]
            dsimp only
            rw [hcr]

/-- Pushing `n` linebreak tokens appends `n` linebreak entries. -/
theorem pushAll_linebreaks (fuel : Nat) : ∀ (n : Nat) (tb : TokBuf),
    ∃ lines2, TokBuf.pushAll fuel (List.replicate n Tok.linebreak) tb =
      some ⟨tb.interner, tb.str_table,
        tb.buf ++ List.replicate n ⟨EntryType.linebreak.id * 2 ^ 24 + 0⟩, lines2⟩ := by
  intro n
  induction n with
  | zero =>
      intro tb
      refine ⟨tb.lines, ?_⟩
      rw [List.replicate_zero, TokBuf.pushAll]
      simp
  | succ n ih =>
      intro tb
      rw [List.replicate_succ, TokBuf.pushAll, TokBuf.push, TokBuf.pushLinebreak]
      have hnew : TokBufEntry.new .linebreak 0 =
          some ⟨EntryType.linebreak.id * 2 ^ 24 + 0⟩ := by
        rw [TokBufEntry.new, if_pos (by norm_num)]
      rw [hnew]
      dsimp only
      obtain ⟨lines2, hrec⟩ := ih ⟨tb.interner, tb.str_table,
        tb.buf ++ [⟨EntryType.linebreak.id * 2 ^ 24 + 0⟩], tb.lines ++ [tb.buf.length]⟩
      refine ⟨lines2, ?_⟩
      rw [hrec]
      simp [List.replicate_succ, List.append_assoc]

/-- On a buffer of `2^24` linebreak entries, cursor iteration always panics: the
advance past the last entry asserts `addr <= ADDR_MAX` with `addr = 2^24`. -/
theorem cursor_panics (tb : TokBuf) (hlen : tb.buf.length = 2 ^ 24)
    (hall : ∀ e ∈ tb.buf, e.kind = some EntryType.linebreak) :
    ∀ (fuel addr : Nat), addr < 2 ^ 24 →
      cursorToList tb fuel ⟨0 + addr * 2 ^ 8⟩ = none := by
  intro fuel
  induction fuel with
  | zero =>
      intro addr _
      rw [cursorToList]
  | succ fuel ih =>
      intro addr haddr
      obtain ⟨hka, hkp⟩ := key_addr_packIdx addr 0 (by norm_num)
      obtain ⟨hka2, hkp2⟩ := key_addr_packIdx addr 1 (by norm_num)
      have hblt : addr < tb.buf.length := by omega
      have hb : tb.buf[addr]? = some tb.buf[addr] := List.getElem?_eq_getElem hblt
      have hk := hall _ (List.getElem_mem hblt)
      have hget : tb.get ⟨0 + addr * 2 ^ 8⟩ = GetOut.found Tok.linebreak := by
        rw [TokBuf.get, hka, hb]
        dsimp only
        rw [hk]
        dsimp only
        rw [if_neg (show ¬ (EntryType.linebreak ≠ EntryType.staticPack ∧
          (⟨0 + addr * 2 ^ 8⟩ : Key).packIdx ≠ 0) from fun hc => hc.2 hkp)]
      have hget2 : tb.get ⟨1 + addr * 2 ^ 8⟩ = GetOut.notFound :=
        get_nonpack_notFound tb _ tb.buf[addr] EntryType.linebreak
          (by rw [hka2]; exact hb) hk (by decide) (by rw [hkp2]; omega)
      have hnew1 : Key.new addr (0 + 1) = some ⟨(0 + 1) + addr * 2 ^ 8⟩ := by
        rw [Key.new, if_pos (by rw [Key.ADDR_MAX]; omega)]
      rw [cursorToList, cursorNext, hget]
      dsimp only
      rw [hka, hkp, hnew1]
      dsimp only
      rw [show (⟨(0 + 1) + addr * 2 ^ 8⟩ : Key) = ⟨1 + addr * 2 ^ 8⟩ from rfl, hget2]
      dsimp only
      by_cases hend : addr + 1 < 2 ^ 24
      · have hnew2 : Key.new (addr + 1) 0 = some ⟨0 + (addr + 1) * 2 ^ 8⟩ := by
          rw [Key.new, if_pos (by rw [Key.ADDR_MAX]; omega)]
        rw [hnew2]
        dsimp only
        rw [ih (addr + 1) hend]
      · have hnew2 : Key.new (addr + 1) 0 = none := by
          rw [Key.new, if_neg (by rw [Key.ADDR_MAX]; omega)]
        rw [hnew2]

/-- C3 counterexample: the roundtrip fails without a bound on the token count. A
sequence of `2^24` well-formed tokens pushes fine, but iterating the resulting buffer
with the cursor panics (for every fuel) instead of returning the sequence: advancing
past entry `2^24 - 1` constructs a key with address `2^24 > ADDR_MAX`. -/
theorem claim_C3_counterexample :
    ∃ tb, TokBuf.pushAll 1 (List.replicate (2 ^ 24) Tok.linebreak)
        (TokBuf.empty StrInterner.default) = some tb ∧
      (∀ t ∈ List.replicate (2 ^ 24) Tok.linebreak, WfTok t) ∧
      ∀ fuel, cursorToList tb fuel Key.zero = none := by
  obtain ⟨lines2, hpush⟩ :=
    pushAll_linebreaks 1 (2 ^ 24) (TokBuf.empty StrInterner.default)
  refine ⟨_, hpush, ?_, ?_⟩
  · intro t ht
    rw [List.eq_of_mem_replicate ht]
    exact trivial
  · intro fuel
    have hlen : (⟨(TokBuf.empty StrInterner.default).interner,
        (TokBuf.empty StrInterner.default).str_table,
        (TokBuf.empty StrInterner.default).buf ++
          List.replicate (2 ^ 24) ⟨EntryType.linebreak.id * 2 ^ 24 + 0⟩,
        lines2⟩ : TokBuf).buf.length = 2 ^ 24 := by
      rw [show (TokBuf.empty StrInterner.default).buf = [] from rfl, List.nil_append,
        List.length_replicate]
    have hall : ∀ e ∈ (⟨(TokBuf.empty StrInterner.default).interner,
        (TokBuf.empty StrInterner.default).str_table,
        (TokBuf.empty StrInterner.default).buf ++
          List.replicate (2 ^ 24) ⟨EntryType.linebreak.id * 2 ^ 24 + 0⟩,
        lines2⟩ : TokBuf).buf, e.kind = some EntryType.linebreak := by
      intro e he
      simp only [TokBuf.empty, List.nil_append] at he
      rw [List.eq_of_mem_replicate he]
      exact entry_kind EntryType.linebreak 0 (by norm_num)
    have h := cursor_panics _ hlen hall fuel 0 (by norm_num)
    rw [show Key.zero = (⟨0 + 0 * 2 ^ 8⟩ : Key) from rfl]
    exact h

/-- C3 (amended): the roundtrip holds for buffers of fewer than `2^24` well-formed
tokens pushed from fresh: cursor iteration returns exactly the pushed sequence. The
well-formedness is the claim's: literal, comment and identifier tokens carry byte
strings (of `usize` length), an unexpected token carries one byte, and the count
bound keeps every cursor key's address within `ADDR_MAX`. -/
theorem claim_C3_roundtrip (fuel : Nat) (toks : List Tok) (tb : TokBuf)
    (hrun : TokBuf.pushAll fuel toks (TokBuf.empty StrInterner.default) = some tb)
    (hwf : ∀ t ∈ toks, WfTok t) (hbound : toks.length < 2 ^ 24) :
    cursorToList tb (toks.length + 1) Key.zero = some toks := by
  obtain ⟨hinv, hdec, hlen⟩ := pushAll_decode fuel toks _ tb hrun hwf bufWf_empty
  have hdec2 : decodeToks tb = toks := by
    rw [hdec, decodeToks]
    simp [TokBuf.empty]
  have hlen2 : tb.buf.length ≤ Key.ADDR_MAX := by
    rw [Key.ADDR_MAX]
    simp only [TokBuf.empty, List.length_nil] at hlen
    omega
  have hcr0 : cursorRest tb 0 0 = toks := by
    rw [cursorRest_zero, List.drop_zero, ← decodeToks, hdec2]
  have h := cursor_run tb hinv.2 hlen2 (toks.length + 1) 0 0 (by omega) (Or.inl rfl)
    (by rw [hcr0]; omega)
  rw [show Key.zero = (⟨0 + 0 * 2 ^ 8⟩ : Key) from rfl, h, hcr0]

theorem claim_C3_roundtrip_witness :
    cursorToList ⟨StrInterner.default, [], [⟨5 * 2 ^ 24⟩, ⟨6 * 2 ^ 24 + 7⟩], [0]⟩ 3
      Key.zero = some [Tok.linebreak, Tok.align 7] :=
  claim_C3_roundtrip 1 [Tok.linebreak, Tok.align 7]
    ⟨StrInterner.default, [], [⟨5 * 2 ^ 24⟩, ⟨6 * 2 ^ 24 + 7⟩], [0]⟩ (by decide)
    (by
      intro t ht
      rcases List.mem_cons.mp ht with rfl | ht2
      · exact trivial
      · rw [List.mem_singleton] at ht2
        subst ht2
        exact trivial)
    (by norm_num)

end Cyan
